import Mathlib

/-!
Verification development for the document image pipeline of
`ai-image-intent-namer` (`src/tool/ai_image_intent_namer.py`).

The Python source is shallowly embedded: strings become `List Char`,
the filesystem becomes an association list from path strings to abstract
content numbers, JSON values become an inductive type with integer
numbers, and each relevant Python function is translated into an
executable Lean function.  Regular-expression operations are translated
into equivalent character-list scanners following the semantics of the
concrete patterns used by the source.
-/

namespace ImgNamer

/-- Backtick character (written by code to avoid literal backticks). -/
def bt : Char := '\x60'

/-- Left curly brace. -/
def lb : Char := '\x7b'

/-- Right curly brace. -/
def rb : Char := '\x7d'

/-- Unicode BOM, stripped by `safe_parse_json` via `lstrip("﻿")`. -/
def bomChar : Char := '﻿'

/-- Whitespace as matched by Python `str.strip()` and the `\s` class
(ASCII portion, which is all that the modelled inputs contain). -/
def isWsChar (c : Char) : Bool :=
  c = ' ' || c = '\t' || c = '\n' || c = '\r' || c = '\x0b' || c = '\x0c'

/-- Whitespace skipped by Python `json.loads` between tokens. -/
def isJsonWs (c : Char) : Bool :=
  c = ' ' || c = '\t' || c = '\n' || c = '\r'

/-- ASCII decimal digit test. -/
def isDigitChar (c : Char) : Bool :=
  48 ≤ c.toNat && c.toNat ≤ 57

/-- `pat` is a leading segment of `s`. -/
def startsWithL : List Char → List Char → Bool
  | [], _ => true
  | _ :: _, [] => false
  | p :: ps, c :: cs => p = c && startsWithL ps cs

/-- Remove trailing whitespace (`str.rstrip()` / greedy `\s*` before an anchor). -/
def dropTrailWs (s : List Char) : List Char :=
  (s.reverse.dropWhile isWsChar).reverse

/-- Python `str.strip()`. -/
def pyStrip (s : List Char) : List Char :=
  dropTrailWs (s.dropWhile isWsChar)

/-- Index of the first occurrence of `pat` in `s` (`re.search` on a literal). -/
def findSubIdx (pat : List Char) (s : List Char) : Option Nat :=
  match s with
  | [] => if pat = [] then some 0 else none
  | _ :: tl =>
    if startsWithL pat s then some 0
    else (findSubIdx pat tl).map (· + 1)

/-- The decimal digits of `n`, most significant first; the fuel bounds
the digit count (`n` itself always suffices). -/
def natCharsGo : Nat → Nat → List Char → List Char
  | 0, _, acc => acc
  | fuel + 1, n, acc =>
    if n = 0 then acc
    else natCharsGo fuel (n / 10) (Char.ofNat (48 + n % 10) :: acc)

/-- Decimal representation of a natural number. -/
def natChars (n : Nat) : List Char :=
  if n = 0 then ['0'] else natCharsGo n n []

/-- Decimal representation of an integer (Python `json.dumps` on an int). -/
def intChars (n : Int) : List Char :=
  if n < 0 then '-' :: natChars n.natAbs else natChars n.natAbs

/-- Numeric value of a digit list (fold used by the number parser). -/
def digitsVal (ds : List Char) : Nat :=
  ds.foldl (fun a c => a * 10 + (c.toNat - 48)) 0

/-!  ## JSON data model

JSON values as handled by `json.loads` / `json.dumps` in the source,
restricted to integer numbers (the repository's plan/mapping payloads and
the model-response schema use strings, integers and containers; floating
point is outside the embedding).  Arrays and objects use dedicated list
types so that mutual structural induction is available.  -/

mutual
inductive Json where
  | jnull : Json
  | jbool : Bool → Json
  | jnum : Int → Json
  | jstr : List Char → Json
  | jarr : JArr → Json
  | jobj : JObj → Json
deriving DecidableEq

inductive JArr where
  | anil : JArr
  | acons : Json → JArr → JArr
deriving DecidableEq

inductive JObj where
  | onil : JObj
  | ocons : List Char → Json → JObj → JObj
deriving DecidableEq
end

/-- Escape a character for a JSON string literal (quote and backslash;
the modelled value class never requires other escapes). -/
def escChar (c : Char) : List Char :=
  if c = '"' || c = '\\' then ['\\', c] else [c]

mutual
/-- Compact serialization of a JSON value (a standard `json.dumps` form,
with no whitespace between tokens). -/
def dumps : Json → List Char
  | .jnull => ['n', 'u', 'l', 'l']
  | .jbool true => ['t', 'r', 'u', 'e']
  | .jbool false => ['f', 'a', 'l', 's', 'e']
  | .jnum n => intChars n
  | .jstr s => '"' :: s.flatMap escChar ++ ['"']
  | .jarr a => '[' :: dumpsArr a
  | .jobj o => lb :: dumpsObj o

/-- Array elements of the compact serialization, including the closing bracket. -/
def dumpsArr : JArr → List Char
  | .anil => [']']
  | .acons v .anil => dumps v ++ [']']
  | .acons v tl => dumps v ++ ',' :: dumpsArr tl

/-- Object members of the compact serialization, including the closing brace. -/
def dumpsObj : JObj → List Char
  | .onil => [rb]
  | .ocons k v .onil => '"' :: k.flatMap escChar ++ '"' :: ':' :: dumps v ++ [rb]
  | .ocons k v tl => '"' :: k.flatMap escChar ++ '"' :: ':' :: dumps v ++ ',' :: dumpsObj tl
end

mutual
/-- Serialization variant with a trailing comma inserted before the closing
delimiter of every non-empty array and object (the "obj_with_trailing_comma"
transformation of the specification's JSON-repair property). -/
def dumpsT : Json → List Char
  | .jnull => ['n', 'u', 'l', 'l']
  | .jbool true => ['t', 'r', 'u', 'e']
  | .jbool false => ['f', 'a', 'l', 's', 'e']
  | .jnum n => intChars n
  | .jstr s => '"' :: s.flatMap escChar ++ ['"']
  | .jarr a => '[' :: dumpsTArr a
  | .jobj o => lb :: dumpsTObj o

/-- Array elements of the trailing-comma serialization. -/
def dumpsTArr : JArr → List Char
  | .anil => [']']
  | .acons v .anil => dumpsT v ++ [',', ']']
  | .acons v tl => dumpsT v ++ ',' :: dumpsTArr tl

/-- Object members of the trailing-comma serialization. -/
def dumpsTObj : JObj → List Char
  | .onil => [rb]
  | .ocons k v .onil => '"' :: k.flatMap escChar ++ '"' :: ':' :: dumpsT v ++ [',', rb]
  | .ocons k v tl => '"' :: k.flatMap escChar ++ '"' :: ':' :: dumpsT v ++ ',' :: dumpsTObj tl
end

/-- Wrap a serialized payload in a Markdown code fence, the way language
models wrap JSON responses (the "wrap_in_code_fence" transformation). -/
def fenceWrap (s : List Char) : List Char :=
  [bt, bt, bt, 'j', 's', 'o', 'n', '\n'] ++ s ++ '\n' :: [bt, bt, bt]

/-!  ## Model of `json.loads`

A strict recursive-descent parser with explicit fuel; any parse failure
(the Python exception that `safe_parse_json` catches) is `none`. -/

/-- Skip inter-token whitespace. -/
def skipWs (s : List Char) : List Char := s.dropWhile isJsonWs

/-- Parse a string body after the opening quote.  Strict mode: raw control
characters are rejected; the standard escapes are decoded. -/
def parseStrBody : List Char → Option (List Char × List Char)
  | [] => none
  | c :: rest =>
    if c = '"' then some ([], rest)
    else if c = '\\' then
      match rest with
      | [] => none
      | e :: rest2 =>
        let dec : Option Char :=
          if e = '"' then some '"'
          else if e = '\\' then some '\\'
          else if e = '/' then some '/'
          else if e = 'n' then some '\n'
          else if e = 't' then some '\t'
          else if e = 'r' then some '\r'
          else if e = 'b' then some '\x08'
          else if e = 'f' then some '\x0c'
          else none
        match dec with
        | none => none
        | some d =>
          match parseStrBody rest2 with
          | none => none
          | some (body, rem) => some (d :: body, rem)
    else if c.toNat < 32 then none
    else
      match parseStrBody rest with
      | none => none
      | some (body, rem) => some (c :: body, rem)

/-- Parse an integer numeral (the embedding's number class; a fractional
or exponent suffix is outside the modelled value class and rejected). -/
def parseNum (s : List Char) : Option (Json × List Char) :=
  let neg := startsWithL ['-'] s
  let t := if neg then s.drop 1 else s
  let ds := t.takeWhile isDigitChar
  let rem := t.dropWhile isDigitChar
  if ds = [] then none
  else
    match rem with
    | c :: _ =>
      if c = '.' || c = 'e' || c = 'E' then none
      else some (.jnum (if neg then -(digitsVal ds : Int) else (digitsVal ds : Int)), rem)
    | [] => some (.jnum (if neg then -(digitsVal ds : Int) else (digitsVal ds : Int)), [])

mutual
/-- Parse one JSON value (after skipping leading whitespace). -/
def parseVal : Nat → List Char → Option (Json × List Char)
  | 0, _ => none
  | fuel + 1, s =>
    match skipWs s with
    | [] => none
    | c :: rest =>
      if c = lb then parseObjTail fuel rest
      else if c = '[' then parseArrTail fuel rest
      else if c = '"' then
        match parseStrBody rest with
        | none => none
        | some (body, rem) => some (.jstr body, rem)
      else if c = 't' then
        if startsWithL ['r', 'u', 'e'] rest then some (.jbool true, rest.drop 3) else none
      else if c = 'f' then
        if startsWithL ['a', 'l', 's', 'e'] rest then some (.jbool false, rest.drop 4) else none
      else if c = 'n' then
        if startsWithL ['u', 'l', 'l'] rest then some (.jnull, rest.drop 3) else none
      else if c = '-' || isDigitChar c then parseNum (c :: rest)
      else none

/-- Parse the remainder of an object after its opening brace. -/
def parseObjTail : Nat → List Char → Option (Json × List Char)
  | 0, _ => none
  | fuel + 1, s =>
    match skipWs s with
    | [] => none
    | c :: rest =>
      if c = rb then some (.jobj .onil, rest)
      else if c = '"' then parseMembers fuel (c :: rest)
      else none

/-- Parse one or more `"key": value` members followed by `}`.
After a comma the next member's key is required, so a trailing comma
before the closing brace is a parse error, as in strict `json.loads`. -/
def parseMembers : Nat → List Char → Option (Json × List Char)
  | 0, _ => none
  | fuel + 1, s =>
    match skipWs s with
    | [] => none
    | c :: rest =>
      if c = '"' then
        match parseStrBody rest with
        | none => none
        | some (key, rem) =>
          match skipWs rem with
          | ':' :: rem2 =>
            match parseVal fuel rem2 with
            | none => none
            | some (v, rem3) =>
              match skipWs rem3 with
              | ',' :: rem4 =>
                match parseMembers fuel rem4 with
                | some (.jobj o, rem5) => some (.jobj (.ocons key v o), rem5)
                | _ => none
              | c2 :: rem4 =>
                if c2 = rb then some (.jobj (.ocons key v .onil), rem4) else none
              | [] => none
          | _ => none
      else none

/-- Parse the remainder of an array after its opening bracket. -/
def parseArrTail : Nat → List Char → Option (Json × List Char)
  | 0, _ => none
  | fuel + 1, s =>
    match skipWs s with
    | [] => none
    | c :: rest =>
      if c = ']' then some (.jarr .anil, rest)
      else parseElems fuel (c :: rest)

/-- Parse one or more array elements followed by `]`.  A trailing comma
before the closing bracket is a parse error. -/
def parseElems : Nat → List Char → Option (Json × List Char)
  | 0, _ => none
  | fuel + 1, s =>
    match parseVal fuel s with
    | none => none
    | some (v, rem) =>
      match skipWs rem with
      | ',' :: rem2 =>
        match parseElems fuel rem2 with
        | some (.jarr a, rem3) => some (.jarr (.acons v a), rem3)
        | _ => none
      | c :: rem2 =>
        if c = ']' then some (.jarr (.acons v .anil), rem2) else none
      | [] => none
end

/-- Model of `json.loads`: parse one value with whitespace tolerated on
both sides; any remaining non-whitespace input is an "Extra data" error.
The fuel `2 * length + 8` dominates the parser's recursion depth for
every input in the modelled value class. -/
def jsonLoads (s : List Char) : Option Json :=
  match parseVal (2 * s.length + 8) s with
  | none => none
  | some (v, rest) => if skipWs rest = [] then some v else none

/-!  ## Model of `safe_parse_json` (src/tool/ai_image_intent_namer.py:1256)

Each regular expression of the source is translated into an equivalent
scanner over the character list:

* fence search  — pattern ```` ```(?:json)?\s*([\s\S]*?)\s*``` ```` (IGNORECASE):
  leftmost opening fence, optional case-insensitive `json` tag, greedy
  whitespace, then the lazy group ends at the first closing fence with the
  whitespace run before it excluded from the group;
* leading-fence strip — `^```(?:json)?\s*`;
* trailing-fence strip — `\s*```$` where `$` also matches before a final
  newline;
* trailing-comma repair — `,\s*([}\]])` replaced by the bracket, scanning
  left to right over the whole text (also inside string literals, exactly
  as `re.sub` does);
* first-object fallback — `\{[\s\S]*?\}`.
-/

/-- Scanner for the trailing-comma repair.  `buf` holds a pending
`,\s*` run: on a closing bracket the run is dropped (the regex match is
replaced by the bracket alone), on any other character the run is
emitted unchanged, and scanning resumes after each match exactly as
`re.sub` resumes after the replaced text. -/
def cfGo : List Char → List Char → List Char
  | buf, [] => buf
  | buf, c :: rest =>
    if buf = [] then
      if c = ',' then cfGo [','] rest
      else c :: cfGo [] rest
    else
      if isWsChar c then cfGo (buf ++ [c]) rest
      else if c = rb || c = ']' then c :: cfGo [] rest
      else if c = ',' then buf ++ cfGo [','] rest
      else buf ++ c :: cfGo [] rest

/-- Repair of trailing commas: `re.sub(r",\s*([}\]])", r"\1", s)`. -/
def commaFix (s : List Char) : List Char := cfGo [] s

/-- From a candidate opening-fence position: try to complete the fence
match and return the lazy group (`fenceGo` tries later positions on
failure, giving the leftmost match of `re.search`). -/
def fenceAt (s : List Char) : Option (List Char) :=
  if startsWithL [bt, bt, bt] s then
    let t := s.drop 3
    let t := if (t.take 4).map Char.toLower = ['j', 's', 'o', 'n'] then t.drop 4 else t
    let t := t.dropWhile isWsChar
    match findSubIdx [bt, bt, bt] t with
    | some k => some (dropTrailWs (t.take k))
    | none => none
  else none

/-- Leftmost fenced-group search over the whole text. -/
def fenceGo : List Char → Option (List Char)
  | [] => none
  | c :: rest =>
    match fenceAt (c :: rest) with
    | some inner => some inner
    | none => fenceGo rest

/-- Strip a leading fence marker: `re.sub(r"^```(?:json)?\s*", "", raw)`. -/
def stripLeadFence (s : List Char) : List Char :=
  if startsWithL [bt, bt, bt] s then
    let t := s.drop 3
    let t := if (t.take 4).map Char.toLower = ['j', 's', 'o', 'n'] then t.drop 4 else t
    t.dropWhile isWsChar
  else s

/-- Strip a trailing fence marker: `re.sub(r"\s*```$", "", raw)`; `$`
matches at the end or just before a final newline. -/
def stripTrailFence (s : List Char) : List Char :=
  if startsWithL [bt, bt, bt] s.reverse then
    dropTrailWs (s.take (s.length - 3))
  else if startsWithL ['\n', bt, bt, bt] s.reverse then
    dropTrailWs (s.take (s.length - 4)) ++ ['\n']
  else s

/-- Transcription of the source's `extract_first_object`: brace-balanced
extraction of the first object substring, ignoring braces inside string
literals (with backslash-escape tracking). -/
def extractGo : List Char → Bool → Bool → Nat → Bool → List Char → Option (List Char)
  | [], _, _, _, _, _ => none
  | ch :: rest, inStr, esc, depth, started, acc =>
    if inStr then
      if esc then extractGo rest true false depth started (ch :: acc)
      else if ch = '\\' then extractGo rest true true depth started (ch :: acc)
      else if ch = '"' then extractGo rest false false depth started (ch :: acc)
      else extractGo rest true false depth started (ch :: acc)
    else
      if ch = '"' then extractGo rest true false depth started (ch :: acc)
      else if ch = lb then
        if depth = 0 then extractGo rest false false 1 true [ch]
        else extractGo rest false false (depth + 1) started (ch :: acc)
      else if ch = rb then
        match depth with
        | 0 => extractGo rest false false 0 started acc
        | 1 => if started then some (ch :: acc).reverse
               else extractGo rest false false 0 started acc
        | d + 2 => extractGo rest false false (d + 1) started (ch :: acc)
      else extractGo rest false false depth started (ch :: acc)

/-- `extract_first_object(text)`. -/
def extractFirstObject (s : List Char) : Option (List Char) :=
  extractGo s false false 0 false []

/-- Fallback `re.search(r"\{[\s\S]*?\}", raw)`: first `{`, then the lazy
body up to the first `}` after it. -/
def braceFallback (s : List Char) : Option (List Char) :=
  match findSubIdx [lb] s with
  | none => none
  | some i =>
    let t := s.drop (i + 1)
    match findSubIdx [rb] t with
    | none => none
    | some j => some (lb :: t.take (j + 1))

/-- Steps of `safe_parse_json` after the fence-group attempt: strip a
wrapping fence, try a direct parse, then brace-balanced extraction (with
the lazy-regex fallback), trailing-comma repair, and a last raw-fragment
parse. -/
def afterFence (raw0 : List Char) : Option Json :=
  let raw := if startsWithL [bt, bt, bt] raw0
             then stripTrailFence (stripLeadFence raw0) else raw0
  match jsonLoads raw with
  | some v => some v
  | none =>
    let cand := match extractFirstObject raw with
                | some c => some c
                | none => braceFallback raw
    match cand with
    | none => none
    | some c =>
      match jsonLoads (commaFix c) with
      | some v => some v
      | none => jsonLoads c

/-- Model of `safe_parse_json(s)`: `None` and the empty string short-circuit
to `None`; otherwise the layered repair pipeline runs on the BOM-stripped,
whitespace-trimmed text. -/
def safeParseJson : Option (List Char) → Option Json
  | none => none
  | some s0 =>
    if s0 = [] then none
    else
      let raw := pyStrip (s0.dropWhile (· = bomChar))
      match fenceGo raw with
      | some inner =>
        match jsonLoads inner with
        | some v => some v
        | none =>
          match jsonLoads (commaFix inner) with
          | some v => some v
          | none => afterFence raw
      | none => afterFence raw

/-!  ## Reference Scanner (`collect_images`, src/tool/ai_image_intent_namer.py:473)

The three image regexes are translated into deterministic matchers.
`MD_IMAGE_RE = !\[([^\]]*)\]\(((?:[^()\\]|\\.|(?:\([^()]*\)))+)\)`: the
alternatives of a target element are discriminated by their first
character, so the greedy repetition never backtracks into a previously
parsed element and a linear parse is exact. -/

/-- Parse one target element of `MD_IMAGE_RE` (escape pair, parenthesised
group, or a single character other than `(`, `)`, `\`). -/
def mdElem : List Char → Option (List Char × List Char)
  | [] => none
  | c :: rest =>
    if c = '\\' then
      match rest with
      | d :: r2 => if d = '\n' then none else some (['\\', d], r2)
      | [] => none
    else if c = '(' then
      let body := rest.takeWhile (fun x => x ≠ '(' && x ≠ ')')
      match rest.drop body.length with
      | ')' :: r2 => some ('(' :: body ++ [')'], r2)
      | _ => none
    else if c = ')' then none
    else some ([c], rest)

/-- Greedy sequence of target elements. -/
def mdElemsGo : Nat → List Char → (List Char × List Char)
  | 0, s => ([], s)
  | fuel + 1, s =>
    match mdElem s with
    | none => ([], s)
    | some (e, r) =>
      let (es, r2) := mdElemsGo fuel r
      (e ++ es, r2)

/-- Match `MD_IMAGE_RE` at the head of `s`: returns
(match length, alt group, raw target group). -/
def matchMdAt (s : List Char) : Option (Nat × List Char × List Char) :=
  match s with
  | '!' :: '[' :: rest =>
    let alt := rest.takeWhile (· ≠ ']')
    match rest.drop alt.length with
    | ']' :: '(' :: r2 =>
      let (tgt, r3) := mdElemsGo r2.length r2
      if tgt = [] then none
      else
        match r3 with
        | ')' :: _ => some (2 + alt.length + 2 + tgt.length + 1, alt, tgt)
        | _ => none
    | _ => none
  | _ => none

/-- Word character for `\b` (ASCII `\w`; non-ASCII letters are word
characters in Python's unicode `\w`, and the scanner treats every
non-ASCII character as one). -/
def isWordChar (c : Char) : Bool :=
  c.isAlphanum || c = '_' || 128 ≤ c.toNat

/-- Try the `src` attribute of `HTML_IMG_RE` at backtracking position `p`
inside the tag remainder `r1` (the text after `<img`). -/
def htmlAtP (r1 : List Char) (p : Nat) : Option (Nat × List Char) :=
  if p = 0 then none
  else
    match (r1.drop (p - 1)).head? with
    | none => none
    | some prev =>
      if isWordChar prev then none
      else if ((r1.drop p).take 4).map Char.toLower = ['s', 'r', 'c', '='] then
        match r1.drop (p + 4) with
        | q :: tail1 =>
          if q = '"' || q = '\x27' then
            let v := tail1.takeWhile (fun x => x ≠ '"' && x ≠ '\x27')
            if v = [] then none
            else
              match tail1.drop v.length with
              | q2 :: rest3 =>
                if q2 = '"' || q2 = '\x27' then
                  match findSubIdx ['>'] rest3 with
                  | some g =>
                    if (rest3.take g).any (· = '>') then none
                    else some (4 + p + 4 + 1 + v.length + 1 + g + 1, v)
                  | none => none
                else none
              | [] => none
          else none
        | [] => none
      else none

/-- Match `HTML_IMG_RE = <img\b[^>]*\bsrc=["\']([^"\']+)["\'][^>]*>`
(IGNORECASE) at the head of `s`, trying the rightmost `src=` first as a
greedy `[^>]*` with backtracking does. -/
def matchHtmlAt (s : List Char) : Option (Nat × List Char) :=
  match s with
  | '<' :: rest =>
    if (rest.take 3).map Char.toLower = ['i', 'm', 'g'] then
      let r1 := rest.drop 3
      match r1.head? with
      | none => none
      | some d =>
        if isWordChar d then none
        else
          let region := r1.takeWhile (· ≠ '>')
          let cands := (List.range (region.length + 1)).reverse
          cands.foldl (fun acc p =>
            match acc with
            | some r => some r
            | none => if p + 4 ≤ region.length then htmlAtP r1 p else none) none
    else none
  | _ => none

/-- Match `WIKILINK_EMBED_RE = !\[\[(.*?)\]\]` at the head of `s`
(`.` does not cross newlines). -/
def matchWikiAt (s : List Char) : Option (Nat × List Char) :=
  match s with
  | '!' :: '[' :: '[' :: rest =>
    match findSubIdx [']', ']'] rest with
    | some k =>
      if (rest.take k).any (· = '\n') then none
      else some (3 + k + 2, rest.take k)
    | none => none
  | _ => none

/-- `re.finditer` scan step: try the matcher at every position, emit the
span and resume after each (non-empty) match.  Every step consumes at
least one character, so fuel equal to the input length is exact. -/
def refScanGo {α : Type} (m : List Char → Option (Nat × α)) :
    Nat → Nat → List Char → List (Nat × Nat × α)
  | 0, _, _ => []
  | _, _, [] => []
  | fuel + 1, pos, c :: rest =>
    match m (c :: rest) with
    | some (len, a) =>
      match len with
      | 0 => refScanGo m fuel (pos + 1) rest
      | len' + 1 =>
        (pos, pos + len' + 1, a) :: refScanGo m fuel (pos + len' + 1) (rest.drop len')
    | none => refScanGo m fuel (pos + 1) rest

/-- `re.finditer` over the whole text. -/
def refScan {α : Type} (m : List Char → Option (Nat × α))
    (pos : Nat) (s : List Char) : List (Nat × Nat × α) :=
  refScanGo m s.length pos s

/-- 1-based line number of byte offset `a`: `md_text[:start].count("\n") + 1`. -/
def lineNo (text : List Char) (a : Nat) : Nat :=
  ((text.take a).filter (· = '\n')).length + 1

/-- `pat` is a trailing segment of `s`. -/
def endsWithL (pat s : List Char) : Bool :=
  startsWithL pat.reverse s.reverse

/-- Python `str.strip(chars)` for a single strip character. -/
def stripCharL (ch : Char) (s : List Char) : List Char :=
  ((s.dropWhile (· = ch)).reverse.dropWhile (· = ch)).reverse

/-- `split_md_target(raw)` (src:330): angle-bracketed URL or first
whitespace-separated token, plus the normalized trailing text. -/
def splitMdTarget (raw : List Char) : List Char × List Char :=
  let s := pyStrip raw
  if startsWithL ['<'] s && s.any (· = '>') then
    match findSubIdx ['>'] s with
    | some e =>
      let url := pyStrip ((s.take e).drop 1)
      let tr := dropTrailWs (s.drop (e + 1))
      (url, if tr = [] then [] else ' ' :: tr)
    | none => (s, [])
  else
    match s with
    | [] => ([], [])
    | _ =>
      let tok := s.takeWhile (fun c => !isWsChar c)
      let tr := dropTrailWs (s.drop tok.length)
      (tok, if startsWithL [' '] tr then tr
            else if tr = [] then [] else ' ' :: tr)

/-- Leftmost match of the title pattern `(".*?"|\'.*?\')` (`.` does not
cross newlines). -/
def findTitleTok : List Char → Option (List Char)
  | [] => none
  | c :: rest =>
    if c = '"' || c = '\x27' then
      let body := rest.takeWhile (fun x => x ≠ c && x ≠ '\n')
      match rest.drop body.length with
      | c2 :: _ => if c2 = c then some (c :: body ++ [c]) else findTitleTok rest
      | [] => findTitleTok rest
    else findTitleTok rest

/-- An image reference as produced by `collect_images` (dataclass
`ImageRef`; `stop` is the Python `end` offset). -/
structure ImageRefL where
  kind : List Char
  src : List Char
  start : Nat
  stop : Nat
  line : Nat
  alt : Option (List Char)
  title : Option (List Char)
deriving DecidableEq

/-- Build the `ImageRef` for one Markdown-image match. -/
def mdRefOf (text : List Char) (sp : Nat × Nat × List Char × List Char) : ImageRefL :=
  let alt := pyStrip sp.2.2.1
  let (url, trailing) := splitMdTarget sp.2.2.2
  let title := (findTitleTok trailing).map (fun t => stripCharL '\x27' (stripCharL '"' t))
  { kind := "md".toList, src := url, start := sp.1, stop := sp.2.1,
    line := lineNo text sp.1,
    alt := if alt = [] then none else some alt, title := title }

/-- Model of `collect_images(md_text)`: the Markdown-image matches, then
the raw `<img>` matches not immediately preceded by `![` or `![\`, then
the wiki embeds — appended in that order, exactly as the source builds
the list. -/
def collectImages (text : List Char) : List ImageRefL :=
  let mds := (refScan matchMdAt 0 text).map (mdRefOf text)
  let htmls := ((refScan matchHtmlAt 0 text).filter (fun sp =>
      let pre := text.take sp.1
      !(endsWithL ['!', '['] pre || endsWithL ['!', '[', '\\'] pre))).map
    (fun sp => { kind := "html".toList, src := pyStrip sp.2.2, start := sp.1,
                 stop := sp.2.1, line := lineNo text sp.1, alt := none, title := none })
  let wikis := (refScan matchWikiAt 0 text).map
    (fun sp =>
      let inside := pyStrip sp.2.2
      let target := pyStrip (inside.takeWhile (· ≠ '|'))
      { kind := "wikilink".toList, src := target, start := sp.1,
        stop := sp.2.1, line := lineNo text sp.1, alt := none, title := none })
  mds ++ htmls ++ wikis

/-!  ## Context Extractor cleaning (`text_between`, src/tool/ai_image_intent_namer.py:506)

Each `re.sub` of the pipeline becomes a scanner; the two `(?m)` line
patterns are modelled per line (the difference — `\s*$` absorbing blank
lines — is erased by the final whitespace collapse). -/

/-- `re.sub(r"^---\s*.*?\s*---\s*", "", raw, flags=re.DOTALL)`: anchored
front-matter strip — the opening `---`, the lazily shortest body up to
the next `---`, and the trailing whitespace run. -/
def subFrontMatter (s : List Char) : List Char :=
  if startsWithL ['-', '-', '-'] s then
    match findSubIdx ['-', '-', '-'] (s.drop 3) with
    | some k => ((s.drop 3).drop (k + 3)).dropWhile isWsChar
    | none => s
  else s

/-- One step removing a fenced block for ```` re.sub(r"```.*?```", "", raw, DOTALL) ````. -/
def subCodeFenceGo : Nat → List Char → List Char
  | 0, s => s
  | fuel + 1, s =>
    match findSubIdx [bt, bt, bt] s with
    | none => s
    | some i =>
      match findSubIdx [bt, bt, bt] (s.drop (i + 3)) with
      | none => s
      | some k => s.take i ++ subCodeFenceGo fuel ((s.drop (i + 3)).drop (k + 3))

/-- Remove all fenced code blocks. -/
def subCodeFence (s : List Char) : List Char := subCodeFenceGo s.length s

/-- Scan step of `re.sub(r"<[^>]+>", "", raw)`. -/
def subHtmlTagsGo : Nat → List Char → List Char
  | 0, s => s
  | _, [] => []
  | fuel + 1, c :: rest =>
    if c = '<' then
      match findSubIdx ['>'] rest with
      | some j =>
        if 1 ≤ j then subHtmlTagsGo fuel (rest.drop (j + 1))
        else '<' :: subHtmlTagsGo fuel rest
      | none => '<' :: subHtmlTagsGo fuel rest
    else c :: subHtmlTagsGo fuel rest

/-- Remove HTML tags. -/
def subHtmlTags (s : List Char) : List Char := subHtmlTagsGo s.length s

/-- One scan step of `re.sub(r"\[[^\]]+\]\([^)]+\)", "", raw)`
(Markdown links); the fuel dominates the input length, and every step
consumes at least one character. -/
def subLinksGo : Nat → List Char → List Char
  | 0, s => s
  | _, [] => []
  | fuel + 1, c :: rest =>
    if c = '[' then
      let body := rest.takeWhile (· ≠ ']')
      if body = [] then '[' :: subLinksGo fuel rest
      else
        match rest.drop body.length with
        | ']' :: '(' :: r2 =>
          let tgt := r2.takeWhile (· ≠ ')')
          if tgt = [] then '[' :: subLinksGo fuel rest
          else
            match r2.drop tgt.length with
            | ')' :: r3 => subLinksGo fuel r3
            | _ => '[' :: subLinksGo fuel rest
        | _ => '[' :: subLinksGo fuel rest
    else c :: subLinksGo fuel rest

/-- Remove Markdown links. -/
def subLinks (s : List Char) : List Char := subLinksGo s.length s

/-- Scan step of `MD_IMAGE_RE.sub("", raw)`. -/
def subMdImagesGo : Nat → List Char → List Char
  | 0, s => s
  | _, [] => []
  | fuel + 1, c :: rest =>
    match matchMdAt (c :: rest) with
    | some (len + 1, _, _) => subMdImagesGo fuel (rest.drop len)
    | _ => c :: subMdImagesGo fuel rest

/-- Remove Markdown images. -/
def subMdImages (s : List Char) : List Char := subMdImagesGo s.length s

/-- Scan step of `WIKILINK_EMBED_RE.sub("", raw)`. -/
def subWikiGo : Nat → List Char → List Char
  | 0, s => s
  | _, [] => []
  | fuel + 1, c :: rest =>
    match matchWikiAt (c :: rest) with
    | some (len + 1, _) => subWikiGo fuel (rest.drop len)
    | _ => c :: subWikiGo fuel rest

/-- Remove wiki-style embeds. -/
def subWiki (s : List Char) : List Char := subWikiGo s.length s

/-- Extension alternatives of the bare-image-path pattern, in the order
the regex alternation tries them (`png|jpe?g|gif|webp|bmp|svg|tiff?|ico|heic`,
with the optional letter greedily included first). -/
def extAlts : List (List Char) :=
  [['p','n','g'], ['j','p','e','g'], ['j','p','g'], ['g','i','f'],
   ['w','e','b','p'], ['b','m','p'], ['s','v','g'], ['t','i','f','f'],
   ['t','i','f'], ['i','c','o'], ['h','e','i','c']]

/-- First value produced over a list (used for ordered alternation). -/
def firstSome {α β : Type} : List α → (α → Option β) → Option β
  | [], _ => none
  | a :: tl, f =>
    match f a with
    | some b => some b
    | none => firstSome tl f

/-- Match `(?i)\b\S+\.(?:png|…)\b` at the head of `s` given the
word-character status of the preceding character.  The greedy `\S+`
makes the rightmost dot-extension split win; the trailing `\b` requires
a non-word character (or the end) after the extension. -/
def matchBareAt (prevIsWord : Bool) (s : List Char) : Option Nat :=
  match s.head? with
  | none => none
  | some c =>
    if prevIsWord = isWordChar c then none
    else
      let t := s.takeWhile (fun x => !isWsChar x)
      let dots := ((List.range t.length).filter
        (fun i => 1 ≤ i && t.getD i ' ' = '.')).reverse
      firstSome dots (fun dIdx =>
        firstSome extAlts (fun ext =>
          if ((s.drop (dIdx + 1)).take ext.length).map Char.toLower = ext then
            match (s.drop (dIdx + 1 + ext.length)).head? with
            | none => some (dIdx + 1 + ext.length)
            | some nxt => if isWordChar nxt then none else some (dIdx + 1 + ext.length)
          else none))

/-- `re.sub` over the bare-image-path pattern, tracking the word-character
status across the scan for `\b`. -/
def subBareGo : Nat → Bool → List Char → List Char
  | 0, _, s => s
  | _, _, [] => []
  | fuel + 1, prevW, c :: rest =>
    match matchBareAt prevW (c :: rest) with
    | some (len + 1) => subBareGo fuel true (rest.drop len)
    | _ => c :: subBareGo fuel (isWordChar c) rest

/-- Remove bare image paths (`attachment/xxx.jpg` and the like). -/
def subBareImg (s : List Char) : List Char := subBareGo s.length false s

/-- Split into lines at `\n` (line structure for the `(?m)` patterns). -/
def splitNl : List Char → List (List Char)
  | [] => [[]]
  | c :: cs =>
    if c = '\n' then [] :: splitNl cs
    else
      match splitNl cs with
      | [] => [[c]]
      | l :: ls => (c :: l) :: ls

/-- Rejoin lines with `\n`. -/
def joinNl : List (List Char) → List Char
  | [] => []
  | [l] => l
  | l :: ls => l ++ '\n' :: joinNl ls

/-- The metadata-line keywords of
`(?mi)^(tags\s*:.*|parent\s*:.*|collections\s*:.*|\$version\s*:.*|\$libraryID\s*:.*|\$itemKey\s*:.*)\s*$`. -/
def metaKeys : List (List Char) :=
  ["tags".toList, "parent".toList, "collections".toList,
   "$version".toList, "$libraryid".toList, "$itemkey".toList]

/-- A line matched by the metadata pattern: a keyword at the line start,
optional whitespace, then a colon. -/
def lineIsMeta (l : List Char) : Bool :=
  let low := l.map Char.toLower
  metaKeys.any (fun k =>
    startsWithL k low &&
    startsWithL [':'] ((low.drop k.length).dropWhile isWsChar))

/-- Remove metadata lines (the matched text is the line body; the
newline separators remain, as with `re.sub` on a `(?m)^…$` pattern). -/
def subMetaLines (s : List Char) : List Char :=
  joinNl ((splitNl s).map (fun l => if lineIsMeta l then [] else l))

/-- A line matched by `(?m)^\s*(\*{3,}|-{3,}|_{3,})\s*$`. -/
def lineIsHr (l : List Char) : Bool :=
  let t := l.dropWhile isWsChar
  match t.head? with
  | none => false
  | some c =>
    (c = '*' || c = '-' || c = '_') &&
    (t.takeWhile (· = c)).length ≥ 3 &&
    (t.dropWhile (· = c)).all isWsChar

/-- Remove horizontal-rule lines. -/
def subHrLines (s : List Char) : List Char :=
  joinNl ((splitNl s).map (fun l => if lineIsHr l then [] else l))

/-- `WHITESPACE_RE.sub(" ", raw)`: collapse every whitespace run to one
space. -/
def cwGo : Bool → List Char → List Char
  | _, [] => []
  | inWs, c :: rest =>
    if isWsChar c then
      if inWs then cwGo true rest else ' ' :: cwGo true rest
    else c :: cwGo false rest

/-- Whitespace collapse. -/
def collapseWs (s : List Char) : List Char := cwGo false s

/-- The cleaning pipeline of `text_between` applied to a raw slice. -/
def cleanSlice (raw : List Char) : List Char :=
  pyStrip (collapseWs (subHrLines (subMetaLines (subBareImg (subWiki
    (subMdImages (subLinks (subHtmlTags (subCodeFence (subFrontMatter raw))))))))))

/-- `text_between(md_text, start, end)`. -/
def textBetween (text : List Char) (a b : Nat) : List Char :=
  cleanSlice ((text.drop a).take (b - a))

/-!  ## Attachment plan state machine
(src/tool/ai_image_intent_namer.py:1501-1838)

The filesystem is an association list from absolute path strings to
abstract content numbers; `Path.resolve()` is the identity on the
model's canonical paths, and `_hash_file` is content lookup (sha256 is
injective on the abstract contents).  Plan/mapping persistence
(`save_attachment_plan` / `save_image_mapping`) is modelled by dedicated
state fields holding the last value written to the attachment
directory's JSON files.  Behaviour that depends on the machine
environment is collected in `Env`:

* `net` — `requests.get`: the content served for a URL, `none` for a
  download failure,
* `resolveLocal` — `resolve_local_image(md_root, ·)`: the resolved
  absolute path for a local source, `none` when the search fails,
* `dlName` — the file name `download_image` derives for its fresh file
  (`sanitize(stem) + guessed extension`),
* `urlExt` — the extension `build_attachment_plan` derives from a remote
  URL via `urlparse`/`unquote`,
* `now` — `time.time()`.

The naming engine (`sanitize_intent_for_language` + `name_with_template`)
and the block-boundary heuristic are abstracted as the `nameFor` and
`newBlock` arguments of `buildAttachmentPlan`; no claim in scope depends
on the rendered base name or on block numbering. -/

/-- Abstract filesystem: path ↦ content. -/
abbrev FS := List (List Char × Nat)

/-- Content at a path. -/
def fsGet (fs : FS) (p : List Char) : Option Nat :=
  (List.find? (fun e => e.1 = p) fs).map (·.2)

/-- `Path.exists()`. -/
def fsExists (fs : FS) (p : List Char) : Bool :=
  (fsGet fs p).isSome

/-- Create or overwrite a file. -/
def fsSet (fs : FS) (p : List Char) (content : Nat) : FS :=
  if fsExists fs p then
    fs.map (fun e => if e.1 = p then (p, content) else e)
  else fs ++ [(p, content)]

/-- Delete a file. -/
def fsRemove (fs : FS) (p : List Char) : FS :=
  fs.filter (fun e => e.1 ≠ p)

/-- Join a directory and a name (`dir / name`). -/
def joinP (dir name : List Char) : List Char := dir ++ '/' :: name

/-- `os.path.relpath(path, root)` for the model's canonical paths:
strip the `root/` lead when present (the in-scope call sites resolve
targets that live under the document root). -/
def makeRel (path root : List Char) : List Char :=
  if startsWithL (root ++ ['/']) path then path.drop (root.length + 1) else path

/-- `_hash_file`: the content hash of the file at `p` (content lookup;
the source would raise on a missing file, which no modelled call site
does — `0` stands in to keep the model total). -/
def hashFile (fs : FS) (p : List Char) : Nat :=
  (fsGet fs p).getD 0

/-- `_try_move_file(src, dest)`: succeeds exactly when the source
exists, atomically relocating the content (a rename, or the source's
copy-then-unlink fallback, which has the same filesystem effect). -/
def tryMove (fs : FS) (src dest : List Char) : Option FS :=
  match fsGet fs src with
  | none => none
  | some content => some (fsSet (fsRemove fs src) dest content)

/-- `Path(name).stem` and `Path(name).suffix`. -/
def splitExt (name : List Char) : List Char × List Char :=
  let r := name.reverse
  let afterDot := r.takeWhile (· ≠ '.')
  if afterDot.length + 1 < name.length && afterDot.length < r.length then
    (name.take (name.length - afterDot.length - 1), '.' :: afterDot.reverse)
  else (name, [])

/-- Base name of a path (`Path(p).name`). -/
def baseName (p : List Char) : List Char :=
  (p.reverse.takeWhile (· ≠ '/')).reverse

/-- Candidate file name of `ensure_unique_path`/`reserve_unique_path`:
`base + ext`, then `base (i) + ext`. -/
def candName (base ext : List Char) (idx : Nat) : List Char :=
  if idx = 0 then base ++ ext
  else base ++ ' ' :: '(' :: natChars idx ++ ')' :: ext

/-- Search loop of `ensure_unique_path`; the fuel exceeds the number of
occupied paths, so a free candidate is always reached. -/
def eupGo (fs : FS) (dir base ext : List Char) : Nat → Nat → List Char
  | 0, idx => joinP dir (candName base ext idx)
  | fuel + 1, idx =>
    let c := joinP dir (candName base ext idx)
    if fsExists fs c then eupGo fs dir base ext fuel (idx + 1) else c

/-- `ensure_unique_path(dest_dir, filename)`. -/
def ensureUniquePath (fs : FS) (dir name : List Char) : List Char :=
  let (base, ext) := splitExt name
  eupGo fs dir base ext (fs.length + 1) 0

/-- Search loop of `reserve_unique_path`, also consulting the in-memory
reservation set. -/
def rupGo (fs : FS) (reserved : List (List Char)) (dir base ext : List Char) :
    Nat → Nat → List Char
  | 0, idx => joinP dir (candName base ext idx)
  | fuel + 1, idx =>
    let c := joinP dir (candName base ext idx)
    if reserved.contains c || fsExists fs c then
      rupGo fs reserved dir base ext fuel (idx + 1)
    else c

/-- `reserve_unique_path(attach_dir, filename, reserved)`: the chosen
path and the grown reservation set. -/
def reserveUniquePath (fs : FS) (dir name : List Char)
    (reserved : List (List Char)) : List Char × List (List Char) :=
  let (base, ext) := splitExt name
  let c := rupGo fs reserved dir base ext (fs.length + reserved.length + 1) 0
  (c, reserved ++ [c])

/-- `is_remote_url(url)`. -/
def isRemoteUrl (url : List Char) : Bool :=
  let s := (pyStrip url).map Char.toLower
  startsWithL "http://".toList s || startsWithL "https://".toList s

/-- Machine environment (network, local-file resolution, derived names,
clock). -/
structure Env where
  net : List Char → Option Nat
  resolveLocal : List Char → Option (List Char)
  dlName : List Char → List Char
  urlExt : List Char → List Char
  now : Nat

/-- `download_image(url, dest_dir, timeout)`: on success the fresh file
(at a collision-free name in `dest_dir`) and the updated filesystem. -/
def downloadImage (env : Env) (fs : FS) (url dir : List Char) :
    Option (List Char × FS) :=
  match env.net url with
  | none => none
  | some content =>
    let final := ensureUniquePath fs dir (env.dlName url)
    some (final, fsSet fs final content)

/-- A persisted asset-mapping entry. -/
structure MapEntry where
  mtype : List Char
  url : Option (List Char)
  original : Option (List Char)
  originalRel : Option (List Char)
  target : List Char
  targetRel : List Char
  hash : Nat
  stampedAt : Nat
deriving DecidableEq

/-- The asset mapping: content key ↦ entry (insertion-ordered dict). -/
abbrev Mapping := List (List Char × MapEntry)

/-- `mapping.get(key)`. -/
def mget (m : Mapping) (k : List Char) : Option MapEntry :=
  (List.find? (fun e => e.1 = k) m).map (·.2)

/-- `mapping[key] = entry`. -/
def mset (m : Mapping) (k : List Char) (v : MapEntry) : Mapping :=
  if (mget m k).isSome then
    m.map (fun e => if e.1 = k then (k, v) else e)
  else m ++ [(k, v)]

/-- `mapping.pop(key, None)`. -/
def mpop (m : Mapping) (k : List Char) : Mapping :=
  m.filter (fun e => e.1 ≠ k)

/-- `update_mapping_target(mapping, key, target_path, md_root)` (src:1831):
if the key is present, point the entry at the target and store the hash
of the file now at the target. -/
def updateMappingTarget (fs : FS) (m : Mapping) (key : Option (List Char))
    (targetPath mdRoot : List Char) : Mapping :=
  match key with
  | none => m
  | some k =>
    match mget m k with
    | none => m
    | some entry =>
      mset m k { entry with
        target := targetPath,
        targetRel := makeRel targetPath mdRoot,
        hash := hashFile fs targetPath }

/-- Result of `ensure_attachment_for_src`: the source returns a 3-tuple
`(new_rel, action, mapping_key)` on every path except the empty-source
guard, which returns a bare 2-tuple. -/
inductive EnsureRes where
  | r2 (rel : List Char) (act : List Char)
  | r3 (rel : List Char) (act : List Char) (key : Option (List Char))
deriving DecidableEq

/-- Download continuation of `ensure_attachment_for_src`'s remote branch
(reached when no mapping entry could be reused): download, record the
mapping entry with the fresh file's hash, or surface the error. -/
def remoteFetch (env : Env) (fs : FS) (mapping : Mapping)
    (mdRoot src cleaned attachDir : List Char) : EnsureRes × FS × Mapping :=
  let key := "remote:".toList ++ cleaned
  match downloadImage env fs cleaned attachDir with
  | none => (.r3 src "error".toList (some key), fs, mapping)
  | some (saved, fs1) =>
    let rel := makeRel saved mdRoot
    let mapping1 := mset mapping key
      { mtype := "remote".toList, url := some cleaned, original := none,
        originalRel := none, target := saved, targetRel := rel,
        hash := hashFile fs1 saved, stampedAt := env.now }
    (.r3 rel "downloaded".toList (some key), fs1, mapping1)

/-- Relocation continuation of `ensure_attachment_for_src`'s local branch
(reached when no mapping entry could be reused): move — or copy, when a
rename is not preferred — the file into the attachment directory and
record the mapping entry with the relocated file's hash. -/
def localRelocate (env : Env) (fs : FS) (mapping : Mapping)
    (mdRoot src sp attachDir : List Char) (preferMove : Bool) :
    EnsureRes × FS × Mapping :=
  let key := "local:".toList ++ sp
  let originalRel := makeRel sp mdRoot
  let target := ensureUniquePath fs attachDir (baseName sp)
  let entry : MapEntry :=
    { mtype := "local".toList, url := none, original := some sp,
      originalRel := some originalRel, target := target,
      targetRel := makeRel target mdRoot, hash := 0, stampedAt := env.now }
  match (if preferMove then tryMove fs sp target else none) with
  | some fs1 =>
    (.r3 (makeRel target mdRoot) "moved".toList (some key), fs1,
     mset mapping key { entry with hash := hashFile fs1 target })
  | none =>
    match tryMove fs sp target with
    | some fs1 =>
      (.r3 (makeRel target mdRoot) "copied".toList (some key), fs1,
       mset mapping key { entry with hash := hashFile fs1 target })
    | none => (.r3 src "error".toList (some key), fs, mapping)

/-- `ensure_attachment_for_src(md_path, src, attach_dir, timeout, mapping,
prefer_move)` (src:1501): relocate or download one image into the
attachment directory, reusing a mapping entry when its recorded target
still exists (an entry whose target is gone is popped before the
continuation runs).  Returns the result with the updated filesystem and
mapping. -/
def ensureAttachmentForSrc (env : Env) (fs : FS) (mapping : Mapping)
    (mdRoot src attachDir : List Char) (preferMove : Bool) :
    EnsureRes × FS × Mapping :=
  let cleaned := pyStrip src
  if cleaned = [] then (.r2 src "error".toList, fs, mapping)
  else if isRemoteUrl cleaned then
    let key := "remote:".toList ++ cleaned
    match mget mapping key with
    | some entry =>
      if entry.targetRel ≠ [] then
        if fsExists fs (joinP mdRoot entry.targetRel) then
          (.r3 entry.targetRel "reused".toList (some key), fs, mapping)
        else remoteFetch env fs (mpop mapping key) mdRoot src cleaned attachDir
      else remoteFetch env fs mapping mdRoot src cleaned attachDir
    | none => remoteFetch env fs mapping mdRoot src cleaned attachDir
  else
    match env.resolveLocal cleaned with
    | none => (.r3 src "error".toList none, fs, mapping)
    | some sp =>
      if !fsExists fs sp then (.r3 src "error".toList none, fs, mapping)
      else if startsWithL (attachDir ++ ['/']) sp then
        (.r3 (makeRel sp mdRoot) "already".toList none, fs, mapping)
      else
        let key := "local:".toList ++ sp
        match mget mapping key with
        | some entry =>
          if entry.targetRel ≠ [] then
            if fsExists fs (joinP mdRoot entry.targetRel) then
              (.r3 entry.targetRel "reused".toList (some key), fs, mapping)
            else localRelocate env fs (mpop mapping key) mdRoot src sp attachDir preferMove
          else localRelocate env fs mapping mdRoot src sp attachDir preferMove
        | none => localRelocate env fs mapping mdRoot src sp attachDir preferMove

/-- An `AttachmentPlanItem` (the dicts appended by
`build_attachment_plan`; fields absent from the source's error items
carry their `dict.get` defaults: `none` / `[]` / `0`). -/
structure PlanItem where
  idx : Nat
  blockIndex : Nat
  imageIndex : Nat
  originalSrc : List Char
  originalAbs : Option (List Char)
  action : List Char
  finalBase : List Char
  targetAbs : List Char
  targetRel : List Char
  status : List Char
  errMsg : Option (List Char)
  mappingKey : Option (List Char)
  logs : List (List Char)
  completedAt : Option Nat
deriving DecidableEq

/-- An `AttachmentPlan`. -/
structure Plan where
  document : List Char
  title : List Char
  attachDir : List Char
  createdAt : Nat
  items : List PlanItem
  completed : Bool
deriving DecidableEq

/-- Per-reference step of `build_attachment_plan`'s loop, after the
block/image-index bookkeeping: classify the source and emit the plan
item (or the `source_missing` error item), threading the reservation
set. -/
def buildItem (env : Env) (fs : FS) (mdRoot attachDir : List Char)
    (nameFor : Nat → Nat → Nat → List Char)
    (index blockIdx imgIdx : Nat) (src : List Char)
    (reserved : List (List Char)) : PlanItem × List (List Char) :=
  let cleaned := pyStrip src
  let finalBase := nameFor index blockIdx imgIdx
  if isRemoteUrl cleaned then
    let ext := env.urlExt cleaned
    let (targetPath, reserved1) :=
      reserveUniquePath fs attachDir (finalBase ++ ext) reserved
    ({ idx := index, blockIndex := blockIdx, imageIndex := imgIdx,
       originalSrc := cleaned, originalAbs := none,
       action := "download".toList, finalBase := finalBase,
       targetAbs := targetPath, targetRel := makeRel targetPath mdRoot,
       status := "pending".toList, errMsg := none,
       mappingKey := some ("remote:".toList ++ cleaned), logs := [],
       completedAt := none }, reserved1)
  else
    let resolved :=
      match env.resolveLocal cleaned with
      | none => none
      | some sp => if fsExists fs sp then some sp else none
    match resolved with
    | none =>
      ({ idx := index, blockIndex := 0, imageIndex := 0,
         originalSrc := cleaned, originalAbs := none,
         action := "error".toList, finalBase := [],
         targetAbs := [], targetRel := [],
         status := "error".toList, errMsg := some "source_missing".toList,
         mappingKey := none, logs := [], completedAt := none }, reserved)
    | some sp =>
      let ext0 := (splitExt (baseName sp)).2
      let ext := if ext0 = [] then ".img".toList else ext0
      let (targetPath, reserved1) :=
        reserveUniquePath fs attachDir (finalBase ++ ext) reserved
      ({ idx := index, blockIndex := blockIdx, imageIndex := imgIdx,
         originalSrc := cleaned, originalAbs := some sp,
         action := "move".toList, finalBase := finalBase,
         targetAbs := targetPath, targetRel := makeRel targetPath mdRoot,
         status := "pending".toList, errMsg := none,
         mappingKey := some ("local:".toList ++ sp), logs := [],
         completedAt := none }, reserved1)

/-- The item loop of `build_attachment_plan`: `newBlock i` is the
block-boundary heuristic's verdict for the `i`-th reference (0-based);
the index bookkeeping around it is the source's. -/
def buildGo (env : Env) (fs : FS) (mdRoot attachDir : List Char)
    (nameFor : Nat → Nat → Nat → List Char) (newBlock : Nat → Bool)
    (skips : List Nat) :
    List (List Char) → Nat → Nat → Nat → List (List Char) → List PlanItem
  | [], _, _, _, _ => []
  | src :: rest, i, blockIdx, imgIdx, reserved =>
    let (blockIdx1, imgIdx1) :=
      if newBlock i then (blockIdx + 1, 1)
      else ((if blockIdx = 0 then 1 else blockIdx), imgIdx + 1)
    let index := i + 1
    if skips.contains index then
      buildGo env fs mdRoot attachDir nameFor newBlock skips rest (i + 1)
        blockIdx1 imgIdx1 reserved
    else
      let (item, reserved1) :=
        buildItem env fs mdRoot attachDir nameFor index blockIdx1 imgIdx1
          src reserved
      item :: buildGo env fs mdRoot attachDir nameFor newBlock skips rest
        (i + 1) blockIdx1 imgIdx1 reserved1

/-- `build_attachment_plan(md_path, md_text, refs, chosen_map, title,
attach_dir, …)` (src:1600) over the reference source strings. -/
def buildAttachmentPlan (env : Env) (fs : FS)
    (docPath mdRoot title attachDir : List Char)
    (nameFor : Nat → Nat → Nat → List Char) (newBlock : Nat → Bool)
    (skips : List Nat) (srcs : List (List Char)) : Plan :=
  { document := docPath, title := title, attachDir := attachDir,
    createdAt := env.now,
    items := buildGo env fs mdRoot attachDir nameFor newBlock skips srcs 0 0 0 [],
    completed := false }

/-- Observable events of one executor run: the performed file
operations (`download`, `moveFile`), the status transitions
(`markDone`), and the persistence calls (`savePlanOp`, `saveMapOp`).
`itemPos` is the 0-based position in the plan's item list. -/
inductive Op where
  | download (itemPos : Nat) (url saved : List Char)
  | moveFile (itemPos : Nat) (src dst : List Char)
  | markDone (itemPos : Nat)
  | savePlanOp (p : Plan)
  | saveMapOp (m : Mapping)
deriving DecidableEq

/-- Mutable state surrounding one executor run: the filesystem, the
in-memory mapping, and the last plan/mapping persisted to the attachment
directory's JSON files. -/
structure ExecSt where
  fs : FS
  mapping : Mapping
  savedPlan : Option Plan
  savedMapping : Option Mapping
deriving DecidableEq

/-- Result of `execute_attachment_plan`: the returned
`(success, mapping_changed)` pair, the plan object after its in-place
mutations, the final state, and the event trace. -/
structure ExecRes where
  ok : Bool
  mappingChanged : Bool
  plan : Plan
  st : ExecSt
  trace : List Op
deriving DecidableEq

/-- The plan object with the given item list (in-place item mutation). -/
def withItems (meta : Plan) (items : List PlanItem) : Plan :=
  { meta with items := items }

/-- Halt with failure after persisting the plan (the error branches of
the executor's loop body). -/
def execFail (meta : Plan) (done : List PlanItem) (item : PlanItem)
    (tl : List PlanItem) (st : ExecSt) (mc : Bool) : ExecRes :=
  let p := withItems meta (done ++ item :: tl)
  { ok := false, mappingChanged := mc, plan := p,
    st := { st with savedPlan := some p }, trace := [.savePlanOp p] }

/-- One successful item: the done-marked item, the persisted plan, the
new state and the emitted events (the fall-through tail of the loop
body); the loop continues with the rest afterwards. -/
def execStepDone (env : Env) (meta : Plan) (done : List PlanItem)
    (item : PlanItem) (tl : List PlanItem) (pos : Nat)
    (fs1 : FS) (mapping1 : Mapping) (ops : List Op) (withLog : Bool) :
    List PlanItem × ExecSt × List Op :=
  let item1 := { item with
    status := "done".toList,
    logs := if withLog then item.logs ++ ["exists".toList] else item.logs,
    completedAt := some env.now }
  let p := withItems meta (done ++ item1 :: tl)
  let st1 : ExecSt :=
    { fs := fs1, mapping := mapping1, savedPlan := some p,
      savedMapping := some mapping1 }
  (done ++ [item1], st1,
   ops ++ [.markDone pos, .savePlanOp p, .saveMapOp mapping1])

/-- The action body of the executor's loop for one non-terminal item
(src:1747-1804): on success, the new filesystem, the updated in-memory
mapping, the file operations performed, and whether an `exists` log line
is appended; on failure, the error-updated item and the state reached. -/
def execItem (env : Env) (mdRoot attachDir : List Char) (st : ExecSt)
    (item : PlanItem) (pos : Nat) :
    (FS × Mapping × List Op × Bool) ⊕ (PlanItem × ExecSt) :=
  let targetPath := item.targetAbs
  if item.action = "download".toList then
    if fsExists st.fs targetPath then
      .inl (st.fs,
        updateMappingTarget st.fs st.mapping item.mappingKey targetPath mdRoot,
        [], true)
    else
      match downloadImage env st.fs item.originalSrc attachDir with
      | none =>
        .inr ({ item with status := "error".toList,
                          errMsg := some "download_failed".toList }, st)
      | some (saved, fs1) =>
        match tryMove fs1 saved targetPath with
        | none =>
          .inr ({ item with status := "error".toList,
                            errMsg := some "move_failed".toList },
                { st with fs := fs1 })
        | some fs2 =>
          .inl (fs2,
            updateMappingTarget fs2 st.mapping item.mappingKey targetPath mdRoot,
            [.download pos item.originalSrc saved,
             .moveFile pos saved targetPath], false)
  else if item.action = "move".toList then
    match item.originalAbs with
    | none =>
      .inr ({ item with status := "error".toList,
                        errMsg := some "source_missing".toList }, st)
    | some srcPath =>
      if srcPath = [] then
        .inr ({ item with status := "error".toList,
                          errMsg := some "source_missing".toList }, st)
      else if fsExists st.fs targetPath && !fsExists st.fs srcPath then
        .inl (st.fs,
          updateMappingTarget st.fs st.mapping item.mappingKey targetPath mdRoot,
          [], true)
      else if !fsExists st.fs srcPath then
        .inr ({ item with status := "error".toList,
                          errMsg := some "source_missing".toList }, st)
      else
        match tryMove st.fs srcPath targetPath with
        | none =>
          .inr ({ item with status := "error".toList,
                            errMsg := some "move_failed".toList }, st)
        | some fs1 =>
          .inl (fs1,
            updateMappingTarget fs1 st.mapping item.mappingKey targetPath mdRoot,
            [.moveFile pos srcPath targetPath], false)
  else
    .inr ({ item with status := "error".toList,
                      errMsg := some ("unsupported action: ".toList ++ item.action) },
          st)

/-- The item loop of `execute_attachment_plan` (src:1741-1824):
`done` holds the already-walked items, `pos` the 0-based position of the
head of the remaining list. -/
def execGo (env : Env) (mdRoot attachDir : List Char) (meta : Plan) :
    List PlanItem → List PlanItem → ExecSt → Bool → Nat → ExecRes
  | done, [], st, mc, _ =>
    let p := { withItems meta done with completed := true }
    { ok := true, mappingChanged := mc, plan := p,
      st := { st with savedPlan := some p }, trace := [.savePlanOp p] }
  | done, item :: tl, st, mc, pos =>
    if item.status = "done".toList then
      execGo env mdRoot attachDir meta (done ++ [item]) tl st mc (pos + 1)
    else if item.status = "error".toList then
      { ok := false, mappingChanged := mc,
        plan := withItems meta (done ++ item :: tl), st := st, trace := [] }
    else
      match execItem env mdRoot attachDir st item pos with
      | .inr (item1, st1) => execFail meta done item1 tl st1 mc
      | .inl (fs1, mapping1, ops, withLog) =>
        let step := execStepDone env meta done item tl pos fs1 mapping1 ops withLog
        let res := execGo env mdRoot attachDir meta step.1 tl step.2.1 true (pos + 1)
        { res with trace := step.2.2 ++ res.trace }

/-- `execute_attachment_plan(plan, md_path, attach_dir, timeout, mapping,
logger, prefer_move)` (src:1727): an empty item list returns success
immediately; otherwise the item loop runs, and full success sets the
`completed` flag and persists the plan once more. -/
def executeAttachmentPlan (env : Env) (mdRoot attachDir : List Char)
    (plan : Plan) (st : ExecSt) : ExecRes :=
  match plan.items with
  | [] => { ok := true, mappingChanged := false, plan := plan, st := st, trace := [] }
  | _ => execGo env mdRoot attachDir plan [] plan.items st false 0

/-!  ## Predicates used by the statements -/

/-- An event that touches an image file (a performed download or move). -/
def isFileOp : Op → Bool
  | .download _ _ _ => true
  | .moveFile _ _ _ => true
  | _ => false

/-- The item position an event belongs to, if any. -/
def opItemPos : Op → Option Nat
  | .download p _ _ => some p
  | .moveFile p _ _ => some p
  | .markDone p => some p
  | _ => none

/-- The resumability check on a trace: every `markDone k` is immediately
followed by a plan persist whose first `k + 1` items are all `done`, and
a mapping persist, before any further event. -/
def persistChk : List Op → Bool
  | [] => true
  | .markDone k :: rest =>
    match rest with
    | .savePlanOp p :: .saveMapOp _ :: rest2 =>
      ((p.items.take (k + 1)).all (fun it => it.status = "done".toList))
        && persistChk rest2
    | _ => false
  | _ :: rest => persistChk rest

/-- Spans are well formed and strictly ordered: every reference's span is
non-empty and ends no later than the next one starts. -/
def refsOrdered : List ImageRefL → Bool
  | [] => true
  | [r] => r.start < r.stop
  | r1 :: r2 :: tl => r1.start < r1.stop && r1.stop ≤ r2.start && refsOrdered (r2 :: tl)

/-- The Markdown-image group of `collect_images`. -/
def mdRefs (text : List Char) : List ImageRefL :=
  (refScan matchMdAt 0 text).map (mdRefOf text)

/-- The raw `<img>` group of `collect_images` (after the `![` lookback). -/
def htmlRefs (text : List Char) : List ImageRefL :=
  ((refScan matchHtmlAt 0 text).filter (fun sp =>
      let pre := text.take sp.1
      !(endsWithL ['!', '['] pre || endsWithL ['!', '[', '\\'] pre))).map
    (fun sp => { kind := "html".toList, src := pyStrip sp.2.2, start := sp.1,
                 stop := sp.2.1, line := lineNo text sp.1, alt := none, title := none })

/-- The wiki-embed group of `collect_images`. -/
def wikiRefs (text : List Char) : List ImageRefL :=
  (refScan matchWikiAt 0 text).map
    (fun sp =>
      let inside := pyStrip sp.2.2
      let target := pyStrip (inside.takeWhile (· ≠ '|'))
      { kind := "wikilink".toList, src := target, start := sp.1,
        stop := sp.2.1, line := lineNo text sp.1, alt := none, title := none })

/-- No double space (the collapsed form emitted by `WHITESPACE_RE.sub`). -/
def noDoubleSpace : List Char → Bool
  | c1 :: c2 :: tl => !(c1 = ' ' && c2 = ' ') && noDoubleSpace (c2 :: tl)
  | _ => true

/-- A character that can re-trigger none of the cleaning passes: not a
marker of front matter, fences, tags, links, images, bare image paths,
metadata lines or rules, and no whitespace other than a plain space. -/
def inertChar (c : Char) : Bool :=
  !(c = '-' || c = '*' || c = '_' || c = '.' || c = ':' || c = '<'
    || c = '[' || c = '!' || c = bt) && (!isWsChar c || c = ' ')

/-- Cleaned text on which every pass of the pipeline is the identity:
inert characters only, in collapsed, stripped whitespace form. -/
def cleanSafe (s : List Char) : Bool :=
  s.all inertChar && noDoubleSpace s
    && (match s.head? with | none => true | some c => !(c = ' '))
    && (match s.reverse.head? with | none => true | some c => !(c = ' '))

/-- A string character inside the JSON-repair roundtrip class: printable,
and none of the characters that interact with the repair regexes or the
serializer's escaping (quote, backslash, backtick, braces, brackets,
comma). -/
def simpleChar (c : Char) : Bool :=
  !(c = '"' || c = '\\' || c = bt || c = lb || c = rb
    || c = '[' || c = ']' || c = ',') && 32 ≤ c.toNat

mutual
/-- All strings of the value are made of `simpleChar`s. -/
def simpleJ : Json → Bool
  | .jstr s => s.all simpleChar
  | .jarr a => simpleA a
  | .jobj o => simpleO o
  | _ => true

/-- `simpleJ` over array elements. -/
def simpleA : JArr → Bool
  | .anil => true
  | .acons v tl => simpleJ v && simpleA tl

/-- `simpleJ` over object members (keys included). -/
def simpleO : JObj → Bool
  | .onil => true
  | .ocons k v tl => k.all simpleChar && simpleJ v && simpleO tl
end

/-- Values whose trailing-comma serialization equals the plain one:
leaves and empty containers (a non-empty container receives a trailing
comma). -/
def trailFree : Json → Bool
  | .jarr (.acons _ _) => false
  | .jobj (.ocons _ _ _) => false
  | _ => true

mutual
/-- Fuel needed by `parseVal` on the serialization of a value. -/
def jfuel : Json → Nat
  | .jarr a => 2 + jfuelA a
  | .jobj o => 2 + jfuelO o
  | _ => 1

/-- Fuel needed by `parseElems` on serialized elements. -/
def jfuelA : JArr → Nat
  | .anil => 0
  | .acons v tl => 1 + jfuel v + jfuelA tl

/-- Fuel needed by `parseMembers` on serialized members. -/
def jfuelO : JObj → Nat
  | .onil => 0
  | .ocons _ v tl => 1 + jfuel v + jfuelO tl
end

/-- The next character lets the number parser stop: end of input or a
separator/closer of the enclosing container. -/
def delimB (s : List Char) : Bool :=
  match s.head? with
  | none => true
  | some c => c = ',' || c = rb || c = ']'

/-- Default plan item (the `getD` default used in statements). -/
def dummyItem : PlanItem :=
  { idx := 0, blockIndex := 0, imageIndex := 0, originalSrc := [],
    originalAbs := none, action := [], finalBase := [], targetAbs := [],
    targetRel := [], status := [], errMsg := none, mappingKey := none,
    logs := [], completedAt := none }

/-- Classification demanded of a built plan item for its source string
(the body of claim C4): a remote source gives a pending `download` item,
a resolvable local source gives a pending `move` item carrying the
resolved absolute path, and an unresolvable local source gives an
`error`/`source_missing` item. -/
def itemClassified (env : Env) (fs : FS) (it : PlanItem) (src : List Char) : Prop :=
  let cleaned := pyStrip src
  it.originalSrc = cleaned ∧
  (if isRemoteUrl cleaned then
    it.action = "download".toList ∧ it.status = "pending".toList ∧
      it.mappingKey = some ("remote:".toList ++ cleaned)
   else
    match env.resolveLocal cleaned with
    | some sp =>
      if fsExists fs sp then
        it.action = "move".toList ∧ it.status = "pending".toList ∧
          it.originalAbs = some sp ∧
          it.mappingKey = some ("local:".toList ++ sp)
      else
        it.action = "error".toList ∧ it.status = "error".toList ∧
          it.errMsg = some "source_missing".toList
    | none =>
      it.action = "error".toList ∧ it.status = "error".toList ∧
        it.errMsg = some "source_missing".toList)


/-!  ## Concrete scenario (used by the witnesses of the claims)

A document `/doc/a.md`, an attachment directory `/doc/att`, one
reachable remote image, one resolvable local image and one missing local
image. -/

/-- Witness environment. -/
def wEnv : Env :=
  { net := fun u => if u = "http://x/y.png".toList then some 77 else none,
    resolveLocal := fun s =>
      if s = "local.png".toList then some "/doc/local.png".toList else none,
    dlName := fun _ => "y.png".toList,
    urlExt := fun _ => ".png".toList,
    now := 5 }

/-- Witness filesystem: the local image exists. -/
def wFs : FS := [("/doc/local.png".toList, 42)]

/-- Witness naming function (`name_with_template` abstracted). -/
def wName (i : Nat) (_ : Nat) (_ : Nat) : List Char := 'i' :: 'm' :: 'g' :: natChars i

/-- A plan over the remote and the resolvable local reference. -/
def wPlanGood : Plan :=
  buildAttachmentPlan wEnv wFs "/doc/a.md".toList "/doc".toList "T".toList
    "/doc/att".toList wName (fun _ => true) []
    ["http://x/y.png".toList, "local.png".toList]

/-- A plan that also contains a missing local reference. -/
def wPlanBad : Plan :=
  buildAttachmentPlan wEnv wFs "/doc/a.md".toList "/doc".toList "T".toList
    "/doc/att".toList wName (fun _ => true) []
    ["http://x/y.png".toList, "missing.png".toList, "local.png".toList]

/-- State entering execution of the good plan (plan persisted at build
time). -/
def wSt : ExecSt :=
  { fs := wFs, mapping := [], savedPlan := some wPlanGood, savedMapping := none }

/-- State entering execution of the failing plan. -/
def wStBad : ExecSt :=
  { fs := wFs, mapping := [], savedPlan := some wPlanBad, savedMapping := none }

/-- A stale mapping entry: its recorded hash is `5`, while the file now
at its target has content hash `7`. -/
def wStale : MapEntry :=
  { mtype := "remote".toList, url := some "http://x/y.png".toList,
    original := none, originalRel := none,
    target := "/doc/att/x.png".toList, targetRel := "att/x.png".toList,
    hash := 5, stampedAt := 0 }

/-- Filesystem for the stale-entry scenario. -/
def wFsStale : FS := [("/doc/att/x.png".toList, 7)]

/-- Mapping holding the stale entry. -/
def wMapStale : Mapping := [("remote:http://x/y.png".toList, wStale)]


/-- Span-chain check: every span starts at or after the lower bound, is
non-empty, and the next span starts at or after its end. -/
def spanChain {α : Type} : Nat → List (Nat × Nat × α) → Bool
  | _, [] => true
  | lo, (a, b, _) :: tl => lo ≤ a && a < b && spanChain b tl

/-- Mixed-syntax document of the C6 counterexample: a raw `<img>` tag
before an inline Markdown image. -/
def cexDoc : List Char :=
  "<img src=\"a.png\">\n\n![b](c.png)".toList


/-- Input of the C8 counterexample: a Markdown link directly followed by
text that the second cleaning pass reads as front matter. -/
def cexClean : List Char := "[l](u)--- y ---".toList

/-!  ## Theorems -/

theorem take_len_succ {α : Type} (l : List α) (x : α) (r : List α) :
    (l ++ x :: r).take (l.length + 1) = l ++ [x] := by
  induction l with
  | nil => simp
  | cons a tl ih => simpa using ih

/-- Walking a list whose items are all `done` only skips: the loop
reaches the tail, marks the plan completed, and persists it once. -/
theorem execGo_all_done (env : Env) (mdRoot attachDir : List Char) (meta : Plan) :
    ∀ (items done : List PlanItem) (st : ExecSt) (mc : Bool) (pos : Nat),
    (∀ it ∈ items, it.status = "done".toList) →
    execGo env mdRoot attachDir meta done items st mc pos =
      ExecRes.mk true mc ({ withItems meta (done ++ items) with completed := true })
        ({ st with savedPlan := some ({ withItems meta (done ++ items) with completed := true }) })
        [Op.savePlanOp ({ withItems meta (done ++ items) with completed := true })] := by
  intro items
  induction items with
  | nil => intro done st mc pos _; simp [execGo]
  | cons item tl ih =>
    intro done st mc pos h
    have hs : item.status = "done".toList := h item (by simp)
    rw [execGo, if_pos hs, ih (done ++ [item]) st mc (pos + 1)
      (fun it hit => h it (by simp [hit]))]
    simp

/-- Success of the loop means: every item of the final plan is `done`,
the `completed` flag is set, and the final plan is the one persisted. -/
theorem execGo_ok_done (env : Env) (mdRoot attachDir : List Char) (meta : Plan) :
    ∀ (items done : List PlanItem) (st : ExecSt) (mc : Bool) (pos : Nat),
    (∀ it ∈ done, it.status = "done".toList) →
    (execGo env mdRoot attachDir meta done items st mc pos).ok = true →
    (∀ it ∈ (execGo env mdRoot attachDir meta done items st mc pos).plan.items,
        it.status = "done".toList) ∧
    (execGo env mdRoot attachDir meta done items st mc pos).plan.completed = true ∧
    (execGo env mdRoot attachDir meta done items st mc pos).st.savedPlan =
      some (execGo env mdRoot attachDir meta done items st mc pos).plan := by
  intro items
  induction items with
  | nil =>
    intro done st mc pos hdone _
    refine ⟨?_, by simp [execGo], by simp [execGo]⟩
    intro it hit
    simp only [execGo, withItems] at hit
    exact hdone it hit
  | cons item tl ih =>
    intro done st mc pos hdone hok
    rw [execGo] at hok ⊢
    by_cases hs : item.status = "done".toList
    · rw [if_pos hs] at hok ⊢
      exact ih (done ++ [item]) st mc (pos + 1)
        (by intro it hit
            rcases List.mem_append.mp hit with h1 | h1
            · exact hdone it h1
            · simp at h1; simpa [h1])
        hok
    · rw [if_neg hs] at hok ⊢
      by_cases he : item.status = "error".toList
      · rw [if_pos he] at hok
        simp at hok
      · rw [if_neg he] at hok ⊢
        cases hE : execItem env mdRoot attachDir st item pos with
        | inr pr =>
          rw [hE] at hok
          simp [execFail] at hok
        | inl tr =>
          obtain ⟨fs1, mapping1, ops, withLog⟩ := tr
          rw [hE] at hok
          dsimp only at hok ⊢
          have := ih (execStepDone env meta done item tl pos fs1 mapping1 ops withLog).1
            (execStepDone env meta done item tl pos fs1 mapping1 ops withLog).2.1
            true (pos + 1)
            (by intro it hit
                simp only [execStepDone] at hit
                rcases List.mem_append.mp hit with h1 | h1
                · exact hdone it h1
                · simp at h1; simp [h1])
            hok
          simpa using this

/-- C10: `safe_parse_json` is total at the public interface — for `None`
and for every string it returns either a parsed JSON value or `None`;
every internal parse failure (the exceptions of `json.loads`) is caught
by the layered pipeline and never escapes. -/
theorem safe_parse_json_total :
    safeParseJson none = none ∧
    ∀ s : List Char, safeParseJson (some s) = none ∨
      ∃ v, safeParseJson (some s) = some v := by
  refine ⟨rfl, fun s => ?_⟩
  cases h : safeParseJson (some s) with
  | none => exact Or.inl rfl
  | some v => exact Or.inr ⟨v, rfl⟩

/-- C9: whenever the executor returns success, every item of the plan is
`done`; a non-empty item list further gets the `completed` flag and a
final persist of exactly that plan, while an empty item list returns
success immediately with nothing touched. -/
theorem exec_plan_success_all_done (env : Env) (mdRoot attachDir : List Char)
    (plan : Plan) (st : ExecSt)
    (hok : (executeAttachmentPlan env mdRoot attachDir plan st).ok = true) :
    (∀ it ∈ (executeAttachmentPlan env mdRoot attachDir plan st).plan.items,
        it.status = "done".toList) ∧
    (plan.items ≠ [] →
      (executeAttachmentPlan env mdRoot attachDir plan st).plan.completed = true ∧
      (executeAttachmentPlan env mdRoot attachDir plan st).st.savedPlan =
        some (executeAttachmentPlan env mdRoot attachDir plan st).plan) ∧
    (plan.items = [] →
      executeAttachmentPlan env mdRoot attachDir plan st =
        ExecRes.mk true false plan st []) := by
  obtain ⟨doc, ttl, ad, ca, items, comp⟩ := plan
  cases items with
  | nil =>
    exact ⟨by intro it hit; simp [executeAttachmentPlan] at hit,
           fun hne => absurd rfl hne, fun _ => rfl⟩
  | cons a tl =>
    simp only [executeAttachmentPlan] at hok ⊢
    have h := execGo_ok_done env mdRoot attachDir
      (Plan.mk doc ttl ad ca (a :: tl) comp) (a :: tl) [] st false 0
      (by intro it hit; exact absurd hit (List.not_mem_nil it)) hok
    exact ⟨h.1, fun _ => ⟨h.2.1, h.2.2⟩, fun hemp => by simp at hemp⟩


theorem plan_completed_id (p : Plan) (h : p.completed = true) :
    { p with completed := true } = p := by
  cases p; simp_all

theorem st_saved_id (s : ExecSt) (p : Plan) (h : s.savedPlan = some p) :
    { s with savedPlan := some p } = s := by
  cases s; simp_all

/-- C1: executing a plan a second time against the unmodified state
after a successful run succeeds again with zero file operations — every
item is skipped as already `done` — and leaves the plan (hence every
target path the rewritten document is built from), the filesystem, the
mapping and the persisted files unchanged. -/
theorem exec_plan_idempotent (env : Env) (mdRoot attachDir : List Char)
    (plan : Plan) (st : ExecSt)
    (hok : (executeAttachmentPlan env mdRoot attachDir plan st).ok = true) :
    (executeAttachmentPlan env mdRoot attachDir
        (executeAttachmentPlan env mdRoot attachDir plan st).plan
        (executeAttachmentPlan env mdRoot attachDir plan st).st).ok = true ∧
    (executeAttachmentPlan env mdRoot attachDir
        (executeAttachmentPlan env mdRoot attachDir plan st).plan
        (executeAttachmentPlan env mdRoot attachDir plan st).st).plan =
      (executeAttachmentPlan env mdRoot attachDir plan st).plan ∧
    (executeAttachmentPlan env mdRoot attachDir
        (executeAttachmentPlan env mdRoot attachDir plan st).plan
        (executeAttachmentPlan env mdRoot attachDir plan st).st).st =
      (executeAttachmentPlan env mdRoot attachDir plan st).st ∧
    (executeAttachmentPlan env mdRoot attachDir
        (executeAttachmentPlan env mdRoot attachDir plan st).plan
        (executeAttachmentPlan env mdRoot attachDir plan st).st).mappingChanged = false ∧
    ((executeAttachmentPlan env mdRoot attachDir
        (executeAttachmentPlan env mdRoot attachDir plan st).plan
        (executeAttachmentPlan env mdRoot attachDir plan st).st).trace.all
      (fun op => !isFileOp op)) = true := by
  obtain ⟨doc, ttl, ad, ca, items, comp⟩ := plan
  cases items with
  | nil => exact ⟨rfl, rfl, rfl, rfl, rfl⟩
  | cons a tl =>
    simp only [executeAttachmentPlan] at hok ⊢
    have h := execGo_ok_done env mdRoot attachDir
      (Plan.mk doc ttl ad ca (a :: tl) comp) (a :: tl) [] st false 0
      (by intro it hit; exact absurd hit (List.not_mem_nil it)) hok
    cases hitems2 : (execGo env mdRoot attachDir
        (Plan.mk doc ttl ad ca (a :: tl) comp) [] (a :: tl) st false 0).plan.items with
    | nil => exact ⟨rfl, rfl, rfl, rfl, rfl⟩
    | cons b bt =>
      rw [execGo_all_done env mdRoot attachDir _ (b :: bt) [] _ false 0
        (by intro it hit; exact h.1 it (by rw [hitems2]; exact hit))]
      have heq : ({ withItems (execGo env mdRoot attachDir
          (Plan.mk doc ttl ad ca (a :: tl) comp) [] (a :: tl) st false 0).plan
          ([] ++ b :: bt) with completed := true }) =
          (execGo env mdRoot attachDir
            (Plan.mk doc ttl ad ca (a :: tl) comp) [] (a :: tl) st false 0).plan := by
        rw [List.nil_append, ← hitems2]
        exact plan_completed_id _ h.2.1
      rw [heq, st_saved_id _ _ h.2.2]
      exact ⟨rfl, rfl, rfl, rfl, rfl⟩


/-- A successful item action emits only file operations (the persistence
events are appended by the loop itself afterwards). -/
theorem execItem_inl_ops (env : Env) (mdRoot attachDir : List Char)
    (st : ExecSt) (item : PlanItem) (pos : Nat)
    (fs1 : FS) (m1 : Mapping) (ops : List Op) (w : Bool)
    (h : execItem env mdRoot attachDir st item pos = .inl (fs1, m1, ops, w)) :
    ops.all isFileOp = true := by
  unfold execItem at h
  dsimp only at h
  repeat' split at h
  all_goals cases h
  all_goals rfl

/-- A failed item action yields an `error` status with a recorded
detail, and does not touch the item's identity or action. -/
theorem execItem_inr_err (env : Env) (mdRoot attachDir : List Char)
    (st : ExecSt) (item : PlanItem) (pos : Nat)
    (item1 : PlanItem) (st1 : ExecSt)
    (h : execItem env mdRoot attachDir st item pos = .inr (item1, st1)) :
    item1.status = "error".toList ∧ item1.errMsg ≠ none ∧
    item1.idx = item.idx ∧ item1.action = item.action := by
  unfold execItem at h
  dsimp only at h
  repeat' split at h
  all_goals cases h
  all_goals exact ⟨rfl, by simp, rfl, rfl⟩

/-- `persistChk` ignores a leading run of file operations. -/
theorem persistChk_fileops (ops rest : List Op)
    (h : ops.all isFileOp = true) :
    persistChk (ops ++ rest) = persistChk rest := by
  induction ops with
  | nil => rfl
  | cons op tl ih =>
    simp only [List.all_cons, Bool.and_eq_true] at h
    cases op with
    | download p u s => simpa [persistChk] using ih h.2
    | moveFile p a b => simpa [persistChk] using ih h.2
    | markDone p => simp [isFileOp] at h
    | savePlanOp p => simp [isFileOp] at h
    | saveMapOp m => simp [isFileOp] at h

/-- Resumability invariant of the loop: after every `markDone`, the plan
(with every walked item `done`) and the mapping are persisted before
anything else happens. -/
theorem execGo_persist (env : Env) (mdRoot attachDir : List Char) (meta : Plan) :
    ∀ (items done : List PlanItem) (st : ExecSt) (mc : Bool),
    (∀ it ∈ done, it.status = "done".toList) →
    persistChk (execGo env mdRoot attachDir meta done items st mc done.length).trace
      = true := by
  intro items
  induction items with
  | nil => intro done st mc _; simp [execGo, persistChk]
  | cons item tl ih =>
    intro done st mc hdone
    rw [execGo]
    by_cases hs : item.status = "done".toList
    · rw [if_pos hs]
      have h2 := ih (done ++ [item]) st mc
        (by intro it hit
            rcases List.mem_append.mp hit with h1 | h1
            · exact hdone it h1
            · simp at h1; simpa [h1])
      simpa [List.length_append] using h2
    · rw [if_neg hs]
      by_cases he : item.status = "error".toList
      · rw [if_pos he]; rfl
      · rw [if_neg he]
        cases hE : execItem env mdRoot attachDir st item done.length with
        | inr pr =>
          obtain ⟨item1, st1⟩ := pr
          simp [execFail, persistChk]
        | inl tr =>
          obtain ⟨fs1, mapping1, ops, withLog⟩ := tr
          dsimp only [execStepDone]
          rw [List.append_assoc,
            persistChk_fileops ops _
              (execItem_inl_ops env mdRoot attachDir st item done.length
                fs1 mapping1 ops withLog hE)]
          simp only [List.cons_append, List.nil_append, persistChk, withItems]
          simp only [Bool.and_eq_true]
          constructor
          · rw [take_len_succ]
            simp only [List.all_append, Bool.and_eq_true, List.all_eq_true]
            exact ⟨fun it hit => by simp [hdone it hit], by simp⟩
          · have h3 := ih (done ++ [{ item with
                status := "done".toList,
                logs := if withLog then item.logs ++ ["exists".toList] else item.logs,
                completedAt := some env.now }])
              ({ fs := fs1, mapping := mapping1,
                 savedPlan := some (withItems meta (done ++ { item with
                   status := "done".toList,
                   logs := if withLog then item.logs ++ ["exists".toList] else item.logs,
                   completedAt := some env.now } :: tl)),
                 savedMapping := some mapping1 }) true
              (by intro it hit
                  rcases List.mem_append.mp hit with h1 | h1
                  · exact hdone it h1
                  · simp at h1; simp [h1])
            simpa [List.length_append, withItems] using h3

/-- C2: in every executor run, each item marked `done` is immediately
followed — before the next item is processed — by a persist of the plan
(in which every already-walked item is recorded `done`, making the first
`pending`/`error` item the resumption point) and a persist of the asset
mapping. -/
theorem exec_plan_persists_after_each_item (env : Env)
    (mdRoot attachDir : List Char) (plan : Plan) (st : ExecSt) :
    persistChk (executeAttachmentPlan env mdRoot attachDir plan st).trace = true := by
  obtain ⟨doc, ttl, ad, ca, items, comp⟩ := plan
  cases items with
  | nil => rfl
  | cons a tl =>
    simp only [executeAttachmentPlan]
    exact execGo_persist env mdRoot attachDir
      (Plan.mk doc ttl ad ca (a :: tl) comp) (a :: tl) [] st false
      (by intro it hit; exact absurd hit (List.not_mem_nil it))

/-- Events emitted by one item action carry that item's position. -/
theorem execItem_inl_pos (env : Env) (mdRoot attachDir : List Char)
    (st : ExecSt) (item : PlanItem) (pos : Nat)
    (fs1 : FS) (m1 : Mapping) (ops : List Op) (w : Bool)
    (h : execItem env mdRoot attachDir st item pos = .inl (fs1, m1, ops, w)) :
    ∀ op ∈ ops, opItemPos op = some pos := by
  unfold execItem at h
  dsimp only at h
  repeat' split at h
  all_goals cases h
  all_goals simp [opItemPos]

theorem getD_append_mid {α : Type} (l : List α) (x : α) (r : List α) (d : α) :
    (l ++ x :: r).getD l.length d = x := by
  induction l with
  | nil => rfl
  | cons a tl ih => simpa using ih

theorem getD_append_gt {α : Type} (l : List α) (x : α) (r : List α) (d : α)
    (j : Nat) (h : l.length < j) :
    (l ++ x :: r).getD j d = r.getD (j - l.length - 1) d := by
  induction l generalizing j with
  | nil =>
    cases j with
    | zero => omega
    | succ j2 => simp
  | cons a tl ih =>
    cases j with
    | zero => omega
    | succ j2 =>
      simp only [List.cons_append, List.getD_cons_succ, List.length_cons]
      rw [ih j2 (by simpa using h)]
      congr 1
      omega

theorem getD_append_lt {α : Type} (l r : List α) (d : α)
    (j : Nat) (h : j < l.length) :
    (l ++ r).getD j d = l.getD j d := by
  induction l generalizing j with
  | nil => simp at h
  | cons a tl ih =>
    cases j with
    | zero => rfl
    | succ j2 => simpa using ih j2 (by simpa using h)

theorem getD_mem_status (l : List PlanItem) (j : Nat) (h : j < l.length)
    (hall : ∀ it ∈ l, it.status = "done".toList) :
    (l.getD j dummyItem).status = "done".toList := by
  induction l generalizing j with
  | nil => simp at h
  | cons a tl ih =>
    cases j with
    | zero => exact hall a (by simp)
    | succ j2 =>
      exact ih j2 (by simpa using h) (fun it hit => hall it (by simp [hit]))

theorem withItems_items (p : Plan) (l : List PlanItem) :
    (withItems p l).items = l := rfl

/-- Fail-fast invariant of the loop: a `False` result identifies one
item — every earlier item `done`, this one `error` — with the final plan
persisted (or, for a pre-existing `error` item, still persisted from
before the run), later items untouched, and no event concerning any
later item. -/
theorem execGo_fail (env : Env) (mdRoot attachDir : List Char) (meta : Plan) :
    ∀ (items done : List PlanItem) (st : ExecSt) (mc : Bool) (res : ExecRes),
    (∀ it ∈ done, it.status = "done".toList) →
    st.savedPlan = some (withItems meta (done ++ items)) →
    execGo env mdRoot attachDir meta done items st mc done.length = res →
    res.ok = false →
    res.plan.items.length = done.length + items.length ∧
    ∃ k, done.length ≤ k ∧ k < done.length + items.length ∧
      (∀ j, j < k → (res.plan.items.getD j dummyItem).status = "done".toList) ∧
      (res.plan.items.getD k dummyItem).status = "error".toList ∧
      res.st.savedPlan = some res.plan ∧
      (∀ j, k < j → res.plan.items.getD j dummyItem = (done ++ items).getD j dummyItem) ∧
      (∀ op ∈ res.trace, ∀ j, opItemPos op = some j → j ≤ k) := by
  intro items
  induction items with
  | nil =>
    intro done st mc res _ _ hE hok
    subst hE
    simp [execGo] at hok
  | cons item tl ih =>
    intro done st mc res hdone hsaved hE hok
    rw [execGo] at hE
    by_cases hs : item.status = "done".toList
    · rw [if_pos hs] at hE
      have hlen : (done ++ [item]).length = done.length + 1 := by simp
      have hass : (done ++ [item]) ++ tl = done ++ item :: tl := by simp
      obtain ⟨hL, k, hk1, hk2, hk3, hk4, hk5, hk6, hk7⟩ :=
        ih (done ++ [item]) st mc res
          (by intro it hit
              rcases List.mem_append.mp hit with h1 | h1
              · exact hdone it h1
              · simp at h1; simpa [h1])
          (by rw [hass]; exact hsaved)
          (by rw [hlen]; exact hE) hok
      rw [hlen] at hL hk1 hk2
      refine ⟨by rw [hL]; simp only [List.length_cons]; omega,
        k, by omega, by simp only [List.length_cons]; omega, hk3, hk4, hk5, ?_, hk7⟩
      intro j hj
      rw [hk6 j hj, hass]
    · rw [if_neg hs] at hE
      by_cases he : item.status = "error".toList
      · rw [if_pos he] at hE
        subst hE
        refine ⟨by simp [withItems_items], done.length, le_refl _,
          by simp only [List.length_cons]; omega, ?_, ?_, hsaved, ?_, ?_⟩
        · intro j hj
          simp only [withItems_items]
          rw [getD_append_lt done _ dummyItem j hj]
          exact getD_mem_status done j hj hdone
        · simp only [withItems_items]
          rw [getD_append_mid done item tl dummyItem]
          exact he
        · intro j _
          simp only [withItems_items]
        · intro op hop
          simp at hop
      · rw [if_neg he] at hE
        cases hItm : execItem env mdRoot attachDir st item done.length with
        | inr pr =>
          obtain ⟨item1, st1⟩ := pr
          rw [hItm] at hE
          subst hE
          have herr := execItem_inr_err env mdRoot attachDir st item done.length
            item1 st1 hItm
          refine ⟨by simp [execFail, withItems_items], done.length, le_refl _,
            by simp only [List.length_cons]; omega, ?_, ?_, rfl, ?_, ?_⟩
          · intro j hj
            simp only [execFail, withItems_items]
            rw [getD_append_lt done _ dummyItem j hj]
            exact getD_mem_status done j hj hdone
          · simp only [execFail, withItems_items]
            rw [getD_append_mid done item1 tl dummyItem]
            exact herr.1
          · intro j hj
            simp only [execFail, withItems_items]
            rw [getD_append_gt done item1 tl dummyItem j hj,
              getD_append_gt done item tl dummyItem j hj]
          · intro op hop j hj
            simp only [execFail, List.mem_singleton] at hop
            rw [hop] at hj
            simp [opItemPos] at hj
        | inl tr =>
          obtain ⟨fs1, mapping1, ops, withLog⟩ := tr
          rw [hItm] at hE
          subst hE
          dsimp only [execStepDone] at hok ⊢
          obtain ⟨hL, k, hk1, hk2, hk3, hk4, hk5, hk6, hk7⟩ :=
            ih (done ++ [{ item with
                status := "done".toList,
                logs := if withLog then item.logs ++ ["exists".toList] else item.logs,
                completedAt := some env.now }])
              ({ fs := fs1, mapping := mapping1,
                 savedPlan := some (withItems meta (done ++ { item with
                   status := "done".toList,
                   logs := if withLog then item.logs ++ ["exists".toList] else item.logs,
                   completedAt := some env.now } :: tl)),
                 savedMapping := some mapping1 }) true _
              (by intro it hit
                  rcases List.mem_append.mp hit with h1 | h1
                  · exact hdone it h1
                  · simp at h1; simp [h1])
              (by simp)
              (by simp only [List.length_append, List.length_singleton]) hok
          simp only [List.length_append, List.length_singleton] at hL hk1 hk2
          refine ⟨by rw [hL]; simp only [List.length_cons]; omega,
            k, by omega, by simp only [List.length_cons]; omega,
            hk3, hk4, hk5, ?_, ?_⟩
          · intro j hj
            rw [hk6 j hj]
            have hj2 : done.length < j := by omega
            simp only [List.append_assoc, List.singleton_append]
            rw [getD_append_gt done _ tl dummyItem j hj2,
              getD_append_gt done item tl dummyItem j hj2]
          · intro op hop j hj
            rcases List.mem_append.mp hop with h1 | h1
            · rcases List.mem_append.mp h1 with h2 | h2
              · have hpos := execItem_inl_pos env mdRoot attachDir st item
                  done.length fs1 mapping1 ops withLog hItm op h2
                rw [hpos] at hj
                cases hj
                omega
              · simp only [List.mem_cons, List.not_mem_nil, or_false] at h2
                rcases h2 with h3 | h3 | h3 <;> rw [h3] at hj <;>
                  simp only [opItemPos] at hj
                · cases hj; omega
                · cases hj
                · cases hj
            · exact hk7 op h1 j hj

/-- C3: when the executor fails (pre-existing `error` item, download or
move failure, missing source, unsupported action), it halts at one item
`k`: items before `k` are `done`, item `k` carries the `error` status,
the plan on disk records that error (for a pre-existing `error` item it
is the plan persisted before the run), items after `k` are untouched and
none of their actions is performed, and the failure is returned to the
caller rather than retried. -/
theorem exec_plan_fail_fast (env : Env) (mdRoot attachDir : List Char)
    (plan : Plan) (st : ExecSt)
    (hsaved : st.savedPlan = some plan)
    (hfail : (executeAttachmentPlan env mdRoot attachDir plan st).ok = false) :
    (executeAttachmentPlan env mdRoot attachDir plan st).plan.items.length
      = plan.items.length ∧
    ∃ k, k < plan.items.length ∧
      (∀ j, j < k →
        ((executeAttachmentPlan env mdRoot attachDir plan st).plan.items.getD
          j dummyItem).status = "done".toList) ∧
      ((executeAttachmentPlan env mdRoot attachDir plan st).plan.items.getD
        k dummyItem).status = "error".toList ∧
      (executeAttachmentPlan env mdRoot attachDir plan st).st.savedPlan =
        some (executeAttachmentPlan env mdRoot attachDir plan st).plan ∧
      (∀ j, k < j →
        (executeAttachmentPlan env mdRoot attachDir plan st).plan.items.getD
          j dummyItem = plan.items.getD j dummyItem) ∧
      (∀ op ∈ (executeAttachmentPlan env mdRoot attachDir plan st).trace,
        ∀ j, opItemPos op = some j → j ≤ k) := by
  obtain ⟨doc, ttl, ad, ca, items, comp⟩ := plan
  cases items with
  | nil => simp [executeAttachmentPlan] at hfail
  | cons a tl =>
    simp only [executeAttachmentPlan] at hfail ⊢
    obtain ⟨hL, k, _, hk2, hk3, hk4, hk5, hk6, hk7⟩ :=
      execGo_fail env mdRoot attachDir (Plan.mk doc ttl ad ca (a :: tl) comp)
        (a :: tl) [] st false _
        (by intro it hit; exact absurd hit (List.not_mem_nil it))
        (by simpa [withItems] using hsaved) rfl hfail
    simp only [List.length_nil, List.nil_append, Nat.zero_add] at hL hk2 hk4 hk6
    exact ⟨hL, k, hk2, hk3, hk4, hk5, hk6, hk7⟩


theorem exec_plan_idempotent_witness :
    (executeAttachmentPlan wEnv "/doc".toList "/doc/att".toList wPlanGood wSt).ok
      = true ∧
    ((executeAttachmentPlan wEnv "/doc".toList "/doc/att".toList
        (executeAttachmentPlan wEnv "/doc".toList "/doc/att".toList wPlanGood wSt).plan
        (executeAttachmentPlan wEnv "/doc".toList "/doc/att".toList wPlanGood wSt).st).ok
      = true ∧
     (executeAttachmentPlan wEnv "/doc".toList "/doc/att".toList
        (executeAttachmentPlan wEnv "/doc".toList "/doc/att".toList wPlanGood wSt).plan
        (executeAttachmentPlan wEnv "/doc".toList "/doc/att".toList wPlanGood wSt).st).plan
      = (executeAttachmentPlan wEnv "/doc".toList "/doc/att".toList wPlanGood wSt).plan ∧
     (executeAttachmentPlan wEnv "/doc".toList "/doc/att".toList
        (executeAttachmentPlan wEnv "/doc".toList "/doc/att".toList wPlanGood wSt).plan
        (executeAttachmentPlan wEnv "/doc".toList "/doc/att".toList wPlanGood wSt).st).st
      = (executeAttachmentPlan wEnv "/doc".toList "/doc/att".toList wPlanGood wSt).st ∧
     (executeAttachmentPlan wEnv "/doc".toList "/doc/att".toList
        (executeAttachmentPlan wEnv "/doc".toList "/doc/att".toList wPlanGood wSt).plan
        (executeAttachmentPlan wEnv "/doc".toList "/doc/att".toList wPlanGood wSt).st).mappingChanged
      = false ∧
     ((executeAttachmentPlan wEnv "/doc".toList "/doc/att".toList
        (executeAttachmentPlan wEnv "/doc".toList "/doc/att".toList wPlanGood wSt).plan
        (executeAttachmentPlan wEnv "/doc".toList "/doc/att".toList wPlanGood wSt).st).trace.all
      (fun op => !isFileOp op)) = true) :=
  ⟨by decide, exec_plan_idempotent wEnv "/doc".toList "/doc/att".toList wPlanGood wSt
    (by decide)⟩

theorem exec_plan_success_all_done_witness :
    (executeAttachmentPlan wEnv "/doc".toList "/doc/att".toList wPlanGood wSt).ok
      = true ∧
    ((∀ it ∈ (executeAttachmentPlan wEnv "/doc".toList "/doc/att".toList
        wPlanGood wSt).plan.items, it.status = "done".toList) ∧
     (wPlanGood.items ≠ [] →
       (executeAttachmentPlan wEnv "/doc".toList "/doc/att".toList
         wPlanGood wSt).plan.completed = true ∧
       (executeAttachmentPlan wEnv "/doc".toList "/doc/att".toList
         wPlanGood wSt).st.savedPlan =
         some (executeAttachmentPlan wEnv "/doc".toList "/doc/att".toList
           wPlanGood wSt).plan) ∧
     (wPlanGood.items = [] →
       executeAttachmentPlan wEnv "/doc".toList "/doc/att".toList wPlanGood wSt =
         ExecRes.mk true false wPlanGood wSt [])) :=
  ⟨by decide, exec_plan_success_all_done wEnv "/doc".toList "/doc/att".toList
    wPlanGood wSt (by decide)⟩

theorem exec_plan_fail_fast_witness :
    wStBad.savedPlan = some wPlanBad ∧
    (executeAttachmentPlan wEnv "/doc".toList "/doc/att".toList wPlanBad wStBad).ok
      = false ∧
    ((executeAttachmentPlan wEnv "/doc".toList "/doc/att".toList
        wPlanBad wStBad).plan.items.length = wPlanBad.items.length ∧
     ∃ k, k < wPlanBad.items.length ∧
      (∀ j, j < k →
        ((executeAttachmentPlan wEnv "/doc".toList "/doc/att".toList
          wPlanBad wStBad).plan.items.getD j dummyItem).status = "done".toList) ∧
      ((executeAttachmentPlan wEnv "/doc".toList "/doc/att".toList
        wPlanBad wStBad).plan.items.getD k dummyItem).status = "error".toList ∧
      (executeAttachmentPlan wEnv "/doc".toList "/doc/att".toList
        wPlanBad wStBad).st.savedPlan =
        some (executeAttachmentPlan wEnv "/doc".toList "/doc/att".toList
          wPlanBad wStBad).plan ∧
      (∀ j, k < j →
        (executeAttachmentPlan wEnv "/doc".toList "/doc/att".toList
          wPlanBad wStBad).plan.items.getD j dummyItem =
          wPlanBad.items.getD j dummyItem) ∧
      (∀ op ∈ (executeAttachmentPlan wEnv "/doc".toList "/doc/att".toList
          wPlanBad wStBad).trace,
        ∀ j, opItemPos op = some j → j ≤ k)) :=
  ⟨rfl, by decide, exec_plan_fail_fast wEnv "/doc".toList "/doc/att".toList
    wPlanBad wStBad rfl (by decide)⟩

/-- The item built for one source string carries its reference index and
the classification demanded by the plan-builder contract. -/
theorem buildItem_classified (env : Env) (fs : FS) (mdRoot attachDir : List Char)
    (nameFor : Nat → Nat → Nat → List Char) (index b g : Nat)
    (src : List Char) (reserved : List (List Char)) :
    (buildItem env fs mdRoot attachDir nameFor index b g src reserved).1.idx = index ∧
    itemClassified env fs
      (buildItem env fs mdRoot attachDir nameFor index b g src reserved).1 src := by
  unfold buildItem itemClassified
  dsimp only
  by_cases hr : isRemoteUrl (pyStrip src)
  · simp [hr]
  · simp only [hr, Bool.false_eq_true, if_false, if_neg]
    cases hres : env.resolveLocal (pyStrip src) with
    | none => simp [hres]
    | some sp =>
      by_cases hex : fsExists fs sp
      · simp [hres, hex]
      · simp [hres, hex]

/-- C4 loop form: every produced item corresponds to a non-skipped
reference and is classified by its source; every non-skipped reference
produces an item. -/
theorem buildGo_classified (env : Env) (fs : FS) (mdRoot attachDir : List Char)
    (nameFor : Nat → Nat → Nat → List Char) (newBlock : Nat → Bool)
    (skips : List Nat) :
    ∀ (srcs : List (List Char)) (i blockIdx imgIdx : Nat) (reserved : List (List Char)),
    (∀ it ∈ buildGo env fs mdRoot attachDir nameFor newBlock skips srcs
        i blockIdx imgIdx reserved,
      ∃ j, j < srcs.length ∧ it.idx = i + j + 1 ∧
        skips.contains (i + j + 1) = false ∧
        itemClassified env fs it (srcs.getD j [])) ∧
    (∀ j, j < srcs.length → skips.contains (i + j + 1) = false →
      ∃ it ∈ buildGo env fs mdRoot attachDir nameFor newBlock skips srcs
          i blockIdx imgIdx reserved, it.idx = i + j + 1) := by
  intro srcs
  induction srcs with
  | nil => intro i b g r; exact ⟨by intro it hit; simp [buildGo] at hit,
      by intro j hj; simp at hj⟩
  | cons src tl ih =>
    intro i b g r
    rw [buildGo]
    by_cases hsk : skips.contains (i + 1)
    · simp only [hsk, if_true]
      constructor
      · intro it hit
        obtain ⟨j, hj1, hj2, hj3, hj4⟩ := (ih (i + 1) _ _ r).1 it hit
        exact ⟨j + 1, by simpa using Nat.succ_lt_succ hj1,
          by rw [hj2]; omega,
          by have : i + 1 + j + 1 = i + (j + 1) + 1 := by omega
             rw [← this]; exact hj3,
          by simpa using hj4⟩
      · intro j hj hns
        cases j with
        | zero => simp at hns; exact absurd hsk (by simpa using hns)
        | succ j2 =>
          obtain ⟨it, hit, hidx⟩ := (ih (i + 1) _ _ r).2 j2 (by simpa using hj)
            (by have : i + 1 + j2 + 1 = i + (j2 + 1) + 1 := by omega
                rw [this]; exact hns)
          exact ⟨it, hit, by rw [hidx]; omega⟩
    · simp only [hsk, if_false]
      have hbi := buildItem_classified env fs mdRoot attachDir nameFor (i + 1)
        (if newBlock i then (b + 1, 1) else ((if b = 0 then 1 else b), g + 1)).1
        (if newBlock i then (b + 1, 1) else ((if b = 0 then 1 else b), g + 1)).2 src r
      constructor
      · intro it hit
        rcases List.mem_cons.mp hit with h1 | h1
        · subst h1
          refine ⟨0, by simp, ?_, ?_, ?_⟩
          · simpa using hbi.1
          · simpa using (by simpa using hsk : skips.contains (i + 0 + 1) = false)
          · simpa using hbi.2
        · obtain ⟨j, hj1, hj2, hj3, hj4⟩ := (ih (i + 1) _ _ _).1 it h1
          exact ⟨j + 1, by simpa using Nat.succ_lt_succ hj1,
            by rw [hj2]; omega,
            by have : i + 1 + j + 1 = i + (j + 1) + 1 := by omega
               rw [← this]; exact hj3,
            by simpa using hj4⟩
      · intro j hj hns
        cases j with
        | zero =>
          exact ⟨_, List.mem_cons_self _ _, by simpa using hbi.1⟩
        | succ j2 =>
          obtain ⟨it, hit, hidx⟩ := (ih (i + 1) _ _ _).2 j2 (by simpa using hj)
            (by have : i + 1 + j2 + 1 = i + (j2 + 1) + 1 := by omega
                rw [this]; exact hns)
          exact ⟨it, List.mem_cons_of_mem _ hit, by rw [hidx]; omega⟩

/-- C4: in a built attachment plan, every item belongs to a non-skipped
reference and carries the demanded classification — `download` for a
remote `http(s)` source, `move` (with the resolved absolute path) for a
source resolving to an existing local file, and an `error` item with
status `error` and detail `source_missing` when the local source cannot
be resolved — and every non-skipped reference yields an item. -/
theorem build_plan_action_classification (env : Env) (fs : FS)
    (docPath mdRoot title attachDir : List Char)
    (nameFor : Nat → Nat → Nat → List Char) (newBlock : Nat → Bool)
    (skips : List Nat) (srcs : List (List Char)) :
    (∀ it ∈ (buildAttachmentPlan env fs docPath mdRoot title attachDir
        nameFor newBlock skips srcs).items,
      ∃ j, j < srcs.length ∧ it.idx = j + 1 ∧
        skips.contains (j + 1) = false ∧
        itemClassified env fs it (srcs.getD j [])) ∧
    (∀ j, j < srcs.length → skips.contains (j + 1) = false →
      ∃ it ∈ (buildAttachmentPlan env fs docPath mdRoot title attachDir
          nameFor newBlock skips srcs).items, it.idx = j + 1) := by
  have h := buildGo_classified env fs mdRoot attachDir nameFor newBlock skips
    srcs 0 0 0 []
  constructor
  · intro it hit
    obtain ⟨j, hj1, hj2, hj3, hj4⟩ := h.1 it hit
    exact ⟨j, hj1, by simpa using hj2, by simpa using hj3, hj4⟩
  · intro j hj hns
    obtain ⟨it, hit, hidx⟩ := h.2 j hj (by simpa using hns)
    exact ⟨it, hit, by simpa using hidx⟩

theorem build_plan_action_classification_witness :
    (0 < 3 ∧ ([] : List Nat).contains 1 = false) ∧
    ∃ it ∈ (buildAttachmentPlan wEnv wFs "/doc/a.md".toList "/doc".toList
        "T".toList "/doc/att".toList wName (fun _ => true) []
        ["http://x/y.png".toList, "missing.png".toList, "local.png".toList]).items,
      it.idx = 0 + 1 :=
  ⟨⟨by decide, by decide⟩,
   (build_plan_action_classification wEnv wFs "/doc/a.md".toList "/doc".toList
     "T".toList "/doc/att".toList wName (fun _ => true) []
     ["http://x/y.png".toList, "missing.png".toList, "local.png".toList]).2
     0 (by decide) (by decide)⟩

/-- C5 counterexample: a mapping entry whose stored hash (`5`) does not
match the file now at its target (content hash `7`) is still reused —
`ensure_attachment_for_src` returns `reused` and leaves the stale entry
untouched, rather than treating it as stale and recomputing. -/
theorem mapping_reuse_ignores_hash_cex :
    ensureAttachmentForSrc wEnv wFsStale wMapStale "/doc".toList
      "http://x/y.png".toList "/doc/att".toList true =
      (.r3 "att/x.png".toList "reused".toList
        (some "remote:http://x/y.png".toList), wFsStale, wMapStale) ∧
    hashFile wFsStale (joinP "/doc".toList "att/x.png".toList) = 7 ∧
    wStale.hash = 5 := by
  refine ⟨by decide, by decide, by decide⟩

theorem mget_cons_pos (e : List Char × MapEntry) (tl : Mapping) (k : List Char)
    (he : e.1 = k) : mget (e :: tl) k = some e.2 := by
  simp [mget, List.find?_cons_of_pos, he]

theorem mget_cons_neg (e : List Char × MapEntry) (tl : Mapping) (k : List Char)
    (he : ¬e.1 = k) : mget (e :: tl) k = mget tl k := by
  rw [mget, mget, List.find?_cons_of_neg]
  simp [he]

theorem mget_mset (m : Mapping) (k : List Char) (v : MapEntry)
    (h : (mget m k).isSome = true) :
    mget (mset m k v) k = some v := by
  unfold mset
  rw [if_pos h]
  induction m with
  | nil => simp [mget] at h
  | cons e tl ih =>
    by_cases he : e.1 = k
    · rw [List.map_cons, if_pos he, mget_cons_pos _ _ _ rfl]
    · rw [List.map_cons, if_neg he, mget_cons_neg _ _ _ he]
      rw [mget_cons_neg _ _ _ he] at h
      exact ih h


theorem remoteFetch_not_reused (env : Env) (fs : FS) (mapping : Mapping)
    (mdRoot src cleaned attachDir rel : List Char) (key : Option (List Char)) :
    (remoteFetch env fs mapping mdRoot src cleaned attachDir).1 ≠
      .r3 rel "reused".toList key := by
  unfold remoteFetch
  dsimp only
  split
  · intro h
    simp only [EnsureRes.r3.injEq] at h
    exact absurd h.2.1 (by decide)
  · intro h
    simp only [EnsureRes.r3.injEq] at h
    exact absurd h.2.1 (by decide)

theorem localRelocate_not_reused (env : Env) (fs : FS) (mapping : Mapping)
    (mdRoot src sp attachDir rel : List Char) (preferMove : Bool)
    (key : Option (List Char)) :
    (localRelocate env fs mapping mdRoot src sp attachDir preferMove).1 ≠
      .r3 rel "reused".toList key := by
  unfold localRelocate
  dsimp only
  repeat' split
  all_goals intro h
  all_goals simp only [EnsureRes.r3.injEq] at h
  all_goals exact absurd h.2.1 (by decide)

/-- C5 (amended): reuse of an asset-mapping entry requires only that a
file exist at the entry's recorded target path — the stored hash is not
consulted, and a reusing call leaves both the filesystem and the mapping
(hence any stale hash) unchanged; hashes are recomputed only when an
entry is rewritten after a fresh download or move, and
`update_mapping_target` stores the hash of the file then at the
target. -/
theorem mapping_reuse_requires_target_exists (env : Env) (fs : FS)
    (mapping : Mapping) (mdRoot src attachDir : List Char) (preferMove : Bool)
    (res : EnsureRes × FS × Mapping) (rel : List Char) (key : Option (List Char))
    (hres : ensureAttachmentForSrc env fs mapping mdRoot src attachDir preferMove = res)
    (h : res.1 = .r3 rel "reused".toList key) :
    res.2.1 = fs ∧ res.2.2 = mapping ∧
    (∃ k entry, key = some k ∧ mget mapping k = some entry ∧
      entry.targetRel = rel ∧
      fsExists fs (joinP mdRoot rel) = true) ∧
    (∀ (fs2 : FS) (m : Mapping) (k2 tp root : List Char) (e : MapEntry),
      mget m k2 = some e →
      mget (updateMappingTarget fs2 m (some k2) tp root) k2 =
        some { e with target := tp, targetRel := makeRel tp root,
                      hash := hashFile fs2 tp }) := by
  have hupd : ∀ (fs2 : FS) (m : Mapping) (k2 tp root : List Char) (e : MapEntry),
      mget m k2 = some e →
      mget (updateMappingTarget fs2 m (some k2) tp root) k2 =
        some { e with target := tp, targetRel := makeRel tp root,
                      hash := hashFile fs2 tp } := by
    intro fs2 m k2 tp root e he
    unfold updateMappingTarget
    dsimp only
    rw [he]
    exact mget_mset m k2 _ (by simp [he])
  unfold ensureAttachmentForSrc at hres
  dsimp only at hres
  repeat' split at hres
  all_goals subst hres
  all_goals try (dsimp only at h)
  all_goals try (exact EnsureRes.noConfusion h)
  all_goals try (exact absurd h (remoteFetch_not_reused _ _ _ _ _ _ _ _ _))
  all_goals try (exact absurd h (localRelocate_not_reused _ _ _ _ _ _ _ _ _ _))
  all_goals simp only [EnsureRes.r3.injEq] at h
  all_goals try (exact absurd h.2.1 (by decide))
  all_goals obtain ⟨h1, -, h3⟩ := h
  all_goals subst h1
  all_goals subst h3
  all_goals exact ⟨rfl, rfl, ⟨_, _, rfl, by assumption, rfl, by assumption⟩, hupd⟩

theorem mapping_reuse_requires_target_exists_witness :
    ((ensureAttachmentForSrc wEnv wFsStale wMapStale "/doc".toList
        "http://x/y.png".toList "/doc/att".toList true).1 =
      .r3 "att/x.png".toList "reused".toList
        (some "remote:http://x/y.png".toList)) ∧
    ((ensureAttachmentForSrc wEnv wFsStale wMapStale "/doc".toList
        "http://x/y.png".toList "/doc/att".toList true).2.1 = wFsStale ∧
     (ensureAttachmentForSrc wEnv wFsStale wMapStale "/doc".toList
        "http://x/y.png".toList "/doc/att".toList true).2.2 = wMapStale ∧
     (∃ k entry, (some "remote:http://x/y.png".toList : Option (List Char)) = some k ∧
        mget wMapStale k = some entry ∧
        entry.targetRel = "att/x.png".toList ∧
        fsExists wFsStale (joinP "/doc".toList "att/x.png".toList) = true) ∧
     (∀ (fs2 : FS) (m : Mapping) (k2 tp root : List Char) (e : MapEntry),
        mget m k2 = some e →
        mget (updateMappingTarget fs2 m (some k2) tp root) k2 =
          some { e with target := tp, targetRel := makeRel tp root,
                        hash := hashFile fs2 tp })) :=
  ⟨by decide,
   mapping_reuse_requires_target_exists wEnv wFsStale wMapStale "/doc".toList
     "http://x/y.png".toList "/doc/att".toList true
     (ensureAttachmentForSrc wEnv wFsStale wMapStale "/doc".toList
       "http://x/y.png".toList "/doc/att".toList true)
     "att/x.png".toList (some "remote:http://x/y.png".toList) rfl (by decide)⟩

/-- C6 counterexample: on a document holding a raw `<img>` tag before an
inline Markdown image, `collect_images` returns both references but in
group order (Markdown matches first), not document order — the spans are
not monotonically increasing. -/
theorem collect_images_order_cex :
    (collectImages cexDoc).map (fun r => (r.start, r.stop)) = [(19, 30), (0, 17)] ∧
    refsOrdered (collectImages cexDoc) = false := by
  exact ⟨by decide, by decide⟩

theorem spanChain_mono {α : Type} (l : List (Nat × Nat × α)) :
    ∀ lo lo2, lo2 ≤ lo → spanChain lo l = true → spanChain lo2 l = true := by
  induction l with
  | nil => intro lo lo2 _ _; rfl
  | cons x tl _ =>
    intro lo lo2 hle h
    obtain ⟨a, b, v⟩ := x
    simp only [spanChain, Bool.and_eq_true, decide_eq_true_eq] at h ⊢
    exact ⟨⟨by omega, h.1.2⟩, h.2⟩

/-- The finditer scan yields a non-overlapping, strictly increasing span
chain. -/
theorem refScanGo_chain {α : Type} (m : List Char → Option (Nat × α)) :
    ∀ (fuel pos : Nat) (s : List Char),
    spanChain pos (refScanGo m fuel pos s) = true := by
  intro fuel
  induction fuel with
  | zero => intro pos s; cases s <;> rfl
  | succ fuel ih =>
    intro pos s
    cases s with
    | nil => rfl
    | cons c rest =>
      rw [refScanGo]
      cases hm : m (c :: rest) with
      | none => exact spanChain_mono _ _ _ (Nat.le_succ pos) (ih (pos + 1) rest)
      | some la =>
        obtain ⟨len, a⟩ := la
        cases len with
        | zero => exact spanChain_mono _ _ _ (Nat.le_succ pos) (ih (pos + 1) rest)
        | succ len2 =>
          simp only [spanChain, Bool.and_eq_true, decide_eq_true_eq]
          exact ⟨⟨le_refl pos, by omega⟩, ih (pos + len2 + 1) (rest.drop len2)⟩

theorem spanChain_filter {α : Type} (p : Nat × Nat × α → Bool) :
    ∀ (l : List (Nat × Nat × α)) (lo : Nat),
    spanChain lo l = true → spanChain lo (l.filter p) = true := by
  intro l
  induction l with
  | nil => intro lo _; rfl
  | cons x tl ih =>
    intro lo h
    obtain ⟨a, b, v⟩ := x
    simp only [spanChain, Bool.and_eq_true, decide_eq_true_eq] at h
    by_cases hp : p (a, b, v)
    · rw [List.filter_cons_of_pos hp]
      simp only [spanChain, Bool.and_eq_true, decide_eq_true_eq]
      exact ⟨⟨h.1.1, h.1.2⟩, ih b h.2⟩
    · rw [List.filter_cons_of_neg hp]
      exact ih lo (spanChain_mono tl b lo (by omega) h.2)

/-- A span chain maps to an ordered reference list under any builder
that copies the span into `start`/`stop`. -/
theorem spanChain_map_ordered {α : Type} (g : Nat × Nat × α → ImageRefL)
    (hg : ∀ x, (g x).start = x.1 ∧ (g x).stop = x.2.1) :
    ∀ (l : List (Nat × Nat × α)) (lo : Nat),
    spanChain lo l = true → refsOrdered (l.map g) = true := by
  intro l
  induction l with
  | nil => intro lo _; rfl
  | cons x tl ih =>
    intro lo h
    obtain ⟨a, b, v⟩ := x
    simp only [spanChain, Bool.and_eq_true, decide_eq_true_eq] at h
    cases tl with
    | nil =>
      simp only [List.map_cons, List.map_nil, refsOrdered,
        (hg (a, b, v)).1, (hg (a, b, v)).2, decide_eq_true_eq]
      exact h.1.2
    | cons y tl2 =>
      obtain ⟨a2, b2, v2⟩ := y
      have h2 := h.2
      simp only [spanChain, Bool.and_eq_true, decide_eq_true_eq] at h2
      simp only [List.map_cons, refsOrdered, Bool.and_eq_true, decide_eq_true_eq,
        (hg (a, b, v)).1, (hg (a, b, v)).2, (hg (a2, b2, v2)).1]
      refine ⟨⟨h.1.2, h2.1.1⟩, ?_⟩
      have := ih b h.2
      simpa using this

/-- C6 (amended): `collect_images` returns its references grouped by
syntax — all inline Markdown images first, then the raw `<img>` matches
(after the `![` lookback suppression), then the wiki embeds — with each
group in document order and non-overlapping, strictly increasing spans;
the combined list is therefore in document order exactly when the
groups do not interleave (in particular for single-syntax documents),
and not in general. -/
theorem collect_images_grouped_spans (text : List Char) :
    collectImages text = mdRefs text ++ htmlRefs text ++ wikiRefs text ∧
    refsOrdered (mdRefs text) = true ∧
    refsOrdered (htmlRefs text) = true ∧
    refsOrdered (wikiRefs text) = true := by
  refine ⟨rfl, ?_, ?_, ?_⟩
  · exact spanChain_map_ordered _ (fun x => ⟨rfl, rfl⟩) _ 0
      (refScanGo_chain matchMdAt text.length 0 text)
  · exact spanChain_map_ordered _ (fun x => ⟨rfl, rfl⟩) _ 0
      (spanChain_filter _ _ 0 (refScanGo_chain matchHtmlAt text.length 0 text))
  · exact spanChain_map_ordered _ (fun x => ⟨rfl, rfl⟩) _ 0
      (refScanGo_chain matchWikiAt text.length 0 text)
/-- The constraints packed into `inertChar`, unfolded into propositions. -/
theorem inertChar_ne (c : Char) (h : inertChar c = true) :
    ¬(c = '-') ∧ ¬(c = '*') ∧ ¬(c = '_') ∧ ¬(c = '.') ∧ ¬(c = ':') ∧ ¬(c = '<')
      ∧ ¬(c = '[') ∧ ¬(c = '!') ∧ ¬(c = bt) ∧ (isWsChar c = false ∨ c = ' ') := by
  have hws : isWsChar c = false ∨ c = ' ' := by
    by_cases hsp : c = ' '
    · exact Or.inr hsp
    · left
      unfold inertChar at h
      rw [Bool.and_eq_true] at h
      obtain ⟨-, h2⟩ := h
      rw [Bool.or_eq_true] at h2
      rcases h2 with h3 | h3
      · cases hiw : isWsChar c with
        | false => rfl
        | true => rw [hiw] at h3; exact absurd h3 (by decide)
      · exact absurd (of_decide_eq_true h3) hsp
  refine ⟨?_, ?_, ?_, ?_, ?_, ?_, ?_, ?_, ?_, hws⟩ <;>
    · intro he
      subst he
      revert h
      decide

/-- An inert character is not a newline. -/
theorem inertChar_not_nl (c : Char) (h : inertChar c = true) : ¬(c = '\n') := by
  intro hc
  subst hc
  exact absurd h (by decide)

/-- `startsWithL` fails when the first pattern character differs from the head. -/
theorem startsWithL_ne_head (p c : Char) (ps cs : List Char) (h : ¬(c = p)) :
    startsWithL (p :: ps) (c :: cs) = false := by
  unfold startsWithL
  simp only [Bool.and_eq_false_iff, decide_eq_false_iff_not]
  left
  intro he
  exact h he.symm

/-- A literal search fails on text free of the pattern's first character. -/
theorem findSubIdx_none (p : Char) (ps s : List Char)
    (h : ∀ c ∈ s, ¬(c = p)) : findSubIdx (p :: ps) s = none := by
  induction s with
  | nil => rfl
  | cons c cs ih =>
    unfold findSubIdx
    rw [startsWithL_ne_head p c ps cs (h c (List.mem_cons_self c cs))]
    simp only [Bool.false_eq_true, if_false]
    rw [ih (fun x hx => h x (List.mem_cons_of_mem c hx))]
    rfl

/-- Front-matter stripping is the identity on inert text. -/
theorem subFrontMatter_id (s : List Char) (hin : ∀ c ∈ s, inertChar c = true) :
    subFrontMatter s = s := by
  unfold subFrontMatter
  cases s with
  | nil => rfl
  | cons c cs =>
    rw [startsWithL_ne_head '-' c ['-', '-'] cs
      (inertChar_ne c (hin c (List.mem_cons_self c cs))).1]
    simp only [Bool.false_eq_true, if_false]

/-- Code-fence stripping is the identity on backtick-free text. -/
theorem subCodeFenceGo_id (fuel : Nat) (s : List Char)
    (h : ∀ c ∈ s, ¬(c = bt)) : subCodeFenceGo fuel s = s := by
  cases fuel with
  | zero => rfl
  | succ n =>
    unfold subCodeFenceGo
    rw [findSubIdx_none bt [bt, bt] s h]

/-- Tag stripping is the identity on text without `<`. -/
theorem subHtmlTagsGo_id (fuel : Nat) (s : List Char)
    (h : ∀ c ∈ s, ¬(c = '<')) : subHtmlTagsGo fuel s = s := by
  induction fuel generalizing s with
  | zero => cases s <;> rfl
  | succ n ih =>
    cases s with
    | nil => rfl
    | cons c cs =>
      unfold subHtmlTagsGo
      rw [if_neg (h c (List.mem_cons_self c cs))]
      rw [ih cs (fun x hx => h x (List.mem_cons_of_mem c hx))]

/-- Link removal is the identity on text without `[`. -/
theorem subLinksGo_id (fuel : Nat) (s : List Char)
    (h : ∀ c ∈ s, ¬(c = '[')) : subLinksGo fuel s = s := by
  induction fuel generalizing s with
  | zero => cases s <;> rfl
  | succ n ih =>
    cases s with
    | nil => rfl
    | cons c cs =>
      unfold subLinksGo
      rw [if_neg (h c (List.mem_cons_self c cs))]
      rw [ih cs (fun x hx => h x (List.mem_cons_of_mem c hx))]

/-- A Markdown image match needs a leading `!`. -/
theorem matchMdAt_not_bang (c : Char) (cs : List Char) (h : ¬(c = '!')) :
    matchMdAt (c :: cs) = none := by
  unfold matchMdAt
  split
  · next heq =>
    injection heq with h1 _
    exact absurd h1 h
  · rfl

/-- Markdown-image removal is the identity on text without `!`. -/
theorem subMdImagesGo_id (fuel : Nat) (s : List Char)
    (h : ∀ c ∈ s, ¬(c = '!')) : subMdImagesGo fuel s = s := by
  induction fuel generalizing s with
  | zero => cases s <;> rfl
  | succ n ih =>
    cases s with
    | nil => rfl
    | cons c cs =>
      unfold subMdImagesGo
      rw [matchMdAt_not_bang c cs (h c (List.mem_cons_self c cs))]
      rw [ih cs (fun x hx => h x (List.mem_cons_of_mem c hx))]

/-- A wiki-embed match needs a leading `!`. -/
theorem matchWikiAt_not_bang (c : Char) (cs : List Char) (h : ¬(c = '!')) :
    matchWikiAt (c :: cs) = none := by
  unfold matchWikiAt
  split
  · next heq =>
    injection heq with h1 _
    exact absurd h1 h
  · rfl

/-- Wiki-embed removal is the identity on text without `!`. -/
theorem subWikiGo_id (fuel : Nat) (s : List Char)
    (h : ∀ c ∈ s, ¬(c = '!')) : subWikiGo fuel s = s := by
  induction fuel generalizing s with
  | zero => cases s <;> rfl
  | succ n ih =>
    cases s with
    | nil => rfl
    | cons c cs =>
      unfold subWikiGo
      rw [matchWikiAt_not_bang c cs (h c (List.mem_cons_self c cs))]
      rw [ih cs (fun x hx => h x (List.mem_cons_of_mem c hx))]

/-- A bare-image match needs a dot somewhere in its token. -/
theorem matchBareAt_no_dot (b : Bool) (s : List Char)
    (h : ∀ c ∈ s, ¬(c = '.')) : matchBareAt b s = none := by
  cases s with
  | nil => rfl
  | cons c cs =>
    have hfil : ((List.range ((c :: cs).takeWhile (fun x => !isWsChar x)).length).filter
        (fun i => 1 ≤ i && ((c :: cs).takeWhile (fun x => !isWsChar x)).getD i ' ' = '.')) = [] := by
      rw [List.filter_eq_nil_iff]
      intro i hi
      simp only [List.mem_range] at hi
      simp only [Bool.and_eq_true, decide_eq_true_eq]
      rintro ⟨-, hdot⟩
      have hmem : ((c :: cs).takeWhile (fun x => !isWsChar x)).getD i ' '
          ∈ (c :: cs).takeWhile (fun x => !isWsChar x) := by
        rw [List.getD_eq_getElem?_getD, List.getElem?_eq_getElem hi]
        exact List.getElem_mem hi
      exact h _ ((List.takeWhile_prefix _).subset hmem) hdot
    unfold matchBareAt
    simp only [List.head?_cons]
    split
    · rfl
    · simp only [hfil, List.reverse_nil, firstSome]

/-- Bare-image removal is the identity on text without `.`. -/
theorem subBareGo_id (fuel : Nat) (b : Bool) (s : List Char)
    (h : ∀ c ∈ s, ¬(c = '.')) : subBareGo fuel b s = s := by
  induction fuel generalizing b s with
  | zero => cases s <;> rfl
  | succ n ih =>
    cases s with
    | nil => rfl
    | cons c cs =>
      unfold subBareGo
      rw [matchBareAt_no_dot b (c :: cs) h]
      rw [ih (isWordChar c) cs (fun x hx => h x (List.mem_cons_of_mem c hx))]

/-- Newline-free text forms a single line. -/
theorem splitNl_no_nl (s : List Char) (h : ∀ c ∈ s, ¬(c = '\n')) :
    splitNl s = [s] := by
  induction s with
  | nil => rfl
  | cons c cs ih =>
    unfold splitNl
    rw [if_neg (h c (List.mem_cons_self c cs))]
    rw [ih (fun x hx => h x (List.mem_cons_of_mem c hx))]

/-- Lowercasing cannot produce a colon from a non-colon. -/
theorem toLower_ne_colon (c : Char) (h : ¬(c = ':')) : ¬(Char.toLower c = ':') := by
  intro he
  have he2 : (if c.toNat ≥ 65 ∧ c.toNat ≤ 90 then Char.ofNat (c.toNat + 32) else c) = ':' := he
  split at he2
  · next hr =>
    obtain ⟨h1, h2⟩ := hr
    obtain ⟨m, hm⟩ : ∃ m, c.toNat = m := ⟨c.toNat, rfl⟩
    rw [hm] at h1 h2 he2
    interval_cases m <;> exact absurd he2 (by decide)
  · exact h he2

/-- A colon-free line is no metadata line. -/
theorem lineIsMeta_false (l : List Char) (h : ∀ c ∈ l, ¬(c = ':')) :
    lineIsMeta l = false := by
  unfold lineIsMeta
  dsimp only
  rw [List.any_eq_false]
  intro k hk hcontra
  rw [Bool.and_eq_true] at hcontra
  obtain ⟨-, h2⟩ := hcontra
  cases hdw : ((l.map Char.toLower).drop k.length).dropWhile isWsChar with
  | nil => rw [hdw] at h2; exact absurd h2 (by decide)
  | cons c2 cs2 =>
    rw [hdw] at h2
    have hc2 : c2 ∈ l.map Char.toLower := by
      have hmem : c2 ∈ ((l.map Char.toLower).drop k.length).dropWhile isWsChar := by
        rw [hdw]
        exact List.mem_cons_self c2 cs2
      exact (List.drop_subset _ _) ((List.dropWhile_sublist _).subset hmem)
    obtain ⟨c0, hc0, hlow⟩ := List.mem_map.mp hc2
    rw [startsWithL_ne_head ':' c2 [] cs2 (hlow ▸ toLower_ne_colon c0 (h c0 hc0))] at h2
    exact absurd h2 (by decide)

/-- Metadata-line removal is the identity on inert text. -/
theorem subMetaLines_id (s : List Char) (hin : ∀ c ∈ s, inertChar c = true) :
    subMetaLines s = s := by
  unfold subMetaLines
  rw [splitNl_no_nl s (fun c hc => inertChar_not_nl c (hin c hc))]
  rw [List.map_cons, List.map_nil]
  rw [lineIsMeta_false s (fun c hc => (inertChar_ne c (hin c hc)).2.2.2.2.1)]
  rfl

/-- A line without rule characters is no horizontal rule. -/
theorem lineIsHr_false (l : List Char)
    (h : ∀ c ∈ l, ¬(c = '*') ∧ ¬(c = '-') ∧ ¬(c = '_')) :
    lineIsHr l = false := by
  unfold lineIsHr
  dsimp only
  cases hdw : l.dropWhile isWsChar with
  | nil => rfl
  | cons c cs =>
    simp only [List.head?_cons]
    have hc : c ∈ l := (List.dropWhile_sublist _).subset (by
      rw [hdw]; exact List.mem_cons_self c cs)
    have hA : (decide (c = '*') || decide (c = '-') || decide (c = '_')) = false := by
      rw [decide_eq_false (h c hc).1, decide_eq_false (h c hc).2.1,
        decide_eq_false (h c hc).2.2]
      rfl
    rw [hA]
    rfl

/-- Horizontal-rule removal is the identity on inert text. -/
theorem subHrLines_id (s : List Char) (hin : ∀ c ∈ s, inertChar c = true) :
    subHrLines s = s := by
  unfold subHrLines
  rw [splitNl_no_nl s (fun c hc => inertChar_not_nl c (hin c hc))]
  rw [List.map_cons, List.map_nil]
  rw [lineIsHr_false s (fun c hc =>
    ⟨(inertChar_ne c (hin c hc)).2.1, (inertChar_ne c (hin c hc)).1,
     (inertChar_ne c (hin c hc)).2.2.1⟩)]
  rfl

/-- Whitespace collapse is the identity on single-space, collapsed text. -/
theorem cwGo_id (s : List Char) :
    ∀ b : Bool, (∀ c ∈ s, isWsChar c = false ∨ c = ' ') →
    noDoubleSpace s = true →
    (b = true → s.head? ≠ some ' ') → cwGo b s = s := by
  induction s with
  | nil => intro b _ _ _; rfl
  | cons c cs ih =>
    intro b hin hnds hb
    unfold cwGo
    have hnds2 : noDoubleSpace cs = true := by
      cases cs with
      | nil => rfl
      | cons c2 tl =>
        unfold noDoubleSpace at hnds
        rw [Bool.and_eq_true] at hnds
        exact hnds.2
    rcases hin c (List.mem_cons_self c cs) with hw | hw
    · rw [if_neg (by rw [hw]; exact Bool.false_ne_true)]
      refine congrArg (List.cons c) ?_
      refine ih false (fun x hx => hin x (List.mem_cons_of_mem c hx)) hnds2 ?_
      intro hfalse
      exact absurd hfalse (by decide)
    · subst hw
      have hbf : b = false := by
        cases b with
        | false => rfl
        | true => exact absurd (show (' ' :: cs).head? = some ' ' from rfl) (hb rfl)
      subst hbf
      rw [if_pos (show isWsChar ' ' = true by decide)]
      rw [if_neg (show ¬(false = true) by decide)]
      refine congrArg (List.cons ' ') ?_
      refine ih true (fun x hx => hin x (List.mem_cons_of_mem ' ' hx)) hnds2 ?_
      intro _
      cases cs with
      | nil => exact fun he => Option.noConfusion he
      | cons c2 tl =>
        unfold noDoubleSpace at hnds
        rw [Bool.and_eq_true] at hnds
        have hnd := hnds.1
        simp only [List.head?_cons, ne_eq, Option.some.injEq]
        intro he
        subst he
        exact absurd hnd (by decide)

/-- Python strip is the identity when neither end is whitespace. -/
theorem pyStrip_id (s : List Char)
    (hin : ∀ c ∈ s, isWsChar c = false ∨ c = ' ')
    (hhead : ∀ c, s.head? = some c → ¬(c = ' '))
    (hlast : ∀ c, s.reverse.head? = some c → ¬(c = ' ')) : pyStrip s = s := by
  unfold pyStrip dropTrailWs
  have hdrop : s.dropWhile isWsChar = s := by
    cases s with
    | nil => rfl
    | cons a tl =>
      rw [List.dropWhile_cons_of_neg]
      rcases hin a (List.mem_cons_self a tl) with hw | hw
      · rw [hw]; exact Bool.false_ne_true
      · exact absurd hw (hhead a rfl)
  rw [hdrop]
  have hdropr : s.reverse.dropWhile isWsChar = s.reverse := by
    cases hrev : s.reverse with
    | nil => rfl
    | cons a tl =>
      rw [List.dropWhile_cons_of_neg]
      have ha : a ∈ s := by
        rw [← List.mem_reverse, hrev]
        exact List.mem_cons_self a tl
      rcases hin a ha with hw | hw
      · rw [hw]; exact Bool.false_ne_true
      · exact absurd hw (hlast a (by rw [hrev]; exact List.head?_cons))
  rw [hdropr, List.reverse_reverse]

/-- The full cleaning pipeline fixes any `cleanSafe` string. -/
theorem cleanSafe_id (s : List Char) (h : cleanSafe s = true) : cleanSlice s = s := by
  unfold cleanSafe at h
  simp only [Bool.and_eq_true] at h
  obtain ⟨⟨⟨hall, hnds⟩, hhead⟩, hlast⟩ := h
  have hin : ∀ c ∈ s, inertChar c = true := fun c hc => List.all_eq_true.mp hall c hc
  have hws : ∀ c ∈ s, isWsChar c = false ∨ c = ' ' :=
    fun c hc => (inertChar_ne c (hin c hc)).2.2.2.2.2.2.2.2.2
  have hh2 : ∀ c, s.head? = some c → ¬(c = ' ') := by
    intro c hc he
    subst he
    rw [hc] at hhead
    exact absurd hhead (by decide)
  have hl2 : ∀ c, s.reverse.head? = some c → ¬(c = ' ') := by
    intro c hc he
    subst he
    rw [hc] at hlast
    exact absurd hlast (by decide)
  unfold cleanSlice
  rw [show subFrontMatter s = s from subFrontMatter_id s hin]
  unfold subCodeFence subHtmlTags subLinks subMdImages subWiki subBareImg
  rw [subCodeFenceGo_id s.length s (fun c hc => (inertChar_ne c (hin c hc)).2.2.2.2.2.2.2.2.1)]
  rw [subHtmlTagsGo_id s.length s (fun c hc => (inertChar_ne c (hin c hc)).2.2.2.2.2.1)]
  rw [subLinksGo_id s.length s (fun c hc => (inertChar_ne c (hin c hc)).2.2.2.2.2.2.1)]
  rw [subMdImagesGo_id s.length s (fun c hc => (inertChar_ne c (hin c hc)).2.2.2.2.2.2.2.1)]
  rw [subWikiGo_id s.length s (fun c hc => (inertChar_ne c (hin c hc)).2.2.2.2.2.2.2.1)]
  rw [subBareGo_id s.length false s (fun c hc => (inertChar_ne c (hin c hc)).2.2.2.1)]
  rw [subMetaLines_id s hin]
  rw [subHrLines_id s hin]
  unfold collapseWs
  rw [cwGo_id s false hws hnds (fun he => absurd he (by decide))]
  exact pyStrip_id s hws hh2 hl2

/-- C8 counterexample: on `cexClean` the cleaning pipeline exposes
`--- y ---` (by removing the Markdown link), which a second pass
re-reads as front matter and deletes — cleaning is not idempotent. -/
theorem text_between_not_idempotent_cex :
    textBetween cexClean 0 15 = "--- y ---".toList ∧
    cleanSlice (textBetween cexClean 0 15) = [] ∧
    cleanSlice (textBetween cexClean 0 15) ≠ textBetween cexClean 0 15 :=
  ⟨by decide, by decide, by decide⟩

/-- C8 (amended): re-running the cleaning pipeline of `text_between` on
its own output is the identity whenever that output is inert — free of
the pass-trigger characters and in collapsed, stripped whitespace form
(`cleanSafe`); unconditional idempotence fails because one pass can
expose text that re-triggers an earlier pattern. -/
theorem text_between_clean_idempotent (text : List Char) (a b : Nat)
    (h : cleanSafe (textBetween text a b) = true) :
    cleanSlice (textBetween text a b) = textBetween text a b :=
  cleanSafe_id _ h

/-- Witness: a concrete inert cleaning output, fixed by a second pass. -/
theorem text_between_clean_idempotent_witness :
    cleanSafe (textBetween "hello, w orld".toList 0 13) = true ∧
    cleanSlice (textBetween "hello, w orld".toList 0 13) =
      textBetween "hello, w orld".toList 0 13 :=
  ⟨by decide, text_between_clean_idempotent "hello, w orld".toList 0 13 (by decide)⟩
/-- The constraints packed into `simpleChar`, unfolded into propositions. -/
theorem simpleChar_ne (c : Char) (h : simpleChar c = true) :
    ¬(c = '"') ∧ ¬(c = '\\') ∧ ¬(c = bt) ∧ ¬(c = lb) ∧ ¬(c = rb)
      ∧ ¬(c = '[') ∧ ¬(c = ']') ∧ ¬(c = ',') ∧ 32 ≤ c.toNat := by
  have hn : 32 ≤ c.toNat := by
    unfold simpleChar at h
    rw [Bool.and_eq_true] at h
    exact of_decide_eq_true h.2
  refine ⟨?_, ?_, ?_, ?_, ?_, ?_, ?_, ?_, hn⟩ <;>
    · intro he
      subst he
      exact absurd h (by decide)

/-- A simple character needs no escaping. -/
theorem escChar_simple (c : Char) (h : simpleChar c = true) : escChar c = [c] := by
  unfold escChar
  rw [if_neg]
  intro hq
  rw [Bool.or_eq_true] at hq
  rcases hq with hq | hq
  · exact (simpleChar_ne c h).1 (of_decide_eq_true hq)
  · exact (simpleChar_ne c h).2.1 (of_decide_eq_true hq)

/-- Escaping is the identity on simple strings. -/
theorem flatMap_esc_id (s : List Char) (h : s.all simpleChar = true) :
    s.flatMap escChar = s := by
  induction s with
  | nil => rfl
  | cons c cs ih =>
    rw [List.all_cons, Bool.and_eq_true] at h
    rw [List.flatMap_cons, escChar_simple c h.1, ih h.2]
    rfl

/-- A list is a leading segment of itself followed by anything. -/
theorem startsWithL_prepend (u r : List Char) : startsWithL u (u ++ r) = true := by
  induction u with
  | nil => rfl
  | cons c cs ih =>
    rw [List.cons_append]
    show (decide (c = c) && startsWithL cs (cs ++ r)) = true
    simp [ih]

/-- `skipWs` keeps a non-whitespace head. -/
theorem skipWs_cons (c : Char) (l : List Char) (h : isJsonWs c = false) :
    skipWs (c :: l) = c :: l := by
  unfold skipWs
  rw [List.dropWhile_cons_of_neg]
  rw [h]
  exact Bool.false_ne_true

/-- String-body parse of a simple literal: the body up to the closing
quote, with the remainder untouched. -/
theorem parseStrBody_simple (s : List Char) (rest : List Char)
    (h : s.all simpleChar = true) :
    parseStrBody (s ++ '"' :: rest) = some (s, rest) := by
  induction s with
  | nil =>
    rw [List.nil_append]
    unfold parseStrBody
    rfl
  | cons c cs ih =>
    rw [List.all_cons, Bool.and_eq_true] at h
    rw [List.cons_append]
    unfold parseStrBody
    rw [if_neg (simpleChar_ne c h.1).1, if_neg (simpleChar_ne c h.1).2.1,
      if_neg (by have := (simpleChar_ne c h.1).2.2.2.2.2.2.2.2; omega)]
    rw [ih h.2]

/-- Facts about a decimal digit character produced by `natCharsGo`. -/
theorem digitChar_facts (r : Nat) (h : r < 10) :
    (Char.ofNat (48 + r)).toNat = 48 + r ∧ isDigitChar (Char.ofNat (48 + r)) = true := by
  interval_cases r <;> exact ⟨by decide, by decide⟩

/-- `natCharsGo` with zero value emits nothing. -/
theorem natCharsGo_zero (f : Nat) (acc : List Char) : natCharsGo f 0 acc = acc := by
  cases f with
  | zero => rfl
  | succ g => rfl

/-- The accumulator of `natCharsGo` is a passive suffix. -/
theorem natCharsGo_acc (f : Nat) : ∀ (n : Nat) (acc : List Char),
    natCharsGo f n acc = natCharsGo f n [] ++ acc := by
  induction f with
  | zero => intro n acc; rfl
  | succ g ih =>
    intro n acc
    by_cases hn : n = 0
    · subst hn
      rw [natCharsGo_zero, natCharsGo_zero]
      rfl
    · unfold natCharsGo
      rw [if_neg hn, if_neg hn]
      rw [ih (n / 10) (Char.ofNat (48 + n % 10) :: acc),
        ih (n / 10) [Char.ofNat (48 + n % 10)]]
      rw [List.append_assoc]
      rfl

/-- Every character `natCharsGo` emits is a decimal digit. -/
theorem natCharsGo_all (f : Nat) : ∀ (n : Nat) (acc : List Char),
    (∀ c ∈ acc, isDigitChar c = true) →
    ∀ c ∈ natCharsGo f n acc, isDigitChar c = true := by
  induction f with
  | zero => intro n acc hacc; exact hacc
  | succ g ih =>
    intro n acc hacc
    by_cases hn : n = 0
    · subst hn
      rw [natCharsGo_zero]
      exact hacc
    · unfold natCharsGo
      rw [if_neg hn]
      refine ih (n / 10) _ ?_
      intro c hc
      rcases List.mem_cons.mp hc with hc | hc
      · subst hc
        exact (digitChar_facts (n % 10) (Nat.mod_lt _ (by omega))).2
      · exact hacc c hc

/-- `natCharsGo` emits at least one digit on a positive value. -/
theorem natCharsGo_len (f : Nat) : ∀ (n : Nat) (acc : List Char),
    acc.length ≤ (natCharsGo f n acc).length := by
  induction f with
  | zero => intro n acc; exact Nat.le_refl _
  | succ g ih =>
    intro n acc
    by_cases hn : n = 0
    · subst hn
      rw [natCharsGo_zero]
    · unfold natCharsGo
      rw [if_neg hn]
      have := ih (n / 10) (Char.ofNat (48 + n % 10) :: acc)
      simp only [List.length_cons] at this
      omega

/-- Value of the digits emitted by `natCharsGo`. -/
theorem digitsVal_go (n : Nat) (hn : 1 ≤ n) : ∀ (f : Nat), n ≤ f →
    digitsVal (natCharsGo f n []) = n := by
  induction n using Nat.strong_induction_on with
  | _ n ih =>
    intro f hf
    cases f with
    | zero => omega
    | succ g =>
      unfold natCharsGo
      rw [if_neg (by omega)]
      rw [natCharsGo_acc]
      unfold digitsVal
      rw [List.foldl_append]
      by_cases hq : n / 10 = 0
      · rw [hq, natCharsGo_zero]
        have hr := (digitChar_facts (n % 10) (Nat.mod_lt _ (by omega))).1
        have hmod := Nat.div_add_mod n 10
        simp only [List.foldl_cons, List.foldl_nil, hr]
        omega
      · have hlt : n / 10 < n := Nat.div_lt_self (by omega) (by omega)
        have hih := ih (n / 10) hlt (by omega) g (by omega)
        unfold digitsVal at hih
        rw [hih]
        have hr := (digitChar_facts (n % 10) (Nat.mod_lt _ (by omega))).1
        have hmod := Nat.div_add_mod n 10
        simp only [List.foldl_cons, List.foldl_nil, hr]
        omega

/-- Every character of `natChars` is a digit. -/
theorem natChars_all (m : Nat) : ∀ c ∈ natChars m, isDigitChar c = true := by
  unfold natChars
  by_cases hm : m = 0
  · rw [if_pos hm]
    intro c hc
    rcases List.mem_cons.mp hc with hc | hc
    · subst hc; decide
    · exact absurd hc (List.not_mem_nil c)
  · rw [if_neg hm]
    exact natCharsGo_all m m [] (fun c hc => absurd hc (List.not_mem_nil c))

/-- `natChars` is nonempty, with a digit head. -/
theorem natChars_head (m : Nat) :
    ∃ d ds, natChars m = d :: ds ∧ isDigitChar d = true := by
  have hne : natChars m ≠ [] := by
    unfold natChars
    by_cases hm : m = 0
    · rw [if_pos hm]; exact List.cons_ne_nil _ _
    · rw [if_neg hm]
      cases hm2 : m with
      | zero => omega
      | succ g =>
        show (if g + 1 = 0 then ([] : List Char)
          else natCharsGo g ((g + 1) / 10) [Char.ofNat (48 + (g + 1) % 10)]) ≠ []
        rw [if_neg (by omega)]
        intro hnil
        have h1 := natCharsGo_len g ((g + 1) / 10) [Char.ofNat (48 + (g + 1) % 10)]
        rw [hnil] at h1
        simp at h1
  cases hh : natChars m with
  | nil => exact absurd hh hne
  | cons d ds =>
    exact ⟨d, ds, rfl, natChars_all m d (by rw [hh]; exact List.mem_cons_self d ds)⟩

/-- The digit string of `natChars` evaluates back to its number. -/
theorem digitsVal_natChars (m : Nat) : digitsVal (natChars m) = m := by
  unfold natChars
  by_cases hm : m = 0
  · rw [if_pos hm, hm]
    decide
  · rw [if_neg hm]
    exact digitsVal_go m (by omega) m (Nat.le_refl m)

/-- A digit character is none of the parser's dispatch characters. -/
theorem digit_ne (c : Char) (hd : isDigitChar c = true) :
    ¬(c = lb) ∧ ¬(c = '[') ∧ ¬(c = '"') ∧ ¬(c = 't') ∧ ¬(c = 'f') ∧ ¬(c = 'n')
      ∧ ¬(c = '-') ∧ ¬(c = '.') ∧ ¬(c = 'e') ∧ ¬(c = 'E') ∧ ¬(c = ',')
      ∧ ¬(c = rb) ∧ ¬(c = ']') ∧ ¬(c = bt) ∧ isJsonWs c = false ∧ isWsChar c = false := by
  have hb : 48 ≤ c.toNat ∧ c.toNat ≤ 57 := by
    unfold isDigitChar at hd
    rw [Bool.and_eq_true] at hd
    exact ⟨of_decide_eq_true hd.1, of_decide_eq_true hd.2⟩
  refine ⟨?_, ?_, ?_, ?_, ?_, ?_, ?_, ?_, ?_, ?_, ?_, ?_, ?_, ?_, ?_, ?_⟩ <;>
    first
    | · intro he
        subst he
        exact absurd hd (by decide)
    | · cases hw : isJsonWs c with
        | false => first | rfl | exact hw
        | true =>
          exfalso
          unfold isJsonWs at hw
          simp only [Bool.or_eq_true, decide_eq_true_eq] at hw
          repeat' rcases hw with hw | hw
          all_goals (try subst hw)
          all_goals exact absurd hd (by decide)
    | · cases hw : isWsChar c with
        | false => first | rfl | exact hw
        | true =>
          exfalso
          unfold isWsChar at hw
          simp only [Bool.or_eq_true, decide_eq_true_eq] at hw
          repeat' rcases hw with hw | hw
          all_goals (try subst hw)
          all_goals exact absurd hd (by decide)

/-- `takeWhile`/`dropWhile` split an append at the first failing character. -/
theorem takeWhile_append_split (p : Char → Bool) (u rest : List Char)
    (hu : ∀ c ∈ u, p c = true)
    (hr : ∀ c, rest.head? = some c → p c = false) :
    (u ++ rest).takeWhile p = u ∧ (u ++ rest).dropWhile p = rest := by
  induction u with
  | nil =>
    rw [List.nil_append]
    cases rest with
    | nil => exact ⟨rfl, rfl⟩
    | cons c tl =>
      have hc := hr c rfl
      constructor
      · rw [List.takeWhile_cons_of_neg (by rw [hc]; exact Bool.false_ne_true)]
      · rw [List.dropWhile_cons_of_neg (by rw [hc]; exact Bool.false_ne_true)]
  | cons c cs ih =>
    have hc := hu c (List.mem_cons_self c cs)
    obtain ⟨ht, hd⟩ := ih (fun x hx => hu x (List.mem_cons_of_mem c hx))
    rw [List.cons_append]
    constructor
    · rw [List.takeWhile_cons_of_pos (by rw [hc])]
      rw [ht]
    · rw [List.dropWhile_cons_of_pos (by rw [hc])]
      exact hd

/-- The head and dispatch class of an integer serialization. -/
theorem intChars_head (n : Int) :
    ∃ c cs, intChars n = c :: cs ∧ (c = '-' ∨ isDigitChar c = true) := by
  unfold intChars
  by_cases hn : n < 0
  · rw [if_pos hn]
    exact ⟨'-', natChars n.natAbs, rfl, Or.inl rfl⟩
  · rw [if_neg hn]
    obtain ⟨d, ds, hds, hdig⟩ := natChars_head n.natAbs
    exact ⟨d, ds, hds, Or.inr hdig⟩

/-- The number parser recovers a serialized integer, stopping at a
container delimiter. -/
theorem parseNum_intChars (n : Int) (rest : List Char) (hd : delimB rest = true) :
    parseNum (intChars n ++ rest) = some (.jnum n, rest) := by
  have hrest : ∀ c, rest.head? = some c → isDigitChar c = false ∧
      ¬(c = '.') ∧ ¬(c = 'e') ∧ ¬(c = 'E') := by
    intro c hc
    unfold delimB at hd
    rw [hc] at hd
    simp only [Bool.or_eq_true, decide_eq_true_eq] at hd
    repeat' rcases hd with hd | hd
    all_goals (try subst hd)
    all_goals exact ⟨by decide, by decide, by decide, by decide⟩
  unfold intChars
  by_cases hn : n < 0
  · rw [if_pos hn]
    unfold parseNum
    rw [List.cons_append]
    rw [show startsWithL ['-'] ('-' :: (natChars n.natAbs ++ rest)) = true from by
      rw [show ('-' :: (natChars n.natAbs ++ rest)) = ['-'] ++ (natChars n.natAbs ++ rest) from rfl]
      exact startsWithL_prepend _ _]
    simp only [if_pos trivial, List.drop_succ_cons, List.drop_zero]
    obtain ⟨htake, hdrop⟩ := takeWhile_append_split isDigitChar (natChars n.natAbs) rest
      (natChars_all n.natAbs) (fun c hc => (hrest c hc).1)
    rw [htake, hdrop]
    obtain ⟨d, ds, hds, hdig⟩ := natChars_head n.natAbs
    rw [if_neg (by rw [hds]; exact List.cons_ne_nil d ds)]
    cases hr : rest with
    | nil =>
      simp only [digitsVal_natChars]
      have : -((n.natAbs : Int)) = n := by omega
      rw [this]
    | cons c tl =>
      have hc := hrest c (by rw [hr]; exact List.head?_cons)
      dsimp only
      rw [if_neg (by
        simp only [Bool.or_eq_true, decide_eq_true_eq]
        rintro ((he | he) | he)
        · exact hc.2.1 he
        · exact hc.2.2.1 he
        · exact hc.2.2.2 he)]
      simp only [digitsVal_natChars]
      have : -((n.natAbs : Int)) = n := by omega
      rw [this]
  · rw [if_neg hn]
    unfold parseNum
    obtain ⟨d, ds, hds, hdig⟩ := natChars_head n.natAbs
    have hsw : startsWithL ['-'] (natChars n.natAbs ++ rest) = false := by
      rw [hds, List.cons_append]
      exact startsWithL_ne_head '-' d [] (ds ++ rest) (digit_ne d hdig).2.2.2.2.2.2.1
    rw [hsw]
    simp only [Bool.false_eq_true, if_false]
    obtain ⟨htake, hdrop⟩ := takeWhile_append_split isDigitChar (natChars n.natAbs) rest
      (natChars_all n.natAbs) (fun c hc => (hrest c hc).1)
    rw [htake, hdrop]
    rw [if_neg (by rw [hds]; exact List.cons_ne_nil d ds)]
    cases hr : rest with
    | nil =>
      simp only [digitsVal_natChars]
      have : ((n.natAbs : Int)) = n := by omega
      rw [this]
    | cons c tl =>
      have hc := hrest c (by rw [hr]; exact List.head?_cons)
      dsimp only
      rw [if_neg (by
        simp only [Bool.or_eq_true, decide_eq_true_eq]
        rintro ((he | he) | he)
        · exact hc.2.1 he
        · exact hc.2.2.1 he
        · exact hc.2.2.2 he)]
      simp only [digitsVal_natChars]
      have : ((n.natAbs : Int)) = n := by omega
      rw [this]
/-- One step of `parseVal` on a non-whitespace head, as an if-chain. -/
theorem parseVal_succ (f : Nat) (c : Char) (tl : List Char) (h : isJsonWs c = false) :
    parseVal (f + 1) (c :: tl) =
      (if c = lb then parseObjTail f tl
       else if c = '[' then parseArrTail f tl
       else if c = '"' then
         (match parseStrBody tl with
          | none => none
          | some (body, rem) => some (.jstr body, rem))
       else if c = 't' then
         (if startsWithL ['r', 'u', 'e'] tl then some (.jbool true, tl.drop 3) else none)
       else if c = 'f' then
         (if startsWithL ['a', 'l', 's', 'e'] tl then some (.jbool false, tl.drop 4) else none)
       else if c = 'n' then
         (if startsWithL ['u', 'l', 'l'] tl then some (.jnull, tl.drop 3) else none)
       else if c = '-' || isDigitChar c then parseNum (c :: tl)
       else none) := by
  unfold parseVal
  rw [skipWs_cons c tl h]

/-- One step of `parseObjTail` on a non-whitespace head. -/
theorem parseObjTail_succ (f : Nat) (c : Char) (tl : List Char) (h : isJsonWs c = false) :
    parseObjTail (f + 1) (c :: tl) =
      (if c = rb then some (.jobj .onil, tl)
       else if c = '"' then parseMembers f (c :: tl)
       else none) := by
  unfold parseObjTail
  rw [skipWs_cons c tl h]

/-- One step of `parseArrTail` on a non-whitespace head. -/
theorem parseArrTail_succ (f : Nat) (c : Char) (tl : List Char) (h : isJsonWs c = false) :
    parseArrTail (f + 1) (c :: tl) =
      (if c = ']' then some (.jarr .anil, tl)
       else parseElems f (c :: tl)) := by
  unfold parseArrTail
  rw [skipWs_cons c tl h]

/-- One step of `parseMembers` on the opening quote of a key. -/
theorem parseMembers_succ (f : Nat) (tl : List Char) :
    parseMembers (f + 1) ('"' :: tl) =
      (match parseStrBody tl with
       | none => none
       | some (key, rem) =>
         match skipWs rem with
         | ':' :: rem2 =>
           (match parseVal f rem2 with
            | none => none
            | some (v, rem3) =>
              match skipWs rem3 with
              | ',' :: rem4 =>
                (match parseMembers f rem4 with
                 | some (.jobj o, rem5) => some (.jobj (.ocons key v o), rem5)
                 | _ => none)
              | c2 :: rem4 =>
                if c2 = rb then some (.jobj (.ocons key v .onil), rem4) else none
              | [] => none)
         | _ => none) := by
  conv_lhs => rw [parseMembers]
  rw [skipWs_cons '"' tl (by decide)]
  rfl

/-- One step of `parseElems`. -/
theorem parseElems_succ (f : Nat) (s : List Char) :
    parseElems (f + 1) s =
      (match parseVal f s with
       | none => none
       | some (v, rem) =>
         match skipWs rem with
         | ',' :: rem2 =>
           (match parseElems f rem2 with
            | some (.jarr a, rem3) => some (.jarr (.acons v a), rem3)
            | _ => none)
         | c :: rem2 =>
           if c = ']' then some (.jarr (.acons v .anil), rem2) else none
         | [] => none) := by
  conv_lhs => rw [parseElems]

/-- The fuel measure is positive. -/
theorem jfuel_pos (v : Json) : 1 ≤ jfuel v := by
  cases v <;> (unfold jfuel; omega)

/-- Head character of a compact serialization: never whitespace, a
separator, a closer or a backtick. -/
theorem dumps_head (v : Json) : ∃ c cs, dumps v = c :: cs ∧ isJsonWs c = false
    ∧ isWsChar c = false ∧ ¬(c = ']') ∧ ¬(c = rb) ∧ ¬(c = ',') ∧ ¬(c = bt) := by
  cases v with
  | jnull => exact ⟨'n', _, rfl, by decide, by decide, by decide, by decide, by decide, by decide⟩
  | jbool b =>
    cases b
    · exact ⟨'f', _, rfl, by decide, by decide, by decide, by decide, by decide, by decide⟩
    · exact ⟨'t', _, rfl, by decide, by decide, by decide, by decide, by decide, by decide⟩
  | jnum n =>
    obtain ⟨c, cs, hcs, hcl⟩ := intChars_head n
    refine ⟨c, cs, hcs, ?_, ?_, ?_, ?_, ?_, ?_⟩ <;>
      · rcases hcl with hcl | hcl
        · subst hcl; first | rfl | decide
        · have hn := digit_ne c hcl
          first
          | exact hn.2.2.2.2.2.2.2.2.2.2.2.2.2.2.1
          | exact hn.2.2.2.2.2.2.2.2.2.2.2.2.2.2.2
          | exact hn.2.2.2.2.2.2.2.2.2.2.2.2.1
          | exact hn.2.2.2.2.2.2.2.2.2.2.2.1
          | exact hn.2.2.2.2.2.2.2.2.2.2.1
          | exact hn.2.2.2.2.2.2.2.2.2.2.2.2.2.1
  | jstr s => exact ⟨'"', _, rfl, by decide, by decide, by decide, by decide, by decide, by decide⟩
  | jarr a => exact ⟨'[', _, rfl, by decide, by decide, by decide, by decide, by decide, by decide⟩
  | jobj o => exact ⟨lb, _, rfl, by decide, by decide, by decide, by decide, by decide, by decide⟩

/-- Head character of a trailing-comma serialization (same head class). -/
theorem dumpsT_head (v : Json) : ∃ c cs, dumpsT v = c :: cs ∧ isJsonWs c = false
    ∧ isWsChar c = false ∧ ¬(c = ']') ∧ ¬(c = rb) ∧ ¬(c = ',') ∧ ¬(c = bt) := by
  cases v with
  | jnull => exact ⟨'n', _, rfl, by decide, by decide, by decide, by decide, by decide, by decide⟩
  | jbool b =>
    cases b
    · exact ⟨'f', _, rfl, by decide, by decide, by decide, by decide, by decide, by decide⟩
    · exact ⟨'t', _, rfl, by decide, by decide, by decide, by decide, by decide, by decide⟩
  | jnum n =>
    obtain ⟨c, cs, hcs, hcl⟩ := intChars_head n
    refine ⟨c, cs, hcs, ?_, ?_, ?_, ?_, ?_, ?_⟩ <;>
      · rcases hcl with hcl | hcl
        · subst hcl; first | rfl | decide
        · have hn := digit_ne c hcl
          first
          | exact hn.2.2.2.2.2.2.2.2.2.2.2.2.2.2.1
          | exact hn.2.2.2.2.2.2.2.2.2.2.2.2.2.2.2
          | exact hn.2.2.2.2.2.2.2.2.2.2.2.2.1
          | exact hn.2.2.2.2.2.2.2.2.2.2.2.1
          | exact hn.2.2.2.2.2.2.2.2.2.2.1
          | exact hn.2.2.2.2.2.2.2.2.2.2.2.2.2.1
  | jstr s => exact ⟨'"', _, rfl, by decide, by decide, by decide, by decide, by decide, by decide⟩
  | jarr a => exact ⟨'[', _, rfl, by decide, by decide, by decide, by decide, by decide, by decide⟩
  | jobj o => exact ⟨lb, _, rfl, by decide, by decide, by decide, by decide, by decide, by decide⟩

/-- A nonempty array serialization starts with its first element. -/
theorem dumpsArr_cons_ex (w : Json) (tla : JArr) :
    ∃ T, dumpsArr (.acons w tla) = dumps w ++ T := by
  cases tla with
  | anil => exact ⟨_, rfl⟩
  | acons v2 tl2 => exact ⟨_, rfl⟩

/-- A nonempty object serialization starts with the quote of its first key. -/
theorem dumpsObj_head (k : List Char) (w : Json) (tlo : JObj) :
    ∃ X, dumpsObj (.ocons k w tlo) = '"' :: X := by
  cases tlo with
  | onil => exact ⟨_, rfl⟩
  | ocons k2 v2 tl2 => exact ⟨_, rfl⟩

mutual
/-- `parseVal` recovers a serialized simple value, leaving the remainder
(which must start with a container delimiter or be empty) untouched. -/
theorem parse_dumps (v : Json) : ∀ (fuel : Nat) (rest : List Char),
    simpleJ v = true → delimB rest = true → jfuel v ≤ fuel →
    parseVal fuel (dumps v ++ rest) = some (v, rest) := by
  intro fuel rest hs hd hf
  cases fuel with
  | zero => exact absurd hf (by have := jfuel_pos v; omega)
  | succ f =>
    cases v with
    | jnull => unfold parseVal; rfl
    | jbool b =>
      cases b
      · unfold parseVal; rfl
      · unfold parseVal; rfl
    | jnum n =>
      obtain ⟨c, cs, hcs, hcl⟩ := intChars_head n
      have hnw : isJsonWs c = false := by
        rcases hcl with hcl | hcl
        · subst hcl; rfl
        · exact (digit_ne c hcl).2.2.2.2.2.2.2.2.2.2.2.2.2.2.1
      rw [show dumps (.jnum n) ++ rest = c :: (cs ++ rest) from by
        show intChars n ++ rest = c :: (cs ++ rest)
        rw [hcs]
        rfl]
      rw [parseVal_succ f c (cs ++ rest) hnw]
      have hnum : ¬(c = lb) ∧ ¬(c = '[') ∧ ¬(c = '"') ∧ ¬(c = 't') ∧ ¬(c = 'f')
          ∧ ¬(c = 'n') := by
        rcases hcl with hcl | hcl
        · subst hcl
          exact ⟨by decide, by decide, by decide, by decide, by decide, by decide⟩
        · have hn := digit_ne c hcl
          exact ⟨hn.1, hn.2.1, hn.2.2.1, hn.2.2.2.1, hn.2.2.2.2.1,
            hn.2.2.2.2.2.1⟩
      rw [if_neg hnum.1, if_neg hnum.2.1, if_neg hnum.2.2.1, if_neg hnum.2.2.2.1,
        if_neg hnum.2.2.2.2.1, if_neg hnum.2.2.2.2.2]
      rw [if_pos (by
        rcases hcl with hcl | hcl
        · subst hcl; rfl
        · rw [Bool.or_eq_true]
          right
          exact hcl)]
      rw [show c :: (cs ++ rest) = intChars n ++ rest from by rw [hcs]; rfl]
      exact parseNum_intChars n rest hd
    | jstr s =>
      have hall : s.all simpleChar = true := hs
      rw [show dumps (.jstr s) ++ rest = '"' :: (s ++ '"' :: rest) from by
        show ('"' :: s.flatMap escChar ++ ['"']) ++ rest = '"' :: (s ++ '"' :: rest)
        rw [flatMap_esc_id s hall]
        simp]
      rw [parseVal_succ f '"' (s ++ '"' :: rest) (by decide)]
      rw [if_neg (by decide), if_neg (by decide), if_pos (by rfl)]
      rw [parseStrBody_simple s rest hall]
    | jarr a =>
      cases a with
      | anil =>
        cases f with
        | zero => exact absurd hf (by have h4 : jfuel (.jarr .anil) = 2 := rfl; omega)
        | succ g => unfold parseVal parseArrTail; rfl
      | acons w tla =>
        have hfe : jfuel (.jarr (.acons w tla)) = 2 + jfuelA (.acons w tla) := rfl
        rw [show dumps (.jarr (.acons w tla)) ++ rest
            = '[' :: (dumpsArr (.acons w tla) ++ rest) from rfl]
        rw [parseVal_succ f '[' _ (by decide)]
        rw [if_neg (by decide), if_pos (by rfl)]
        cases f with
        | zero => exact absurd hf (by omega)
        | succ g =>
          obtain ⟨T, hT⟩ := dumpsArr_cons_ex w tla
          obtain ⟨c, cs, hcs, hnw, -, hne, -, -, -⟩ := dumps_head w
          rw [show dumpsArr (.acons w tla) ++ rest = c :: (cs ++ (T ++ rest)) from by
            rw [hT, hcs]
            simp]
          rw [parseArrTail_succ g c _ hnw]
          rw [if_neg hne]
          rw [show c :: (cs ++ (T ++ rest)) = dumpsArr (.acons w tla) ++ rest from by
            rw [hT, hcs]
            simp]
          exact parse_dumpsA w tla g rest hs (by omega)
    | jobj o =>
      cases o with
      | onil =>
        cases f with
        | zero => exact absurd hf (by have h4 : jfuel (.jobj .onil) = 2 := rfl; omega)
        | succ g => unfold parseVal parseObjTail; rfl
      | ocons k w tlo =>
        have hfe : jfuel (.jobj (.ocons k w tlo)) = 2 + jfuelO (.ocons k w tlo) := rfl
        rw [show dumps (.jobj (.ocons k w tlo)) ++ rest
            = lb :: (dumpsObj (.ocons k w tlo) ++ rest) from rfl]
        rw [parseVal_succ f lb _ (by decide)]
        rw [if_pos (by rfl)]
        cases f with
        | zero => exact absurd hf (by omega)
        | succ g =>
          obtain ⟨X, hX⟩ := dumpsObj_head k w tlo
          rw [show dumpsObj (.ocons k w tlo) ++ rest = '"' :: (X ++ rest) from by
            rw [hX]
            rfl]
          rw [parseObjTail_succ g '"' _ (by decide)]
          rw [if_neg (by decide), if_pos (by rfl)]
          rw [show ('"' :: (X ++ rest)) = dumpsObj (.ocons k w tlo) ++ rest from by
            rw [hX]
            rfl]
          exact parse_dumpsO k w tlo g rest hs (by omega)
termination_by sizeOf v

/-- `parseMembers` recovers serialized object members. -/
theorem parse_dumpsO (k : List Char) (v : Json) (tl : JObj) :
    ∀ (fuel : Nat) (rest : List Char),
    simpleO (.ocons k v tl) = true → jfuelO (.ocons k v tl) ≤ fuel →
    parseMembers fuel (dumpsObj (.ocons k v tl) ++ rest)
      = some (.jobj (.ocons k v tl), rest) := by
  intro fuel rest hs hf
  have hsplit : k.all simpleChar = true ∧ simpleJ v = true ∧ simpleO tl = true := by
    have h2 : (k.all simpleChar && simpleJ v && simpleO tl) = true := hs
    rw [Bool.and_eq_true, Bool.and_eq_true] at h2
    exact ⟨h2.1.1, h2.1.2, h2.2⟩
  have hfe : jfuelO (.ocons k v tl) = 1 + jfuel v + jfuelO tl := rfl
  cases fuel with
  | zero => exact absurd hf (by omega)
  | succ f =>
    cases tl with
    | onil =>
      rw [show dumpsObj (.ocons k v .onil) ++ rest
          = '"' :: (k ++ '"' :: (':' :: (dumps v ++ rb :: rest))) from by
        show ('"' :: (k.flatMap escChar ++ '"' :: ':' :: dumps v ++ [rb])) ++ rest
          = '"' :: (k ++ '"' :: (':' :: (dumps v ++ rb :: rest)))
        rw [flatMap_esc_id k hsplit.1]
        simp]
      rw [parseMembers_succ f _]
      rw [parseStrBody_simple k (':' :: (dumps v ++ rb :: rest)) hsplit.1]
      show ((match parseVal f (dumps v ++ rb :: rest) with
        | none => none
        | some (v2, rem3) =>
          match skipWs rem3 with
          | ',' :: rem4 =>
            (match parseMembers f rem4 with
             | some (Json.jobj o, rem5) => some (Json.jobj (JObj.ocons k v2 o), rem5)
             | _ => none)
          | c2 :: rem4 =>
            if c2 = rb then some (Json.jobj (JObj.ocons k v2 JObj.onil), rem4) else none
          | [] => none : Option (Json × List Char))
        = some (Json.jobj (JObj.ocons k v JObj.onil), rest))
      rw [parse_dumps v f (rb :: rest) hsplit.2.1 (by rfl) (by omega)]
      all_goals rfl
    | ocons k2 v2 tl2 =>
      rw [show dumpsObj (.ocons k v (.ocons k2 v2 tl2)) ++ rest
          = '"' :: (k ++ '"' :: (':' :: (dumps v
              ++ ',' :: (dumpsObj (.ocons k2 v2 tl2) ++ rest)))) from by
        show ('"' :: (k.flatMap escChar ++ '"' :: ':' :: dumps v
            ++ ',' :: dumpsObj (.ocons k2 v2 tl2))) ++ rest = _
        rw [flatMap_esc_id k hsplit.1]
        simp]
      rw [parseMembers_succ f _]
      rw [parseStrBody_simple k (':' :: (dumps v
        ++ ',' :: (dumpsObj (.ocons k2 v2 tl2) ++ rest))) hsplit.1]
      show ((match parseVal f (dumps v ++ ',' :: (dumpsObj (.ocons k2 v2 tl2) ++ rest)) with
        | none => none
        | some (v3, rem3) =>
          match skipWs rem3 with
          | ',' :: rem4 =>
            (match parseMembers f rem4 with
             | some (Json.jobj o, rem5) => some (Json.jobj (JObj.ocons k v3 o), rem5)
             | _ => none)
          | c2 :: rem4 =>
            if c2 = rb then some (Json.jobj (JObj.ocons k v3 JObj.onil), rem4) else none
          | [] => none : Option (Json × List Char))
        = some (Json.jobj (JObj.ocons k v (JObj.ocons k2 v2 tl2)), rest))
      rw [parse_dumps v f (',' :: (dumpsObj (.ocons k2 v2 tl2) ++ rest)) hsplit.2.1
        (by rfl) (by omega)]
      show ((match parseMembers f (dumpsObj (.ocons k2 v2 tl2) ++ rest) with
        | some (Json.jobj o, rem5) => some (Json.jobj (JObj.ocons k v o), rem5)
        | _ => none : Option (Json × List Char))
        = some (Json.jobj (JObj.ocons k v (JObj.ocons k2 v2 tl2)), rest))
      rw [parse_dumpsO k2 v2 tl2 f rest hsplit.2.2 (by
        have h3 : jfuelO (.ocons k2 v2 tl2) = 1 + jfuel v2 + jfuelO tl2 := rfl
        omega)]
termination_by sizeOf (JObj.ocons k v tl)

/-- `parseElems` recovers serialized array elements. -/
theorem parse_dumpsA (v : Json) (tl : JArr) :
    ∀ (fuel : Nat) (rest : List Char),
    simpleA (.acons v tl) = true → jfuelA (.acons v tl) ≤ fuel →
    parseElems fuel (dumpsArr (.acons v tl) ++ rest)
      = some (.jarr (.acons v tl), rest) := by
  intro fuel rest hs hf
  have hsplit : simpleJ v = true ∧ simpleA tl = true := by
    have h2 : (simpleJ v && simpleA tl) = true := hs
    rw [Bool.and_eq_true] at h2
    exact h2
  have hfe : jfuelA (.acons v tl) = 1 + jfuel v + jfuelA tl := rfl
  cases fuel with
  | zero => exact absurd hf (by omega)
  | succ f =>
    rw [parseElems_succ f _]
    cases tl with
    | anil =>
      rw [show dumpsArr (.acons v .anil) ++ rest = dumps v ++ (']' :: rest) from by
        show (dumps v ++ [']']) ++ rest = dumps v ++ (']' :: rest)
        simp]
      rw [parse_dumps v f (']' :: rest) hsplit.1 (by rfl) (by omega)]
      all_goals rfl
    | acons v2 tl2 =>
      rw [show dumpsArr (.acons v (.acons v2 tl2)) ++ rest
          = dumps v ++ (',' :: (dumpsArr (.acons v2 tl2) ++ rest)) from by
        show (dumps v ++ ',' :: dumpsArr (.acons v2 tl2)) ++ rest
          = dumps v ++ (',' :: (dumpsArr (.acons v2 tl2) ++ rest))
        simp]
      rw [parse_dumps v f (',' :: (dumpsArr (.acons v2 tl2) ++ rest)) hsplit.1
        (by rfl) (by omega)]
      show ((match parseElems f (dumpsArr (.acons v2 tl2) ++ rest) with
        | some (Json.jarr a, rem3) => some (Json.jarr (JArr.acons v a), rem3)
        | _ => none : Option (Json × List Char))
        = some (Json.jarr (JArr.acons v (JArr.acons v2 tl2)), rest))
      rw [parse_dumpsA v2 tl2 f rest hsplit.2 (by
        have h3 : jfuelA (.acons v2 tl2) = 1 + jfuel v2 + jfuelA tl2 := rfl
        omega)]
termination_by sizeOf (JArr.acons v tl)
end
mutual
/-- The fuel measure is dominated by twice the serialization length. -/
theorem jfuel_le (v : Json) : jfuel v ≤ 2 * (dumps v).length := by
  cases v with
  | jnull =>
    have h : jfuel Json.jnull = 1 := rfl
    have h2 : (dumps Json.jnull).length = 4 := rfl
    omega
  | jbool b =>
    cases b
    · have h : jfuel (Json.jbool false) = 1 := rfl
      have h2 : (dumps (Json.jbool false)).length = 5 := rfl
      omega
    · have h : jfuel (Json.jbool true) = 1 := rfl
      have h2 : (dumps (Json.jbool true)).length = 4 := rfl
      omega
  | jnum n =>
    obtain ⟨c, cs, hcs, -⟩ := intChars_head n
    have h : jfuel (Json.jnum n) = 1 := rfl
    have h2 : dumps (Json.jnum n) = c :: cs := hcs
    rw [h, h2]
    simp only [List.length_cons]
    omega
  | jstr s =>
    have h : jfuel (Json.jstr s) = 1 := rfl
    have h2 : dumps (Json.jstr s) = '"' :: (s.flatMap escChar ++ ['"']) := rfl
    rw [h, h2]
    simp only [List.length_cons]
    omega
  | jarr a =>
    have h : jfuel (Json.jarr a) = 2 + jfuelA a := rfl
    have h2 : dumps (Json.jarr a) = '[' :: dumpsArr a := rfl
    have h3 := jfuelA_le a
    rw [h, h2]
    simp only [List.length_cons]
    omega
  | jobj o =>
    have h : jfuel (Json.jobj o) = 2 + jfuelO o := rfl
    have h2 : dumps (Json.jobj o) = lb :: dumpsObj o := rfl
    have h3 := jfuelO_le o
    rw [h, h2]
    simp only [List.length_cons]
    omega
termination_by sizeOf v

/-- Array-side fuel bound. -/
theorem jfuelA_le (a : JArr) : jfuelA a ≤ 2 * (dumpsArr a).length := by
  cases a with
  | anil =>
    have h : jfuelA JArr.anil = 0 := rfl
    omega
  | acons v tl =>
    have h := jfuel_le v
    cases tl with
    | anil =>
      have h1 : jfuelA (JArr.acons v JArr.anil) = 1 + jfuel v + 0 := rfl
      have h2 : dumpsArr (JArr.acons v JArr.anil) = dumps v ++ [']'] := rfl
      rw [h1, h2]
      simp only [List.length_append, List.length_cons, List.length_nil]
      omega
    | acons v2 tl2 =>
      have h3 := jfuelA_le (JArr.acons v2 tl2)
      have h1 : jfuelA (JArr.acons v (JArr.acons v2 tl2))
          = 1 + jfuel v + jfuelA (JArr.acons v2 tl2) := rfl
      have h2 : dumpsArr (JArr.acons v (JArr.acons v2 tl2))
          = dumps v ++ ',' :: dumpsArr (JArr.acons v2 tl2) := rfl
      rw [h1, h2]
      simp only [List.length_append, List.length_cons]
      omega
termination_by sizeOf a

/-- Object-side fuel bound. -/
theorem jfuelO_le (o : JObj) : jfuelO o ≤ 2 * (dumpsObj o).length := by
  cases o with
  | onil =>
    have h : jfuelO JObj.onil = 0 := rfl
    omega
  | ocons k v tl =>
    have h := jfuel_le v
    cases tl with
    | onil =>
      have h1 : jfuelO (JObj.ocons k v JObj.onil) = 1 + jfuel v + 0 := rfl
      have h2 : dumpsObj (JObj.ocons k v JObj.onil)
          = '"' :: k.flatMap escChar ++ '"' :: ':' :: dumps v ++ [rb] := rfl
      rw [h1, h2]
      simp only [List.length_append, List.length_cons, List.length_nil]
      omega
    | ocons k2 v2 tl2 =>
      have h3 := jfuelO_le (JObj.ocons k2 v2 tl2)
      have h1 : jfuelO (JObj.ocons k v (JObj.ocons k2 v2 tl2))
          = 1 + jfuel v + jfuelO (JObj.ocons k2 v2 tl2) := rfl
      have h2 : dumpsObj (JObj.ocons k v (JObj.ocons k2 v2 tl2))
          = '"' :: k.flatMap escChar ++ '"' :: ':' :: dumps v
              ++ ',' :: dumpsObj (JObj.ocons k2 v2 tl2) := rfl
      rw [h1, h2]
      simp only [List.length_append, List.length_cons]
      omega
termination_by sizeOf o
end

/-- The serializations of a value differ only in trailing commas, so the
trailing-comma one is never shorter. -/
theorem dumpsTObj_cons (k : List Char) (v : Json) (tl : JObj) :
    dumpsTObj (.ocons k v tl)
      = '"' :: k.flatMap escChar ++ '"' :: ':' :: dumpsT v ++ ',' :: dumpsTObj tl := by
  cases tl with
  | onil => rfl
  | ocons k2 v2 tl2 => rfl

/-- Uniform cons form of the trailing-comma array serialization. -/
theorem dumpsTArr_cons (v : Json) (tl : JArr) :
    dumpsTArr (.acons v tl) = dumpsT v ++ ',' :: dumpsTArr tl := by
  cases tl with
  | anil => rfl
  | acons v2 tl2 => rfl

/-- On trailing-comma-free values, both serializations agree. -/
theorem trailFree_dumps_eq (v : Json) (h : trailFree v = true) : dumpsT v = dumps v := by
  cases v with
  | jnull => rfl
  | jbool b => cases b <;> rfl
  | jnum n => rfl
  | jstr s => rfl
  | jarr a =>
    cases a with
    | anil => rfl
    | acons w tl =>
      have hf2 : trailFree (Json.jarr (JArr.acons w tl)) = false := rfl
      rw [hf2] at h
      exact absurd h (by decide)
  | jobj o =>
    cases o with
    | onil => rfl
    | ocons k w tl =>
      have hf2 : trailFree (Json.jobj (JObj.ocons k w tl)) = false := rfl
      rw [hf2] at h
      exact absurd h (by decide)

/-- The trailing-comma object serialization ends with the closing brace. -/
theorem dumpsTObj_last (o : JObj) : ∃ u, dumpsTObj o = u ++ [rb] := by
  cases o with
  | onil => exact ⟨[], rfl⟩
  | ocons k v tl =>
    obtain ⟨u, hu⟩ := dumpsTObj_last tl
    rw [dumpsTObj_cons, hu]
    exact ⟨'"' :: k.flatMap escChar ++ '"' :: ':' :: dumpsT v ++ ',' :: u, by simp⟩
termination_by sizeOf o

/-- The compact object serialization ends with the closing brace. -/
theorem dumpsObj_last (o : JObj) : ∃ u, dumpsObj o = u ++ [rb] := by
  cases o with
  | onil => exact ⟨[], rfl⟩
  | ocons k v tl =>
    cases tl with
    | onil =>
      refine ⟨'"' :: k.flatMap escChar ++ '"' :: ':' :: dumps v, ?_⟩
      show '"' :: k.flatMap escChar ++ '"' :: ':' :: dumps v ++ [rb] = _
      simp
    | ocons k2 v2 tl2 =>
      obtain ⟨u, hu⟩ := dumpsObj_last (JObj.ocons k2 v2 tl2)
      refine ⟨'"' :: k.flatMap escChar ++ '"' :: ':' :: dumps v ++ ',' :: u, ?_⟩
      show '"' :: k.flatMap escChar ++ '"' :: ':' :: dumps v
          ++ ',' :: dumpsObj (JObj.ocons k2 v2 tl2) = _
      rw [hu]
      simp
termination_by sizeOf o

/-- Characters of `intChars` avoid the special characters. -/
theorem intChars_no_special (n : Int) :
    ∀ c ∈ intChars n, ¬(c = bt) ∧ ¬(c = ',') ∧ isWsChar c = false
      ∧ ¬(c = rb) ∧ ¬(c = ']') ∧ ¬(c = '"') ∧ ¬(c = lb) := by
  intro c hc
  unfold intChars at hc
  by_cases hn : n < 0
  · rw [if_pos hn] at hc
    rcases List.mem_cons.mp hc with hc | hc
    · subst hc
      exact ⟨by decide, by decide, by decide, by decide, by decide, by decide, by decide⟩
    · have hd := natChars_all n.natAbs c hc
      have h2 := digit_ne c hd
      exact ⟨h2.2.2.2.2.2.2.2.2.2.2.2.2.2.1, h2.2.2.2.2.2.2.2.2.2.2.1,
        h2.2.2.2.2.2.2.2.2.2.2.2.2.2.2.2, h2.2.2.2.2.2.2.2.2.2.2.2.1,
        h2.2.2.2.2.2.2.2.2.2.2.2.2.1, h2.2.2.1, h2.1⟩
  · rw [if_neg hn] at hc
    have hd := natChars_all n.natAbs c hc
    have h2 := digit_ne c hd
    exact ⟨h2.2.2.2.2.2.2.2.2.2.2.2.2.2.1, h2.2.2.2.2.2.2.2.2.2.2.1,
        h2.2.2.2.2.2.2.2.2.2.2.2.2.2.2.2, h2.2.2.2.2.2.2.2.2.2.2.2.1,
        h2.2.2.2.2.2.2.2.2.2.2.2.2.1, h2.2.2.1, h2.1⟩

mutual
/-- No character of a simple value's trailing-comma serialization is a
backtick. -/
theorem dumpsT_no_bt (v : Json) : ∀ (h : simpleJ v = true), ∀ c ∈ dumpsT v, ¬(c = bt) := by
  intro h c hc
  cases v with
  | jnull => exact (show ∀ x ∈ ['n','u','l','l'], ¬(x = bt) from by decide) c hc
  | jbool b =>
    cases b
    · exact (show ∀ x ∈ ['f','a','l','s','e'], ¬(x = bt) from by decide) c hc
    · exact (show ∀ x ∈ ['t','r','u','e'], ¬(x = bt) from by decide) c hc
  | jnum n => exact (intChars_no_special n c hc).1
  | jstr s =>
    have hall : s.all simpleChar = true := h
    rw [show dumpsT (Json.jstr s) = '"' :: (s.flatMap escChar ++ ['"']) from rfl,
      flatMap_esc_id s hall] at hc
    rcases List.mem_cons.mp hc with hc | hc
    · subst hc; decide
    · rcases List.mem_append.mp hc with hc | hc
      · exact (simpleChar_ne c (List.all_eq_true.mp hall c hc)).2.2.1
      · rcases List.mem_cons.mp hc with hc | hc
        · subst hc; decide
        · exact absurd hc (List.not_mem_nil c)
  | jarr a =>
    rw [show dumpsT (Json.jarr a) = '[' :: dumpsTArr a from rfl] at hc
    rcases List.mem_cons.mp hc with hc | hc
    · subst hc; decide
    · exact dumpsTArr_no_bt a h c hc
  | jobj o =>
    rw [show dumpsT (Json.jobj o) = lb :: dumpsTObj o from rfl] at hc
    rcases List.mem_cons.mp hc with hc | hc
    · subst hc; decide
    · exact dumpsTObj_no_bt o h c hc
termination_by sizeOf v

/-- Array side of `dumpsT_no_bt`. -/
theorem dumpsTArr_no_bt (a : JArr) : ∀ (h : simpleA a = true), ∀ c ∈ dumpsTArr a, ¬(c = bt) := by
  intro h c hc
  cases a with
  | anil =>
    rcases List.mem_cons.mp hc with hc | hc
    · subst hc; decide
    · exact absurd hc (List.not_mem_nil c)
  | acons v tl =>
    have hsp : simpleJ v = true ∧ simpleA tl = true := by
      have h2 : (simpleJ v && simpleA tl) = true := h
      rw [Bool.and_eq_true] at h2
      exact h2
    rw [dumpsTArr_cons] at hc
    rcases List.mem_append.mp hc with hc | hc
    · exact dumpsT_no_bt v hsp.1 c hc
    · rcases List.mem_cons.mp hc with hc | hc
      · subst hc; decide
      · exact dumpsTArr_no_bt tl hsp.2 c hc
termination_by sizeOf a

/-- Object side of `dumpsT_no_bt`. -/
theorem dumpsTObj_no_bt (o : JObj) : ∀ (h : simpleO o = true), ∀ c ∈ dumpsTObj o, ¬(c = bt) := by
  intro h c hc
  cases o with
  | onil =>
    rcases List.mem_cons.mp hc with hc | hc
    · subst hc; decide
    · exact absurd hc (List.not_mem_nil c)
  | ocons k v tl =>
    have hsp : k.all simpleChar = true ∧ simpleJ v = true ∧ simpleO tl = true := by
      have h2 : (k.all simpleChar && simpleJ v && simpleO tl) = true := h
      rw [Bool.and_eq_true, Bool.and_eq_true] at h2
      exact ⟨h2.1.1, h2.1.2, h2.2⟩
    rw [dumpsTObj_cons, flatMap_esc_id k hsp.1] at hc
    rcases List.mem_cons.mp hc with hc | hc
    · subst hc; decide
    · rcases List.mem_append.mp hc with hc | hc
      · rcases List.mem_append.mp hc with hc | hc
        · exact (simpleChar_ne c (List.all_eq_true.mp hsp.1 c hc)).2.2.1
        · rcases List.mem_cons.mp hc with hc | hc
          · subst hc; decide
          · rcases List.mem_cons.mp hc with hc | hc
            · subst hc; decide
            · exact dumpsT_no_bt v hsp.2.1 c hc
      · rcases List.mem_cons.mp hc with hc | hc
        · subst hc; decide
        · exact dumpsTObj_no_bt tl hsp.2.2 c hc
termination_by sizeOf o
end

mutual
/-- No character of a simple value's compact serialization is a backtick. -/
theorem dumps_no_bt (v : Json) : ∀ (h : simpleJ v = true), ∀ c ∈ dumps v, ¬(c = bt) := by
  intro h c hc
  cases v with
  | jnull => exact (show ∀ x ∈ ['n','u','l','l'], ¬(x = bt) from by decide) c hc
  | jbool b =>
    cases b
    · exact (show ∀ x ∈ ['f','a','l','s','e'], ¬(x = bt) from by decide) c hc
    · exact (show ∀ x ∈ ['t','r','u','e'], ¬(x = bt) from by decide) c hc
  | jnum n => exact (intChars_no_special n c hc).1
  | jstr s =>
    have hall : s.all simpleChar = true := h
    rw [show dumps (Json.jstr s) = '"' :: (s.flatMap escChar ++ ['"']) from rfl,
      flatMap_esc_id s hall] at hc
    rcases List.mem_cons.mp hc with hc | hc
    · subst hc; decide
    · rcases List.mem_append.mp hc with hc | hc
      · exact (simpleChar_ne c (List.all_eq_true.mp hall c hc)).2.2.1
      · rcases List.mem_cons.mp hc with hc | hc
        · subst hc; decide
        · exact absurd hc (List.not_mem_nil c)
  | jarr a =>
    rw [show dumps (Json.jarr a) = '[' :: dumpsArr a from rfl] at hc
    rcases List.mem_cons.mp hc with hc | hc
    · subst hc; decide
    · exact dumpsArr_no_bt a h c hc
  | jobj o =>
    rw [show dumps (Json.jobj o) = lb :: dumpsObj o from rfl] at hc
    rcases List.mem_cons.mp hc with hc | hc
    · subst hc; decide
    · exact dumpsObj_no_bt o h c hc
termination_by sizeOf v

/-- Array side of `dumps_no_bt`. -/
theorem dumpsArr_no_bt (a : JArr) : ∀ (h : simpleA a = true), ∀ c ∈ dumpsArr a, ¬(c = bt) := by
  intro h c hc
  cases a with
  | anil =>
    rcases List.mem_cons.mp hc with hc | hc
    · subst hc; decide
    · exact absurd hc (List.not_mem_nil c)
  | acons v tl =>
    have hsp : simpleJ v = true ∧ simpleA tl = true := by
      have h2 : (simpleJ v && simpleA tl) = true := h
      rw [Bool.and_eq_true] at h2
      exact h2
    cases tl with
    | anil =>
      rw [show dumpsArr (JArr.acons v JArr.anil) = dumps v ++ [']'] from rfl] at hc
      rcases List.mem_append.mp hc with hc | hc
      · exact dumps_no_bt v hsp.1 c hc
      · rcases List.mem_cons.mp hc with hc | hc
        · subst hc; decide
        · exact absurd hc (List.not_mem_nil c)
    | acons v2 tl2 =>
      rw [show dumpsArr (JArr.acons v (JArr.acons v2 tl2))
          = dumps v ++ ',' :: dumpsArr (JArr.acons v2 tl2) from rfl] at hc
      rcases List.mem_append.mp hc with hc | hc
      · exact dumps_no_bt v hsp.1 c hc
      · rcases List.mem_cons.mp hc with hc | hc
        · subst hc; decide
        · exact dumpsArr_no_bt (JArr.acons v2 tl2) hsp.2 c hc
termination_by sizeOf a

/-- Object side of `dumps_no_bt`. -/
theorem dumpsObj_no_bt (o : JObj) : ∀ (h : simpleO o = true), ∀ c ∈ dumpsObj o, ¬(c = bt) := by
  intro h c hc
  cases o with
  | onil =>
    rcases List.mem_cons.mp hc with hc | hc
    · subst hc; decide
    · exact absurd hc (List.not_mem_nil c)
  | ocons k v tl =>
    have hsp : k.all simpleChar = true ∧ simpleJ v = true ∧ simpleO tl = true := by
      have h2 : (k.all simpleChar && simpleJ v && simpleO tl) = true := h
      rw [Bool.and_eq_true, Bool.and_eq_true] at h2
      exact ⟨h2.1.1, h2.1.2, h2.2⟩
    have hbody : ∀ X, c ∈ '"' :: k.flatMap escChar ++ '"' :: ':' :: X → (∀ x ∈ X, ¬(x = bt)) → ¬(c = bt) := by
      intro X hcx hX
      rw [flatMap_esc_id k hsp.1] at hcx
      rcases List.mem_cons.mp hcx with hc2 | hc2
      · subst hc2; decide
      · rcases List.mem_append.mp hc2 with hc2 | hc2
        · exact (simpleChar_ne c (List.all_eq_true.mp hsp.1 c hc2)).2.2.1
        · rcases List.mem_cons.mp hc2 with hc2 | hc2
          · subst hc2; decide
          · rcases List.mem_cons.mp hc2 with hc2 | hc2
            · subst hc2; decide
            · exact hX c hc2
    cases tl with
    | onil =>
      rw [show dumpsObj (JObj.ocons k v JObj.onil)
          = '"' :: k.flatMap escChar ++ '"' :: ':' :: (dumps v ++ [rb]) from by
        show '"' :: k.flatMap escChar ++ '"' :: ':' :: dumps v ++ [rb] = _
        simp] at hc
      refine hbody (dumps v ++ [rb]) hc ?_
      intro x hx
      rcases List.mem_append.mp hx with hx | hx
      · exact dumps_no_bt v hsp.2.1 x hx
      · rcases List.mem_cons.mp hx with hx | hx
        · subst hx; decide
        · exact absurd hx (List.not_mem_nil x)
    | ocons k2 v2 tl2 =>
      rw [show dumpsObj (JObj.ocons k v (JObj.ocons k2 v2 tl2))
          = '"' :: k.flatMap escChar ++ '"' :: ':'
              :: (dumps v ++ ',' :: dumpsObj (JObj.ocons k2 v2 tl2)) from by
        show '"' :: k.flatMap escChar ++ '"' :: ':' :: dumps v
            ++ ',' :: dumpsObj (JObj.ocons k2 v2 tl2) = _
        simp] at hc
      refine hbody (dumps v ++ ',' :: dumpsObj (JObj.ocons k2 v2 tl2)) hc ?_
      intro x hx
      rcases List.mem_append.mp hx with hx | hx
      · exact dumps_no_bt v hsp.2.1 x hx
      · rcases List.mem_cons.mp hx with hx | hx
        · subst hx; decide
        · exact dumpsObj_no_bt (JObj.ocons k2 v2 tl2) hsp.2.2 x hx
termination_by sizeOf o
end
/-- A value parse fails on a closing bracket. -/
theorem parseVal_closer (f : Nat) (rest : List Char) : parseVal f (']' :: rest) = none := by
  cases f with
  | zero => rfl
  | succ g =>
    rw [parseVal_succ g ']' rest (by decide)]
    rw [if_neg (by decide), if_neg (by decide), if_neg (by decide), if_neg (by decide),
      if_neg (by decide), if_neg (by decide), if_neg (by decide)]

/-- An element parse fails on an immediate closing bracket (the shape a
trailing comma produces). -/
theorem parseElems_closer (f : Nat) (rest : List Char) : parseElems f (']' :: rest) = none := by
  cases f with
  | zero => rfl
  | succ g =>
    rw [parseElems_succ g _]
    rw [parseVal_closer g rest]

/-- A member parse fails on an immediate closing brace (the shape a
trailing comma produces). -/
theorem parseMembers_rb (f : Nat) (rest : List Char) : parseMembers f (rb :: rest) = none := by
  cases f with
  | zero => rfl
  | succ g =>
    conv_lhs => rw [parseMembers]
    rw [skipWs_cons rb rest (by decide)]
    rfl

mutual
/-- A trailing-comma serialization of a non-`trailFree` simple value is
rejected by the strict parser. -/
theorem parseT_none (v : Json) : ∀ (fuel : Nat) (rest : List Char),
    simpleJ v = true → trailFree v = false → jfuel v ≤ fuel →
    parseVal fuel (dumpsT v ++ rest) = none := by
  intro fuel rest hs htf hf
  cases fuel with
  | zero => rfl
  | succ f =>
    cases v with
    | jnull => exact absurd htf (by decide)
    | jbool b => cases b <;> exact absurd htf (by decide)
    | jnum n =>
      have h4 : trailFree (Json.jnum n) = true := rfl
      rw [h4] at htf
      exact absurd htf (by decide)
    | jstr s =>
      have h4 : trailFree (Json.jstr s) = true := rfl
      rw [h4] at htf
      exact absurd htf (by decide)
    | jarr a =>
      cases a with
      | anil => exact absurd htf (by decide)
      | acons w tla =>
        have hfe : jfuel (Json.jarr (JArr.acons w tla)) = 2 + jfuelA (JArr.acons w tla) := rfl
        rw [show dumpsT (.jarr (.acons w tla)) ++ rest
            = '[' :: (dumpsTArr (.acons w tla) ++ rest) from rfl]
        rw [parseVal_succ f '[' _ (by decide)]
        rw [if_neg (by decide), if_pos (by rfl)]
        cases f with
        | zero => rfl
        | succ g =>
          obtain ⟨T, hT⟩ : ∃ T, dumpsTArr (.acons w tla) = dumpsT w ++ T :=
            ⟨_, dumpsTArr_cons w tla⟩
          obtain ⟨c, cs, hcs, hnw, -, hne, -, -, -⟩ := dumpsT_head w
          rw [show dumpsTArr (.acons w tla) ++ rest = c :: (cs ++ (T ++ rest)) from by
            rw [hT, hcs]
            simp]
          rw [parseArrTail_succ g c _ hnw]
          rw [if_neg hne]
          rw [show c :: (cs ++ (T ++ rest)) = dumpsTArr (.acons w tla) ++ rest from by
            rw [hT, hcs]
            simp]
          exact parseT_noneA w tla g rest hs (by omega)
    | jobj o =>
      cases o with
      | onil => exact absurd htf (by decide)
      | ocons k w tlo =>
        have hfe : jfuel (Json.jobj (JObj.ocons k w tlo)) = 2 + jfuelO (JObj.ocons k w tlo) := rfl
        rw [show dumpsT (.jobj (.ocons k w tlo)) ++ rest
            = lb :: (dumpsTObj (.ocons k w tlo) ++ rest) from rfl]
        rw [parseVal_succ f lb _ (by decide)]
        rw [if_pos (by rfl)]
        cases f with
        | zero => rfl
        | succ g =>
          obtain ⟨X, hX⟩ : ∃ X, dumpsTObj (.ocons k w tlo) = '"' :: X := by
            rw [dumpsTObj_cons]
            exact ⟨_, rfl⟩
          rw [show dumpsTObj (.ocons k w tlo) ++ rest = '"' :: (X ++ rest) from by
            rw [hX]
            rfl]
          rw [parseObjTail_succ g '"' _ (by decide)]
          rw [if_neg (by decide), if_pos (by rfl)]
          rw [show ('"' :: (X ++ rest)) = dumpsTObj (.ocons k w tlo) ++ rest from by
            rw [hX]
            rfl]
          exact parseT_noneO k w tlo g rest hs (by omega)
termination_by sizeOf v

/-- Member chain of a trailing-comma object serialization is rejected. -/
theorem parseT_noneO (k : List Char) (v : Json) (tl : JObj) :
    ∀ (fuel : Nat) (rest : List Char),
    simpleO (.ocons k v tl) = true → jfuelO (.ocons k v tl) ≤ fuel →
    parseMembers fuel (dumpsTObj (.ocons k v tl) ++ rest) = none := by
  intro fuel rest hs hf
  have hsplit : k.all simpleChar = true ∧ simpleJ v = true ∧ simpleO tl = true := by
    have h2 : (k.all simpleChar && simpleJ v && simpleO tl) = true := hs
    rw [Bool.and_eq_true, Bool.and_eq_true] at h2
    exact ⟨h2.1.1, h2.1.2, h2.2⟩
  have hfe : jfuelO (.ocons k v tl) = 1 + jfuel v + jfuelO tl := rfl
  cases fuel with
  | zero => rfl
  | succ f =>
    rw [show dumpsTObj (.ocons k v tl) ++ rest
        = '"' :: (k ++ '"' :: (':' :: (dumpsT v ++ ',' :: (dumpsTObj tl ++ rest)))) from by
      rw [dumpsTObj_cons, flatMap_esc_id k hsplit.1]
      simp]
    rw [parseMembers_succ f _]
    rw [parseStrBody_simple k (':' :: (dumpsT v ++ ',' :: (dumpsTObj tl ++ rest))) hsplit.1]
    show ((match parseVal f (dumpsT v ++ ',' :: (dumpsTObj tl ++ rest)) with
      | none => none
      | some (v2, rem3) =>
        match skipWs rem3 with
        | ',' :: rem4 =>
          (match parseMembers f rem4 with
           | some (Json.jobj o, rem5) => some (Json.jobj (JObj.ocons k v2 o), rem5)
           | _ => none)
        | c2 :: rem4 =>
          if c2 = rb then some (Json.jobj (JObj.ocons k v2 JObj.onil), rem4) else none
        | [] => none : Option (Json × List Char)) = none)
    by_cases htv : trailFree v = true
    · rw [show dumpsT v = dumps v from trailFree_dumps_eq v htv]
      rw [parse_dumps v f (',' :: (dumpsTObj tl ++ rest)) hsplit.2.1 (by rfl) (by omega)]
      cases tl with
      | onil =>
        show ((match parseMembers f (rb :: rest) with
          | some (Json.jobj o, rem5) => some (Json.jobj (JObj.ocons k v o), rem5)
          | _ => none : Option (Json × List Char)) = none)
        rw [parseMembers_rb f rest]
      | ocons k2 v2 tl2 =>
        show ((match parseMembers f (dumpsTObj (.ocons k2 v2 tl2) ++ rest) with
          | some (Json.jobj o, rem5) => some (Json.jobj (JObj.ocons k v o), rem5)
          | _ => none : Option (Json × List Char)) = none)
        rw [parseT_noneO k2 v2 tl2 f rest hsplit.2.2 (by
          have h3 : jfuelO (.ocons k2 v2 tl2) = 1 + jfuel v2 + jfuelO tl2 := rfl
          omega)]
    · have htf : trailFree v = false := by
        cases h4 : trailFree v with
        | false => rfl
        | true => exact absurd h4 htv
      rw [parseT_none v f (',' :: (dumpsTObj tl ++ rest)) hsplit.2.1 htf (by omega)]
termination_by sizeOf (JObj.ocons k v tl)

/-- Element chain of a trailing-comma array serialization is rejected. -/
theorem parseT_noneA (v : Json) (tl : JArr) :
    ∀ (fuel : Nat) (rest : List Char),
    simpleA (.acons v tl) = true → jfuelA (.acons v tl) ≤ fuel →
    parseElems fuel (dumpsTArr (.acons v tl) ++ rest) = none := by
  intro fuel rest hs hf
  have hsplit : simpleJ v = true ∧ simpleA tl = true := by
    have h2 : (simpleJ v && simpleA tl) = true := hs
    rw [Bool.and_eq_true] at h2
    exact h2
  have hfe : jfuelA (.acons v tl) = 1 + jfuel v + jfuelA tl := rfl
  cases fuel with
  | zero => rfl
  | succ f =>
    rw [parseElems_succ f _]
    rw [show dumpsTArr (.acons v tl) ++ rest
        = dumpsT v ++ (',' :: (dumpsTArr tl ++ rest)) from by
      rw [dumpsTArr_cons]
      simp]
    by_cases htv : trailFree v = true
    · rw [show dumpsT v = dumps v from trailFree_dumps_eq v htv]
      rw [parse_dumps v f (',' :: (dumpsTArr tl ++ rest)) hsplit.1 (by rfl) (by omega)]
      cases tl with
      | anil =>
        show ((match parseElems f (']' :: rest) with
          | some (Json.jarr a, rem3) => some (Json.jarr (JArr.acons v a), rem3)
          | _ => none : Option (Json × List Char)) = none)
        rw [parseElems_closer f rest]
      | acons v2 tl2 =>
        show ((match parseElems f (dumpsTArr (.acons v2 tl2) ++ rest) with
          | some (Json.jarr a, rem3) => some (Json.jarr (JArr.acons v a), rem3)
          | _ => none : Option (Json × List Char)) = none)
        rw [parseT_noneA v2 tl2 f rest hsplit.2 (by
          have h3 : jfuelA (.acons v2 tl2) = 1 + jfuel v2 + jfuelA tl2 := rfl
          omega)]
    · have htf : trailFree v = false := by
        cases h4 : trailFree v with
        | false => rfl
        | true => exact absurd h4 htv
      rw [parseT_none v f (',' :: (dumpsTArr tl ++ rest)) hsplit.1 htf (by omega)]
termination_by sizeOf (JArr.acons v tl)
end
/-- One out-of-string step of the brace-balanced extractor. -/
theorem extractGo_out (ch : Char) (rest : List Char) (d : Nat) (st : Bool) (acc : List Char) :
    extractGo (ch :: rest) false false d st acc =
      (if ch = '"' then extractGo rest true false d st (ch :: acc)
       else if ch = lb then
         (if d = 0 then extractGo rest false false 1 true [ch]
          else extractGo rest false false (d + 1) st (ch :: acc))
       else if ch = rb then
         (match d with
          | 0 => extractGo rest false false 0 st acc
          | 1 => if st then some (ch :: acc).reverse
                 else extractGo rest false false 0 st acc
          | e + 2 => extractGo rest false false (e + 1) st (ch :: acc))
       else extractGo rest false false d st (ch :: acc)) := by
  conv_lhs => rw [extractGo.eq_def]
  rfl

/-- One in-string step of the brace-balanced extractor. -/
theorem extractGo_instr (ch : Char) (rest : List Char) (d : Nat) (st : Bool) (acc : List Char) :
    extractGo (ch :: rest) true false d st acc =
      (if ch = '\\' then extractGo rest true true d st (ch :: acc)
       else if ch = '"' then extractGo rest false false d st (ch :: acc)
       else extractGo rest true false d st (ch :: acc)) := by
  conv_lhs => rw [extractGo.eq_def]
  rfl

/-- The extractor pushes a run of unremarkable characters onto its
accumulator. -/
theorem extract_plain (u : List Char)
    (hu : ∀ c ∈ u, ¬(c = '"') ∧ ¬(c = lb) ∧ ¬(c = rb)) :
    ∀ (rest : List Char) (d : Nat) (st : Bool) (acc : List Char),
    extractGo (u ++ rest) false false d st acc
      = extractGo rest false false d st (u.reverse ++ acc) := by
  induction u with
  | nil =>
    intro rest d st acc
    simp
  | cons c u2 ih =>
    intro rest d st acc
    have hc := hu c (List.mem_cons_self c u2)
    rw [List.cons_append, extractGo_out c (u2 ++ rest) d st acc]
    rw [if_neg hc.1, if_neg hc.2.1, if_neg hc.2.2]
    rw [ih (fun x hx => hu x (List.mem_cons_of_mem c hx)) rest d st (c :: acc)]
    congr 1
    simp

/-- The extractor copies a simple string body and leaves string mode at
the closing quote. -/
theorem extract_strbody (kk : List Char)
    (hk : ∀ c ∈ kk, ¬(c = '\\') ∧ ¬(c = '"')) :
    ∀ (rest : List Char) (d : Nat) (st : Bool) (acc : List Char),
    extractGo (kk ++ '"' :: rest) true false d st acc
      = extractGo rest false false d st ('"' :: kk.reverse ++ acc) := by
  induction kk with
  | nil =>
    intro rest d st acc
    rw [List.nil_append, extractGo_instr '"' rest d st acc]
    rw [if_neg (by decide), if_pos (by rfl)]
    rfl
  | cons c kk2 ih =>
    intro rest d st acc
    have hc := hk c (List.mem_cons_self c kk2)
    rw [List.cons_append, extractGo_instr c (kk2 ++ '"' :: rest) d st acc]
    rw [if_neg hc.1, if_neg hc.2]
    rw [ih (fun x hx => hk x (List.mem_cons_of_mem c hx)) rest d st (c :: acc)]
    congr 1
    simp

mutual
/-- Scanning a serialized simple value inside the first object keeps the
depth and pushes its characters. -/
theorem extract_val (v : Json) : ∀ (h : simpleJ v = true)
    (rest : List Char) (d : Nat) (st : Bool) (acc : List Char),
    extractGo (dumpsT v ++ rest) false false (d + 1) st acc
      = extractGo rest false false (d + 1) st ((dumpsT v).reverse ++ acc) := by
  intro h rest d st acc
  cases v with
  | jnull =>
    exact extract_plain ['n','u','l','l'] (by decide) rest (d + 1) st acc
  | jbool b =>
    cases b
    · exact extract_plain ['f','a','l','s','e'] (by decide) rest (d + 1) st acc
    · exact extract_plain ['t','r','u','e'] (by decide) rest (d + 1) st acc
  | jnum n =>
    exact extract_plain (intChars n)
      (fun c hc => ⟨(intChars_no_special n c hc).2.2.2.2.2.1,
        (intChars_no_special n c hc).2.2.2.2.2.2,
        (intChars_no_special n c hc).2.2.2.1⟩) rest (d + 1) st acc
  | jstr s =>
    have hall : s.all simpleChar = true := h
    rw [show dumpsT (Json.jstr s) ++ rest = '"' :: (s ++ '"' :: rest) from by
      show ('"' :: s.flatMap escChar ++ ['"']) ++ rest = '"' :: (s ++ '"' :: rest)
      rw [flatMap_esc_id s hall]
      simp]
    rw [extractGo_out '"' (s ++ '"' :: rest) (d + 1) st acc]
    rw [if_pos (by rfl)]
    rw [extract_strbody s (fun c hc =>
      ⟨(simpleChar_ne c (List.all_eq_true.mp hall c hc)).2.1,
       (simpleChar_ne c (List.all_eq_true.mp hall c hc)).1⟩) rest (d + 1) st ('"' :: acc)]
    congr 1
    rw [show dumpsT (Json.jstr s) = '"' :: s.flatMap escChar ++ ['"'] from rfl,
      flatMap_esc_id s hall]
    simp
  | jarr a =>
    rw [show dumpsT (Json.jarr a) ++ rest = '[' :: (dumpsTArr a ++ rest) from rfl]
    rw [extractGo_out '[' (dumpsTArr a ++ rest) (d + 1) st acc]
    rw [if_neg (by decide), if_neg (by decide), if_neg (by decide)]
    rw [extract_arr a h rest d st ('[' :: acc)]
    congr 1
    rw [show dumpsT (Json.jarr a) = '[' :: dumpsTArr a from rfl]
    simp
  | jobj o =>
    rw [show dumpsT (Json.jobj o) ++ rest = lb :: (dumpsTObj o ++ rest) from rfl]
    rw [extractGo_out lb (dumpsTObj o ++ rest) (d + 1) st acc]
    rw [if_neg (by decide), if_pos (by rfl), if_neg (by omega)]
    rw [extract_obj o h rest d st (lb :: acc)]
    congr 1
    rw [show dumpsT (Json.jobj o) = lb :: dumpsTObj o from rfl]
    simp
termination_by sizeOf v

/-- Array contents inside the first object: same depth before and after. -/
theorem extract_arr (a : JArr) : ∀ (h : simpleA a = true)
    (rest : List Char) (d : Nat) (st : Bool) (acc : List Char),
    extractGo (dumpsTArr a ++ rest) false false (d + 1) st acc
      = extractGo rest false false (d + 1) st ((dumpsTArr a).reverse ++ acc) := by
  intro h rest d st acc
  cases a with
  | anil =>
    exact extract_plain [']'] (by decide) rest (d + 1) st acc
  | acons v tl =>
    have hsp : simpleJ v = true ∧ simpleA tl = true := by
      have h2 : (simpleJ v && simpleA tl) = true := h
      rw [Bool.and_eq_true] at h2
      exact h2
    rw [show dumpsTArr (JArr.acons v tl) ++ rest
        = dumpsT v ++ (',' :: (dumpsTArr tl ++ rest)) from by
      rw [dumpsTArr_cons]
      simp]
    rw [extract_val v hsp.1 (',' :: (dumpsTArr tl ++ rest)) d st acc]
    rw [extractGo_out ',' (dumpsTArr tl ++ rest) (d + 1) st ((dumpsT v).reverse ++ acc)]
    rw [if_neg (by decide), if_neg (by decide), if_neg (by decide)]
    rw [extract_arr tl hsp.2 rest d st (',' :: ((dumpsT v).reverse ++ acc))]
    congr 1
    rw [dumpsTArr_cons]
    simp
termination_by sizeOf a

/-- Object contents nested inside the first object: the closing brace
brings the depth back down one level. -/
theorem extract_obj (o : JObj) : ∀ (h : simpleO o = true)
    (rest : List Char) (d : Nat) (st : Bool) (acc : List Char),
    extractGo (dumpsTObj o ++ rest) false false (d + 2) st acc
      = extractGo rest false false (d + 1) st ((dumpsTObj o).reverse ++ acc) := by
  intro h rest d st acc
  cases o with
  | onil =>
    rw [show dumpsTObj JObj.onil ++ rest = rb :: rest from rfl]
    rw [extractGo_out rb rest (d + 2) st acc]
    rw [if_neg (by decide), if_neg (by decide), if_pos (by rfl)]
    rfl
  | ocons k v tl =>
    have hsp : k.all simpleChar = true ∧ simpleJ v = true ∧ simpleO tl = true := by
      have h2 : (k.all simpleChar && simpleJ v && simpleO tl) = true := h
      rw [Bool.and_eq_true, Bool.and_eq_true] at h2
      exact ⟨h2.1.1, h2.1.2, h2.2⟩
    rw [show dumpsTObj (JObj.ocons k v tl) ++ rest
        = '"' :: (k ++ '"' :: (':' :: (dumpsT v ++ ',' :: (dumpsTObj tl ++ rest)))) from by
      rw [dumpsTObj_cons, flatMap_esc_id k hsp.1]
      simp]
    rw [extractGo_out '"' _ (d + 2) st acc]
    rw [if_pos (by rfl)]
    rw [extract_strbody k (fun c hc =>
      ⟨(simpleChar_ne c (List.all_eq_true.mp hsp.1 c hc)).2.1,
       (simpleChar_ne c (List.all_eq_true.mp hsp.1 c hc)).1⟩) _ (d + 2) st ('"' :: acc)]
    rw [extractGo_out ':' _ (d + 2) st _]
    rw [if_neg (by decide), if_neg (by decide), if_neg (by decide)]
    rw [show (d : Nat) + 2 = (d + 1) + 1 from rfl]
    rw [extract_val v hsp.2.1 (',' :: (dumpsTObj tl ++ rest)) (d + 1) st _]
    rw [extractGo_out ',' _ ((d + 1) + 1) st _]
    rw [if_neg (by decide), if_neg (by decide), if_neg (by decide)]
    rw [show (d : Nat) + 1 + 1 = d + 2 from rfl]
    rw [extract_obj tl hsp.2.2 rest d st _]
    congr 1
    rw [dumpsTObj_cons, flatMap_esc_id k hsp.1]
    simp
termination_by sizeOf o
end

/-- At depth 1 with the capture started, scanning the members of the
outer object ends at its closing brace and returns the whole capture. -/
theorem extract_objTop (o : JObj) : ∀ (h : simpleO o = true) (rest acc : List Char),
    extractGo (dumpsTObj o ++ rest) false false 1 true acc
      = some (acc.reverse ++ dumpsTObj o) := by
  intro h rest acc
  cases o with
  | onil =>
    rw [show dumpsTObj JObj.onil ++ rest = rb :: rest from rfl]
    rw [extractGo_out rb rest 1 true acc]
    rw [if_neg (by decide), if_neg (by decide), if_pos (by rfl)]
    show some ((rb :: acc).reverse) = some (acc.reverse ++ dumpsTObj JObj.onil)
    rw [List.reverse_cons]
    rfl
  | ocons k v tl =>
    have hsp : k.all simpleChar = true ∧ simpleJ v = true ∧ simpleO tl = true := by
      have h2 : (k.all simpleChar && simpleJ v && simpleO tl) = true := h
      rw [Bool.and_eq_true, Bool.and_eq_true] at h2
      exact ⟨h2.1.1, h2.1.2, h2.2⟩
    rw [show dumpsTObj (JObj.ocons k v tl) ++ rest
        = '"' :: (k ++ '"' :: (':' :: (dumpsT v ++ ',' :: (dumpsTObj tl ++ rest)))) from by
      rw [dumpsTObj_cons, flatMap_esc_id k hsp.1]
      simp]
    rw [extractGo_out '"' _ 1 true acc]
    rw [if_pos (by rfl)]
    rw [extract_strbody k (fun c hc =>
      ⟨(simpleChar_ne c (List.all_eq_true.mp hsp.1 c hc)).2.1,
       (simpleChar_ne c (List.all_eq_true.mp hsp.1 c hc)).1⟩) _ 1 true ('"' :: acc)]
    rw [extractGo_out ':' _ 1 true _]
    rw [if_neg (by decide), if_neg (by decide), if_neg (by decide)]
    rw [show (1 : Nat) = 0 + 1 from rfl]
    rw [extract_val v hsp.2.1 (',' :: (dumpsTObj tl ++ rest)) 0 true _]
    rw [extractGo_out ',' _ (0 + 1) true _]
    rw [if_neg (by decide), if_neg (by decide), if_neg (by decide)]
    rw [show (0 : Nat) + 1 = 1 from rfl]
    rw [extract_objTop tl hsp.2.2 rest _]
    congr 1
    rw [dumpsTObj_cons, flatMap_esc_id k hsp.1]
    simp
termination_by sizeOf o

/-- `extract_first_object` returns the whole trailing-comma serialization
of a simple object. -/
theorem extractT_whole (o : JObj) (h : simpleO o = true) :
    extractFirstObject (dumpsT (.jobj o)) = some (dumpsT (.jobj o)) := by
  unfold extractFirstObject
  rw [show dumpsT (Json.jobj o) = lb :: dumpsTObj o from rfl]
  rw [extractGo_out lb (dumpsTObj o) 0 false []]
  rw [if_neg (by decide), if_pos (by rfl), if_pos (by rfl)]
  have h2 := extract_objTop o h [] [lb]
  rw [List.append_nil] at h2
  rw [h2]
  congr 1
/-- Step of the comma-repair scanner with an empty pending buffer. -/
theorem cfGo_nilbuf (c : Char) (rest : List Char) :
    cfGo [] (c :: rest) =
      (if c = ',' then cfGo [','] rest else c :: cfGo [] rest) := by
  conv_lhs => rw [cfGo.eq_def]
  rfl

/-- Step of the comma-repair scanner with a pending comma. -/
theorem cfGo_combuf (c : Char) (rest : List Char) :
    cfGo [','] (c :: rest) =
      (if isWsChar c then cfGo ([','] ++ [c]) rest
       else if c = rb || c = ']' then c :: cfGo [] rest
       else if c = ',' then [','] ++ cfGo [','] rest
       else [','] ++ c :: cfGo [] rest) := by
  conv_lhs => rw [cfGo.eq_def]
  rfl

/-- The comma repair copies comma-free text unchanged. -/
theorem cf_plain (u : List Char) (hu : ∀ c ∈ u, ¬(c = ',')) :
    ∀ (rest : List Char), cfGo [] (u ++ rest) = u ++ cfGo [] rest := by
  induction u with
  | nil => intro rest; rfl
  | cons c u2 ih =>
    intro rest
    rw [List.cons_append, cfGo_nilbuf c (u2 ++ rest)]
    rw [if_neg (hu c (List.mem_cons_self c u2))]
    rw [ih (fun x hx => hu x (List.mem_cons_of_mem c hx)) rest]
    rfl

/-- A pending comma before an unremarkable character is emitted
unchanged. -/
theorem cf_comma (x : List Char)
    (hx : ∀ c, x.head? = some c → isWsChar c = false ∧ ¬(c = rb) ∧ ¬(c = ']') ∧ ¬(c = ',')) :
    cfGo [','] x = ',' :: cfGo [] x := by
  cases x with
  | nil => rfl
  | cons c t =>
    have hc := hx c rfl
    rw [cfGo_combuf c t]
    rw [if_neg (by rw [hc.1]; exact Bool.false_ne_true)]
    rw [if_neg (by
      simp only [Bool.or_eq_true, decide_eq_true_eq]
      rintro (he | he)
      · exact hc.2.1 he
      · exact hc.2.2.1 he)]
    rw [if_neg hc.2.2.2]
    rw [cfGo_nilbuf c t, if_neg hc.2.2.2]
    rfl

mutual
/-- The comma repair turns a simple value's trailing-comma serialization
into its compact serialization. -/
theorem cf_val (v : Json) : ∀ (h : simpleJ v = true) (rest : List Char),
    cfGo [] (dumpsT v ++ rest) = dumps v ++ cfGo [] rest := by
  intro h rest
  cases v with
  | jnull => exact cf_plain ['n','u','l','l'] (by decide) rest
  | jbool b =>
    cases b
    · exact cf_plain ['f','a','l','s','e'] (by decide) rest
    · exact cf_plain ['t','r','u','e'] (by decide) rest
  | jnum n =>
    exact cf_plain (intChars n) (fun c hc => (intChars_no_special n c hc).2.1) rest
  | jstr s =>
    have hall : s.all simpleChar = true := h
    have hmain := cf_plain ('"' :: (s ++ ['"'])) (by
      intro c hc
      rcases List.mem_cons.mp hc with hc | hc
      · subst hc; decide
      · rcases List.mem_append.mp hc with hc | hc
        · exact (simpleChar_ne c (List.all_eq_true.mp hall c hc)).2.2.2.2.2.2.2.1
        · rcases List.mem_cons.mp hc with hc | hc
          · subst hc; decide
          · exact absurd hc (List.not_mem_nil c)) rest
    rw [show dumpsT (Json.jstr s) ++ rest = ('"' :: (s ++ ['"'])) ++ rest from by
      show ('"' :: s.flatMap escChar ++ ['"']) ++ rest = _
      rw [flatMap_esc_id s hall]
      simp]
    rw [hmain]
    rw [show dumps (Json.jstr s) = '"' :: (s ++ ['"']) from by
      show '"' :: s.flatMap escChar ++ ['"'] = _
      rw [flatMap_esc_id s hall]
      simp]
  | jarr a =>
    rw [show dumpsT (Json.jarr a) ++ rest = '[' :: (dumpsTArr a ++ rest) from rfl]
    rw [cfGo_nilbuf '[' _, if_neg (by decide)]
    rw [cf_arr a h rest]
    rfl
  | jobj o =>
    rw [show dumpsT (Json.jobj o) ++ rest = lb :: (dumpsTObj o ++ rest) from rfl]
    rw [cfGo_nilbuf lb _, if_neg (by decide)]
    rw [cf_obj o h rest]
    rfl
termination_by sizeOf v

/-- Array side of the comma repair. -/
theorem cf_arr (a : JArr) : ∀ (h : simpleA a = true) (rest : List Char),
    cfGo [] (dumpsTArr a ++ rest) = dumpsArr a ++ cfGo [] rest := by
  intro h rest
  cases a with
  | anil =>
    rw [show dumpsTArr JArr.anil ++ rest = ']' :: rest from rfl]
    rw [cfGo_nilbuf ']' rest, if_neg (by decide)]
    rfl
  | acons v tl =>
    have hsp : simpleJ v = true ∧ simpleA tl = true := by
      have h2 : (simpleJ v && simpleA tl) = true := h
      rw [Bool.and_eq_true] at h2
      exact h2
    rw [show dumpsTArr (JArr.acons v tl) ++ rest
        = dumpsT v ++ (',' :: (dumpsTArr tl ++ rest)) from by
      rw [dumpsTArr_cons]
      simp]
    rw [cf_val v hsp.1 (',' :: (dumpsTArr tl ++ rest))]
    rw [cfGo_nilbuf ',' _, if_pos (by rfl)]
    cases tl with
    | anil =>
      rw [show dumpsTArr JArr.anil ++ rest = ']' :: rest from rfl]
      rw [cfGo_combuf ']' rest]
      rw [if_neg (by decide), if_pos (by decide)]
      rw [show dumpsArr (JArr.acons v JArr.anil) = dumps v ++ [']'] from rfl]
      simp
    | acons v2 tl2 =>
      rw [cf_comma (dumpsTArr (JArr.acons v2 tl2) ++ rest) (by
        intro c hc
        obtain ⟨c0, cs0, hcs0, -, hw0, hcl0, hrb0, hcm0, -⟩ := dumpsT_head v2
        rw [show dumpsTArr (JArr.acons v2 tl2) ++ rest = c0 :: (cs0 ++ (',' :: dumpsTArr tl2 ++ rest)) from by
          rw [dumpsTArr_cons, hcs0]
          simp] at hc
        rw [List.head?_cons] at hc
        injection hc with hc
        subst hc
        exact ⟨hw0, hrb0, hcl0, hcm0⟩)]
      rw [cf_arr (JArr.acons v2 tl2) hsp.2 rest]
      rw [show dumpsArr (JArr.acons v (JArr.acons v2 tl2))
          = dumps v ++ ',' :: dumpsArr (JArr.acons v2 tl2) from rfl]
      simp
termination_by sizeOf a

/-- Object side of the comma repair. -/
theorem cf_obj (o : JObj) : ∀ (h : simpleO o = true) (rest : List Char),
    cfGo [] (dumpsTObj o ++ rest) = dumpsObj o ++ cfGo [] rest := by
  intro h rest
  cases o with
  | onil =>
    rw [show dumpsTObj JObj.onil ++ rest = rb :: rest from rfl]
    rw [cfGo_nilbuf rb rest, if_neg (by decide)]
    rfl
  | ocons k v tl =>
    have hsp : k.all simpleChar = true ∧ simpleJ v = true ∧ simpleO tl = true := by
      have h2 : (k.all simpleChar && simpleJ v && simpleO tl) = true := h
      rw [Bool.and_eq_true, Bool.and_eq_true] at h2
      exact ⟨h2.1.1, h2.1.2, h2.2⟩
    have hu : ∀ c ∈ '"' :: (k ++ ['"', ':']), ¬(c = ',') := by
      intro c hc
      rcases List.mem_cons.mp hc with hc | hc
      · subst hc; decide
      · rcases List.mem_append.mp hc with hc | hc
        · exact (simpleChar_ne c (List.all_eq_true.mp hsp.1 c hc)).2.2.2.2.2.2.2.1
        · rcases List.mem_cons.mp hc with hc | hc
          · subst hc; decide
          · rcases List.mem_cons.mp hc with hc | hc
            · subst hc; decide
            · exact absurd hc (List.not_mem_nil c)
    rw [show dumpsTObj (JObj.ocons k v tl) ++ rest
        = ('"' :: (k ++ ['"', ':'])) ++ (dumpsT v ++ (',' :: (dumpsTObj tl ++ rest))) from by
      rw [dumpsTObj_cons, flatMap_esc_id k hsp.1]
      simp]
    rw [cf_plain ('"' :: (k ++ ['"', ':'])) hu _]
    rw [cf_val v hsp.2.1 (',' :: (dumpsTObj tl ++ rest))]
    rw [cfGo_nilbuf ',' _, if_pos (by rfl)]
    cases tl with
    | onil =>
      rw [show dumpsTObj JObj.onil ++ rest = rb :: rest from rfl]
      rw [cfGo_combuf rb rest]
      rw [if_neg (by decide), if_pos (by decide)]
      rw [show dumpsObj (JObj.ocons k v JObj.onil)
          = '"' :: k.flatMap escChar ++ '"' :: ':' :: dumps v ++ [rb] from rfl]
      rw [flatMap_esc_id k hsp.1]
      simp
    | ocons k2 v2 tl2 =>
      rw [cf_comma (dumpsTObj (JObj.ocons k2 v2 tl2) ++ rest) (by
        intro c hc
        obtain ⟨X, hX⟩ : ∃ X, dumpsTObj (JObj.ocons k2 v2 tl2) = '"' :: X := by
          rw [dumpsTObj_cons]
          exact ⟨_, rfl⟩
        rw [show dumpsTObj (JObj.ocons k2 v2 tl2) ++ rest = '"' :: (X ++ rest) from by
          rw [hX]
          rfl] at hc
        rw [List.head?_cons] at hc
        injection hc with hc
        subst hc
        exact ⟨by decide, by decide, by decide, by decide⟩)]
      rw [cf_obj (JObj.ocons k2 v2 tl2) hsp.2.2 rest]
      rw [show dumpsObj (JObj.ocons k v (JObj.ocons k2 v2 tl2))
          = '"' :: k.flatMap escChar ++ '"' :: ':' :: dumps v
              ++ ',' :: dumpsObj (JObj.ocons k2 v2 tl2) from rfl]
      rw [flatMap_esc_id k hsp.1]
      simp
termination_by sizeOf o
end

/-- The comma repair maps the trailing-comma serialization of a simple
object to its compact serialization. -/
theorem commaFix_dumpsT (o : JObj) (h : simpleO o = true) :
    commaFix (dumpsT (.jobj o)) = dumps (.jobj o) := by
  unfold commaFix
  have h2 := cf_val (.jobj o) h []
  rw [List.append_nil] at h2
  rw [h2]
  rw [show cfGo [] [] = [] from rfl]
  rw [List.append_nil]
mutual
/-- Fuel bound against the trailing-comma serialization length. -/
theorem jfuelT_le (v : Json) : jfuel v ≤ 2 * (dumpsT v).length := by
  cases v with
  | jnull =>
    have h : jfuel Json.jnull = 1 := rfl
    have h2 : (dumpsT Json.jnull).length = 4 := rfl
    omega
  | jbool b =>
    cases b
    · have h : jfuel (Json.jbool false) = 1 := rfl
      have h2 : (dumpsT (Json.jbool false)).length = 5 := rfl
      omega
    · have h : jfuel (Json.jbool true) = 1 := rfl
      have h2 : (dumpsT (Json.jbool true)).length = 4 := rfl
      omega
  | jnum n =>
    obtain ⟨c, cs, hcs, -⟩ := intChars_head n
    have h : jfuel (Json.jnum n) = 1 := rfl
    have h2 : dumpsT (Json.jnum n) = c :: cs := hcs
    rw [h, h2]
    simp only [List.length_cons]
    omega
  | jstr s =>
    have h : jfuel (Json.jstr s) = 1 := rfl
    have h2 : dumpsT (Json.jstr s) = '"' :: (s.flatMap escChar ++ ['"']) := rfl
    rw [h, h2]
    simp only [List.length_cons]
    omega
  | jarr a =>
    have h : jfuel (Json.jarr a) = 2 + jfuelA a := rfl
    have h2 : dumpsT (Json.jarr a) = '[' :: dumpsTArr a := rfl
    have h3 := jfuelAT_le a
    rw [h, h2]
    simp only [List.length_cons]
    omega
  | jobj o =>
    have h : jfuel (Json.jobj o) = 2 + jfuelO o := rfl
    have h2 : dumpsT (Json.jobj o) = lb :: dumpsTObj o := rfl
    have h3 := jfuelOT_le o
    rw [h, h2]
    simp only [List.length_cons]
    omega
termination_by sizeOf v

/-- Array side of `jfuelT_le`. -/
theorem jfuelAT_le (a : JArr) : jfuelA a ≤ 2 * (dumpsTArr a).length := by
  cases a with
  | anil =>
    have h : jfuelA JArr.anil = 0 := rfl
    omega
  | acons v tl =>
    have h := jfuelT_le v
    have h3 := jfuelAT_le tl
    have h1 : jfuelA (JArr.acons v tl) = 1 + jfuel v + jfuelA tl := rfl
    rw [h1, dumpsTArr_cons]
    simp only [List.length_append, List.length_cons]
    omega
termination_by sizeOf a

/-- Object side of `jfuelT_le`. -/
theorem jfuelOT_le (o : JObj) : jfuelO o ≤ 2 * (dumpsTObj o).length := by
  cases o with
  | onil =>
    have h : jfuelO JObj.onil = 0 := rfl
    omega
  | ocons k v tl =>
    have h := jfuelT_le v
    have h3 := jfuelOT_le tl
    have h1 : jfuelO (JObj.ocons k v tl) = 1 + jfuel v + jfuelO tl := rfl
    rw [h1, dumpsTObj_cons]
    simp only [List.length_append, List.length_cons]
    omega
termination_by sizeOf o
end

/-- `json.loads` recovers a serialized simple object. -/
theorem jsonLoads_dumps (o : JObj) (h : simpleO o = true) :
    jsonLoads (dumps (.jobj o)) = some (.jobj o) := by
  unfold jsonLoads
  have hp := parse_dumps (.jobj o) (2 * (dumps (.jobj o)).length + 8) [] h (by rfl) (by
    have := jfuel_le (Json.jobj o)
    omega)
  rw [List.append_nil] at hp
  rw [hp]
  rfl

/-- `json.loads` rejects the trailing-comma serialization of a nonempty
object. -/
theorem jsonLoads_dumpsT_none (k : List Char) (w : Json) (tl : JObj)
    (h : simpleO (.ocons k w tl) = true) :
    jsonLoads (dumpsT (.jobj (.ocons k w tl))) = none := by
  unfold jsonLoads
  have hp := parseT_none (.jobj (.ocons k w tl))
    (2 * (dumpsT (.jobj (.ocons k w tl))).length + 8) [] h rfl (by
      have := jfuelT_le (Json.jobj (JObj.ocons k w tl))
      omega)
  rw [List.append_nil] at hp
  rw [hp]

/-- A fence-opening attempt fails away from a backtick. -/
theorem fenceAt_none (c : Char) (rest : List Char) (h : ¬(c = bt)) :
    fenceAt (c :: rest) = none := by
  unfold fenceAt
  rw [startsWithL_ne_head bt c [bt, bt] rest h]
  simp only [Bool.false_eq_true, if_false]

/-- The fence search fails on backtick-free text. -/
theorem fenceGo_none (s : List Char) (h : ∀ c ∈ s, ¬(c = bt)) : fenceGo s = none := by
  induction s with
  | nil => rfl
  | cons c cs ih =>
    unfold fenceGo
    rw [fenceAt_none c cs (h c (List.mem_cons_self c cs))]
    exact ih (fun x hx => h x (List.mem_cons_of_mem c hx))

/-- Position of a pattern after a clean prefix. -/
theorem findSubIdx_app (p : Char) (ps u v : List Char) (hu : ∀ c ∈ u, ¬(c = p))
    (hv : startsWithL (p :: ps) v = true) :
    findSubIdx (p :: ps) (u ++ v) = some u.length := by
  induction u with
  | nil =>
    rw [List.nil_append]
    cases v with
    | nil =>
      rw [show startsWithL (p :: ps) [] = false from rfl] at hv
      exact absurd hv (by decide)
    | cons c cs =>
      unfold findSubIdx
      rw [if_pos hv]
      rfl
  | cons c u2 ih =>
    rw [List.cons_append]
    unfold findSubIdx
    rw [startsWithL_ne_head p c ps (u2 ++ v) (hu c (List.mem_cons_self c u2))]
    simp only [Bool.false_eq_true, if_false]
    rw [ih (fun x hx => hu x (List.mem_cons_of_mem c hx))]
    rfl

/-- A trailing newline is absorbed by the right strip. -/
theorem dropTrailWs_nl (u : List Char) : dropTrailWs (u ++ ['\n']) = dropTrailWs u := by
  unfold dropTrailWs
  rw [List.reverse_append]
  rw [show List.reverse ['\n'] ++ u.reverse = '\n' :: u.reverse from rfl]
  rw [List.dropWhile_cons_of_pos (by decide)]

/-- The right strip is the identity when the last character is not
whitespace. -/
theorem dropTrailWs_ends (s : List Char)
    (h : ∀ c, s.reverse.head? = some c → isWsChar c = false) : dropTrailWs s = s := by
  unfold dropTrailWs
  cases hrev : s.reverse with
  | nil =>
    rw [show List.dropWhile isWsChar [] = ([] : List Char) from rfl]
    rw [show List.reverse ([] : List Char) = [] from rfl]
    exact (List.reverse_eq_nil_iff.mp hrev).symm
  | cons a tl =>
    rw [List.dropWhile_cons_of_neg (by
      rw [h a (by rw [hrev]; exact List.head?_cons)]
      exact Bool.false_ne_true)]
    rw [← hrev, List.reverse_reverse]

/-- `str.strip` is the identity when both ends are not whitespace. -/
theorem pyStrip_ends (s : List Char)
    (h1 : ∀ c, s.head? = some c → isWsChar c = false)
    (h2 : ∀ c, s.reverse.head? = some c → isWsChar c = false) : pyStrip s = s := by
  unfold pyStrip
  have hdrop : s.dropWhile isWsChar = s := by
    cases s with
    | nil => rfl
    | cons a tl =>
      rw [List.dropWhile_cons_of_neg (by
        rw [h1 a List.head?_cons]
        exact Bool.false_ne_true)]
  rw [hdrop]
  exact dropTrailWs_ends s h2

/-- BOM stripping is the identity away from a BOM. -/
theorem dropBom_cons (c : Char) (tl : List Char) (h : ¬(c = bomChar)) :
    (c :: tl).dropWhile (· = bomChar) = c :: tl := by
  rw [List.dropWhile_cons_of_neg (by
    simp only [decide_eq_true_eq]
    exact h)]

/-- The fence matcher on a fenced simple-object payload returns exactly
the payload. -/
theorem fenceAt_wrap (o : JObj) (h : simpleO o = true) :
    fenceAt (fenceWrap (dumps (.jobj o))) = some (dumps (.jobj o)) := by
  unfold fenceAt
  rw [if_pos (show startsWithL [bt, bt, bt] (fenceWrap (dumps (.jobj o))) = true from by
    rw [show fenceWrap (dumps (.jobj o)) = [bt, bt, bt]
        ++ ('j' :: 's' :: 'o' :: 'n' :: '\n' :: (dumps (.jobj o) ++ '\n' :: [bt, bt, bt]))
      from by
        unfold fenceWrap
        simp]
    exact startsWithL_prepend _ _)]
  show (match findSubIdx [bt, bt, bt] (dumps (Json.jobj o) ++ '\n' :: [bt, bt, bt]) with
    | some k => some (dropTrailWs ((dumps (Json.jobj o) ++ '\n' :: [bt, bt, bt]).take k))
    | none => none) = some (dumps (Json.jobj o))
  rw [show dumps (Json.jobj o) ++ '\n' :: [bt, bt, bt]
      = (dumps (Json.jobj o) ++ ['\n']) ++ [bt, bt, bt] from by simp]
  rw [findSubIdx_app bt [bt, bt] (dumps (Json.jobj o) ++ ['\n']) [bt, bt, bt]
    (by
      intro c hc
      rcases List.mem_append.mp hc with hc | hc
      · exact dumps_no_bt (Json.jobj o) h c hc
      · rcases List.mem_cons.mp hc with hc | hc
        · subst hc; decide
        · exact absurd hc (List.not_mem_nil c))
    (by decide)]
  show some (dropTrailWs (((dumps (Json.jobj o) ++ ['\n']) ++ [bt, bt, bt]).take
      (dumps (Json.jobj o) ++ ['\n']).length)) = some (dumps (Json.jobj o))
  rw [List.take_left]
  rw [dropTrailWs_nl]
  rw [dropTrailWs_ends (dumps (Json.jobj o)) (by
    intro c hc
    obtain ⟨u, hu⟩ := dumpsObj_last o
    rw [show dumps (Json.jobj o) = (lb :: u) ++ [rb] from by
      rw [show dumps (Json.jobj o) = lb :: dumpsObj o from rfl, hu]
      rfl] at hc
    rw [List.reverse_append] at hc
    rw [show List.reverse [rb] ++ (lb :: u).reverse = rb :: (lb :: u).reverse from rfl] at hc
    rw [List.head?_cons] at hc
    injection hc with hc
    subst hc
    decide)]

/-- Step form of the fence search. -/
theorem fenceGo_cons (c : Char) (rest : List Char) :
    fenceGo (c :: rest) =
      (match fenceAt (c :: rest) with
       | some inner => some inner
       | none => fenceGo rest) := by
  conv_lhs => rw [fenceGo.eq_def]

/-- The fence search on a fenced payload finds the payload. -/
theorem fenceGo_wrap (o : JObj) (h : simpleO o = true) :
    fenceGo (fenceWrap (dumps (.jobj o))) = some (dumps (.jobj o)) := by
  rw [show fenceWrap (dumps (.jobj o))
      = bt :: ([bt, bt, 'j', 's', 'o', 'n', '\n']
          ++ (dumps (.jobj o) ++ '\n' :: [bt, bt, bt])) from by
    unfold fenceWrap
    simp]
  rw [fenceGo_cons]
  rw [show bt :: ([bt, bt, 'j', 's', 'o', 'n', '\n']
      ++ (dumps (.jobj o) ++ '\n' :: [bt, bt, bt])) = fenceWrap (dumps (.jobj o)) from by
    unfold fenceWrap
    simp]
  rw [fenceAt_wrap o h]

/-- `safe_parse_json` on a nonempty payload, unfolded one step. -/
theorem safeParseJson_some (s0 : List Char) (hne : ¬(s0 = [])) :
    safeParseJson (some s0) =
      (match fenceGo (pyStrip (s0.dropWhile (· = bomChar))) with
       | some inner =>
         (match jsonLoads inner with
          | some v => some v
          | none =>
            match jsonLoads (commaFix inner) with
            | some v => some v
            | none => afterFence (pyStrip (s0.dropWhile (· = bomChar))))
       | none => afterFence (pyStrip (s0.dropWhile (· = bomChar)))) := by
  conv_lhs => rw [safeParseJson]
  rw [if_neg hne]

/-- `afterFence` when the fragment carries no leading fence. -/
theorem afterFence_nofence (raw0 : List Char)
    (h : startsWithL [bt, bt, bt] raw0 = false) :
    afterFence raw0 =
      (match jsonLoads raw0 with
       | some v => some v
       | none =>
         match (match extractFirstObject raw0 with
                | some c => some c
                | none => braceFallback raw0) with
         | none => none
         | some c =>
           match jsonLoads (commaFix c) with
           | some v => some v
           | none => jsonLoads c) := by
  unfold afterFence
  rw [h]
  rfl

/-- The fence-wrap half of the repair roundtrip. -/
theorem spj_fence (o : JObj) (h : simpleO o = true) :
    safeParseJson (some (fenceWrap (dumps (.jobj o)))) = some (.jobj o) := by
  have hcons : fenceWrap (dumps (.jobj o))
      = bt :: ([bt, bt, 'j', 's', 'o', 'n', '\n']
          ++ (dumps (.jobj o) ++ '\n' :: [bt, bt, bt])) := by
    unfold fenceWrap
    simp
  have hrev : (fenceWrap (dumps (.jobj o))).reverse.head? = some bt := by
    rw [show fenceWrap (dumps (.jobj o))
        = ([bt, bt, bt, 'j', 's', 'o', 'n', '\n'] ++ dumps (.jobj o) ++ ['\n', bt, bt]) ++ [bt]
      from by
        unfold fenceWrap
        simp]
    rw [List.reverse_append]
    rfl
  have hclean : pyStrip ((fenceWrap (dumps (.jobj o))).dropWhile (· = bomChar))
      = fenceWrap (dumps (.jobj o)) := by
    rw [hcons, dropBom_cons bt _ (by decide), ← hcons]
    refine pyStrip_ends _ ?_ ?_
    · intro c hc
      rw [hcons, List.head?_cons] at hc
      injection hc with hc
      subst hc
      rfl
    · intro c hc
      rw [hrev] at hc
      injection hc with hc
      subst hc
      rfl
  rw [safeParseJson_some _ (by
    rw [hcons]
    exact List.cons_ne_nil _ _)]
  rw [hclean]
  rw [fenceGo_wrap o h]
  show (match jsonLoads (dumps (Json.jobj o)) with
    | some v => some v
    | none =>
      match jsonLoads (commaFix (dumps (Json.jobj o))) with
      | some v => some v
      | none => afterFence (fenceWrap (dumps (Json.jobj o)))) = some (Json.jobj o)
  rw [jsonLoads_dumps o h]

/-- The trailing-comma half of the repair roundtrip, nonempty case. -/
theorem spj_trailing (k : List Char) (w : Json) (tl : JObj)
    (h : simpleO (.ocons k w tl) = true) :
    safeParseJson (some (dumpsT (.jobj (.ocons k w tl))))
      = some (.jobj (.ocons k w tl)) := by
  have hcons : dumpsT (.jobj (.ocons k w tl)) = lb :: dumpsTObj (.ocons k w tl) := rfl
  have hclean : pyStrip ((dumpsT (.jobj (.ocons k w tl))).dropWhile (· = bomChar))
      = dumpsT (.jobj (.ocons k w tl)) := by
    rw [hcons, dropBom_cons lb _ (by decide), ← hcons]
    refine pyStrip_ends _ ?_ ?_
    · intro c hc
      rw [hcons, List.head?_cons] at hc
      injection hc with hc
      subst hc
      rfl
    · intro c hc
      obtain ⟨u, hu⟩ := dumpsTObj_last (JObj.ocons k w tl)
      rw [show dumpsT (Json.jobj (JObj.ocons k w tl)) = (lb :: u) ++ [rb] from by
        rw [hcons, hu]
        rfl] at hc
      rw [List.reverse_append] at hc
      rw [show List.reverse [rb] ++ (lb :: u).reverse = rb :: (lb :: u).reverse from rfl] at hc
      rw [List.head?_cons] at hc
      injection hc with hc
      subst hc
      rfl
  rw [safeParseJson_some _ (by
    rw [hcons]
    exact List.cons_ne_nil _ _)]
  rw [hclean]
  rw [fenceGo_none _ (dumpsT_no_bt (Json.jobj (JObj.ocons k w tl)) h)]
  rw [afterFence_nofence _ (by
    rw [hcons]
    exact startsWithL_ne_head bt lb [bt, bt] _ (by decide))]
  rw [jsonLoads_dumpsT_none k w tl h]
  show (match (match extractFirstObject (dumpsT (Json.jobj (JObj.ocons k w tl))) with
        | some c => some c
        | none => braceFallback (dumpsT (Json.jobj (JObj.ocons k w tl)))) with
    | none => none
    | some c =>
      match jsonLoads (commaFix c) with
      | some v => some v
      | none => jsonLoads c) = some (Json.jobj (JObj.ocons k w tl))
  rw [extractT_whole (JObj.ocons k w tl) h]
  show (match jsonLoads (commaFix (dumpsT (Json.jobj (JObj.ocons k w tl)))) with
    | some v => some v
    | none => jsonLoads (dumpsT (Json.jobj (JObj.ocons k w tl))))
      = some (Json.jobj (JObj.ocons k w tl))
  rw [commaFix_dumpsT (JObj.ocons k w tl) h]
  rw [jsonLoads_dumps (JObj.ocons k w tl) h]
/-- C7 counterexample: on the object `("a" : ",]")` — a value the spec's
"any valid JSON object" includes — the trailing-comma repair rewrites
the `,]` INSIDE the string literal, so `safe_parse_json` recovers a
different object: the roundtrip equation of the claim fails. -/
theorem safe_parse_json_trailing_comma_cex :
    safeParseJson (some (dumpsT (.jobj (.ocons ['a'] (.jstr [',', ']']) .onil))))
      = some (.jobj (.ocons ['a'] (.jstr [']']) .onil)) ∧
    ¬(Json.jobj (.ocons ['a'] (.jstr [']']) .onil)
      = .jobj (.ocons ['a'] (.jstr [',', ']']) .onil)) :=
  ⟨by decide, by decide⟩

/-- C7 (amended): for every object whose strings (keys and values) avoid
the characters that interact with the repair regexes and the serializer's
escaping (`simpleO`), `safe_parse_json` recovers the object both from its
serialization wrapped in a Markdown code fence and from its serialization
with trailing commas inserted before every closing delimiter; for objects
with arbitrary strings the trailing-comma repair can rewrite string
contents, so the unrestricted claim fails. -/
theorem safe_parse_json_repair_roundtrip (o : JObj) (h : simpleO o = true) :
    safeParseJson (some (fenceWrap (dumps (.jobj o)))) = some (.jobj o) ∧
    safeParseJson (some (dumpsT (.jobj o))) = some (.jobj o) := by
  constructor
  · exact spj_fence o h
  · cases o with
    | onil => decide
    | ocons k w tl => exact spj_trailing k w tl h

/-- Witness: the repair roundtrip on the concrete object `("a" : "b c")`. -/
theorem safe_parse_json_repair_roundtrip_witness :
    simpleO (.ocons ['a'] (.jstr ['b', ' ', 'c']) .onil) = true ∧
    (safeParseJson (some (fenceWrap (dumps (.jobj (.ocons ['a'] (.jstr ['b', ' ', 'c']) .onil)))))
        = some (.jobj (.ocons ['a'] (.jstr ['b', ' ', 'c']) .onil)) ∧
      safeParseJson (some (dumpsT (.jobj (.ocons ['a'] (.jstr ['b', ' ', 'c']) .onil))))
        = some (.jobj (.ocons ['a'] (.jstr ['b', ' ', 'c']) .onil))) :=
  ⟨by decide, safe_parse_json_repair_roundtrip (.ocons ['a'] (.jstr ['b', ' ', 'c']) .onil)
    (by decide)⟩
